import Mathlib

/-!
Godegraph: the dependency-graph builder and the hierarchy projection.

A shallow embedding of `cmd/godegraph/main.go`: the Go graph builder
(`extractPackageDependencies` with its local helper `isInternalPackage`) and the
JavaScript `createHierarchy` of the embedded page.

A string is modelled as the sequence of its code units (`List Char`); `strings.HasPrefix`
and `split("/")` only look at that sequence.
-/

namespace Godegraph

/-- A Go (or JavaScript) string, as the sequence of its units. -/
abbrev Str := List Char

/-- Go `strings.HasPrefix(s, pre)`. -/
def hasPrefix (s pre : Str) : Bool := pre.isPrefixOf s

/-- Go `type ModuleInfo struct`. -/
structure ModuleInfo where
  Path : Str
  Dir : Str
  Name : Str
  Color : Str
  ModulePath : Str
deriving DecidableEq, Repr

/-- Go `type Node struct`. -/
structure Node where
  ID : Str
  Module : Str
deriving DecidableEq, Repr

/-- Go `type Link struct`. -/
structure Link where
  Source : Str
  Target : Str
deriving DecidableEq, Repr

/-- Go `type Package struct`: one decoded record of `go list -json`. -/
structure Package where
  ImportPath : Str
  Imports : List Str
deriving DecidableEq, Repr

/-- Go `type Graph struct` (`SavedPositions` is never assigned by the builder). -/
structure Graph where
  Nodes : List Node
  Links : List Link
  Modules : List ModuleInfo
deriving DecidableEq, Repr

/-- A Go `map[string]bool` in which only `true` is ever stored: the list of its keys,
without repeats. `mapSet m k` is `m[k] = true`. -/
def mapSet (m : List Str) (k : Str) : List Str :=
  if k ∈ m then m else m ++ [k]

/-- The loop `for _, mod := range modules { moduleMap[mod.ModulePath] = true }`,
started from the map `acc`. -/
def moduleMapFrom : List ModuleInfo → List Str → List Str
  | [], acc => acc
  | mod :: rest, acc => moduleMapFrom rest (mapSet acc mod.ModulePath)

/-- The keys of `moduleMap` after the first loop of the builder, in insertion order. Go
visits the keys of a map in an unspecified order; the builder below is run with this one,
and `isInternalPackage_of_keys` shows that the answer of `isInternalPackage` is the same
for every order. -/
def moduleMap (modules : List ModuleInfo) : List Str :=
  moduleMapFrom modules []

/-- The closure `isInternalPackage`; `keys` is the order in which `range moduleMap`
happens to visit the keys on this call. -/
def isInternalPackage : List Str → Str → Bool
  | [], _ => false
  | modPath :: rest, pkgPath =>
    if hasPrefix pkgPath modPath then true else isInternalPackage rest pkgPath

/-- The inner loop "Find which module this package belongs to": `moduleName` starts as
the empty string and is set at the first module whose path prefixes the package. -/
def findModuleName : List ModuleInfo → Str → Str
  | [], _ => []
  | mod :: rest, importPath =>
    if hasPrefix importPath mod.ModulePath then mod.ModulePath
    else findModuleName rest importPath

/-- The loop "Create nodes": `nodeMap` is the map of paths already seen and `nodes`
is `graph.Nodes` so far. -/
def createNodes (modules : List ModuleInfo) :
    List Package → List Str → List Node → List Node
  | [], _, nodes => nodes
  | pkg :: rest, nodeMap, nodes =>
    if isInternalPackage (moduleMap modules) pkg.ImportPath then
      if pkg.ImportPath ∈ nodeMap then
        createNodes modules rest nodeMap nodes
      else
        createNodes modules rest (mapSet nodeMap pkg.ImportPath)
          (nodes ++ [{ ID := pkg.ImportPath, Module := findModuleName modules pkg.ImportPath }])
    else
      createNodes modules rest nodeMap nodes

/-- The inner loop `for _, imp := range pkg.Imports` of the second pass. -/
def linkImports (modules : List ModuleInfo) (source : Str) :
    List Str → List Link → List Link
  | [], links => links
  | imp :: rest, links =>
    if isInternalPackage (moduleMap modules) imp then
      linkImports modules source rest (links ++ [{ Source := source, Target := imp }])
    else
      linkImports modules source rest links

/-- The loop "Second pass: Create links only between internal packages". -/
def createLinks (modules : List ModuleInfo) : List Package → List Link → List Link
  | [], links => links
  | pkg :: rest, links =>
    if !isInternalPackage (moduleMap modules) pkg.ImportPath then
      createLinks modules rest links
    else
      createLinks modules rest (linkImports modules pkg.ImportPath pkg.Imports links)

/-- The graph-building part of `extractPackageDependencies`, from the module list that
`findModules` returned and the records decoded from `go list`. -/
def extractPackageDependencies (modules : List ModuleInfo) (allPackages : List Package) :
    Graph :=
  { Nodes := createNodes modules allPackages [] []
    Links := createLinks modules allPackages []
    Modules := modules }

/-- A module with the given `ModulePath` (the other fields play no part in the graph). -/
def mkModule (modulePath : String) : ModuleInfo :=
  { Path := [], Dir := [], Name := [], Color := [], ModulePath := modulePath.toList }

/-- The ownership test of the specification: some module of the list has a
`ModulePath` that is a string prefix of `path`. -/
def IsInternal (modules : List ModuleInfo) (path : Str) : Prop :=
  ∃ m ∈ modules, m.ModulePath <+: path

instance (modules : List ModuleInfo) (path : Str) : Decidable (IsInternal modules path) := by
  unfold IsInternal; infer_instance

/-- A list with every later repeat of an element removed (the first occurrence stays). -/
def firstOccurrences : List Str → List Str
  | [] => []
  | a :: l => a :: (firstOccurrences l).filter (fun b => b ≠ a)

/-- The internal `ImportPath`s of the records, in record order, repeats included. -/
def internalPaths (modules : List ModuleInfo) (allPackages : List Package) : List Str :=
  (allPackages.map Package.ImportPath).filter (fun p => IsInternal modules p)

/-- The node the builder appends for an internal path. -/
def nodeOf (modules : List ModuleInfo) (p : Str) : Node :=
  { ID := p, Module := findModuleName modules p }

/-- The links one internal record contributes: one per internal entry of its `Imports`. -/
def linksOf (modules : List ModuleInfo) (pkg : Package) : List Link :=
  (pkg.Imports.filter (fun imp => IsInternal modules imp)).map
    (fun imp => { Source := pkg.ImportPath, Target := imp })

/-- The links of the second pass of the specification: for every internal record, every
internal target it imports, in order. -/
def specLinks (modules : List ModuleInfo) (allPackages : List Package) : List Link :=
  (allPackages.filter (fun pkg => IsInternal modules pkg.ImportPath)).flatMap (linksOf modules)

/-- The module list of the specification's scenarios 1 to 3. -/
def scenarioModules : List ModuleInfo := [mkModule "example.com/a"]

/-- The record of package `example.com/a/x`, which imports `example.com/a/y`. -/
def recordX : Package := ⟨"example.com/a/x".toList, ["example.com/a/y".toList]⟩

/-- The record of package `example.com/a/y`, which imports nothing. -/
def recordY : Package := ⟨"example.com/a/y".toList, []⟩

/-- A record of `example.com/a/x` that imports an internal and an external package. -/
def recordXZ : Package :=
  ⟨"example.com/a/x".toList, ["example.com/a/y".toList, "example.com/external/z".toList]⟩

/-- The record of a package below the nested module `example.com/a/sub`. -/
def recordSubPkg : Package := ⟨"example.com/a/sub/pkg".toList, []⟩

/-- The link `example.com/a/x → example.com/a/y`. -/
def linkXY : Link := ⟨"example.com/a/x".toList, "example.com/a/y".toList⟩

/-! ## The hierarchy projection (`createHierarchy` of the embedded page) -/

/-- JavaScript `s.split("/")`, for any separator unit `sep`: the parts between the
separators, empty parts included; the result is never empty. -/
def split (sep : Char) : Str → List Str
  | [] => [[]]
  | c :: s =>
    if c = sep then [] :: split sep s
    else
      match split sep s with
      | [] => [[c]]
      | part :: parts => (c :: part) :: parts

/-- An object built by `createHierarchy`. The objects are shared by reference between
`nodesMap` and the `children` arrays; every object other than the root is stored in
`nodesMap` under its own `id` from its creation on and is never replaced once a
`children` array refers to it, so a reference is represented by that key. `imports` and
`importedBy` are `none` while the property is undefined. -/
structure HObj where
  id : Str
  name : Str
  module : Str
  isPackage : Bool
  children : List Str
  imports : Option (List Str)
  importedBy : Option (List Str)

/-- The JavaScript `Map` named `nodesMap`. -/
abbrev NodesMap := Str → Option HObj

/-- The call `nodesMap.set(k, o)`. -/
def NodesMap.set (m : NodesMap) (k : Str) (o : HObj) : NodesMap :=
  fun k' => if k' = k then some o else m k'

/-- The mutable state of the tree-building loop: `nodesMap` and `root.children`. -/
structure HState where
  nodesMap : NodesMap
  rootChildren : List Str

/-- The first loop of `createHierarchy`: one package object per node of `data.nodes`. -/
def initNodesMap : List Node → NodesMap → NodesMap
  | [], m => m
  | node :: rest, m =>
    initNodesMap rest (m.set node.ID
      { id := node.ID
        name := (split '/' node.ID).getLastD []
        module := node.Module
        isPackage := true
        children := []
        imports := none
        importedBy := none })

/-- The statement `if (!parent.children.find(child => child.id === currentNode.id))
parent.children.push(currentNode)`; `parent = none` is the root object. The result is
`none` only if the parent reference points at no object. -/
def pushChild (st : HState) (parent : Option Str) (currentNode : Str) : Option HState :=
  match parent with
  | none =>
    if currentNode ∈ st.rootChildren then some st
    else some { st with rootChildren := st.rootChildren ++ [currentNode] }
  | some p =>
    match st.nodesMap p with
    | none => none
    | some o =>
      if currentNode ∈ o.children then some st
      else some { st with
        nodesMap := st.nodesMap.set p { o with children := o.children ++ [currentNode] } }

/-- The callback of `parts.forEach((part, index) => ...)` run over the remaining parts.
`len` is `parts.length`, `currentPath` and `parent` are the two variables of the enclosing
callback. The result is `none` when `nodesMap.get(currentPath)` is undefined at the last
index: the script then either throws on reading `currentNode.id` or pushes `undefined`
on `parent.children`, and no tree of objects results. -/
def walkParts (node : Node) (len : Nat) :
    List Str → Nat → Str → Option Str → HState → Option HState
  | [], _, _, _, st => some st
  | part :: rest, index, currentPath, parent, st =>
    if part = [] then walkParts node len rest (index + 1) currentPath parent st
    else
      let currentPath := if currentPath ≠ [] then currentPath ++ '/' :: part else part
      if index = len - 1 then
        match st.nodesMap currentPath with
        | none => none
        | some _ =>
          match pushChild st parent currentPath with
          | none => none
          | some st' => walkParts node len rest (index + 1) currentPath (some currentPath) st'
      else
        let folder : HObj :=
          { id := currentPath
            name := part
            module := node.Module
            isPackage := false
            children := []
            imports := none
            importedBy := none }
        let st1 : HState :=
          match st.nodesMap currentPath with
          | none => { st with nodesMap := st.nodesMap.set currentPath folder }
          | some _ => st
        match pushChild st1 parent currentPath with
        | none => none
        | some st' => walkParts node len rest (index + 1) currentPath (some currentPath) st'

/-- The second loop of `createHierarchy`: every node is walked down from the root. -/
def buildHierarchy : List Node → HState → Option HState
  | [], st => some st
  | node :: rest, st =>
    match walkParts node (split '/' node.ID).length (split '/' node.ID) 0 [] none st with
    | none => none
    | some st' => buildHierarchy rest st'

/-- The callback of `data.links.forEach`: a link whose two ends are in `nodesMap` is
pushed on `source.imports` and on `target.importedBy`. The target is read again after
the source was updated, as both may be the same object. -/
def addLink (m : NodesMap) (link : Link) : NodesMap :=
  match m link.Source, m link.Target with
  | some source, some target =>
    let m1 := m.set link.Source
      { source with imports := some (source.imports.getD [] ++ [target.id]) }
    match m1 link.Target with
    | none => m1
    | some target1 =>
      m1.set link.Target
        { target1 with importedBy := some (target1.importedBy.getD [] ++ [source.id]) }
  | _, _ => m

/-- The third loop of `createHierarchy`. -/
def addLinks : List Link → NodesMap → NodesMap
  | [], m => m
  | link :: rest, m => addLinks rest (addLink m link)

/-- The tree that the returned `root` object denotes. The root has neither `module` nor
`isPackage`, hence the options. -/
inductive HierarchyNode where
  | mk (id name : Str) (module : Option Str) (isPackage : Option Bool)
      (children : List HierarchyNode) (imports importedBy : Option (List Str))

namespace HierarchyNode

/-- The property `id`. -/
def id : HierarchyNode → Str
  | mk i _ _ _ _ _ _ => i

/-- The property `name`. -/
def name : HierarchyNode → Str
  | mk _ n _ _ _ _ _ => n

/-- The property `module`. -/
def module : HierarchyNode → Option Str
  | mk _ _ m _ _ _ _ => m

/-- The property `isPackage`. -/
def isPackage : HierarchyNode → Option Bool
  | mk _ _ _ b _ _ _ => b

/-- The property `children`. -/
def children : HierarchyNode → List HierarchyNode
  | mk _ _ _ _ cs _ _ => cs

/-- The property `imports`. -/
def imports : HierarchyNode → Option (List Str)
  | mk _ _ _ _ _ i _ => i

/-- The property `importedBy`. -/
def importedBy : HierarchyNode → Option (List Str)
  | mk _ _ _ _ _ _ i => i

mutual
/-- All nodes strictly below a node, parents before children. -/
def descendants : HierarchyNode → List HierarchyNode
  | mk _ _ _ _ cs _ _ => descendantsList cs
/-- All nodes of a list of trees. -/
def descendantsList : List HierarchyNode → List HierarchyNode
  | [] => []
  | c :: cs => c :: (descendants c ++ descendantsList cs)
end

end HierarchyNode

/-- A list of results, if every one is present. -/
def allSome {α : Type} : List (Option α) → Option (List α)
  | [] => some []
  | none :: _ => none
  | some a :: rest =>
    match allSome rest with
    | none => none
    | some l => some (a :: l)

/-- The tree below the object that `ref` points at, following the `children` references
at most `fuel` levels down; `none` if a reference points at no object or the tree is
deeper than `fuel`. -/
def toTree (m : NodesMap) : Nat → Str → Option HierarchyNode
  | 0, _ => none
  | fuel + 1, ref =>
    match m ref with
    | none => none
    | some o =>
      match allSome (o.children.map (toTree m fuel)) with
      | none => none
      | some cs =>
        some (HierarchyNode.mk o.id o.name (some o.module) (some o.isPackage) cs
          o.imports o.importedBy)

/-- A depth that no path of the hierarchy exceeds: a node is created per non-empty part
of an id, so no node lies deeper than the largest number of parts of an id. -/
def hierarchyDepth (nodes : List Node) : Nat :=
  (nodes.map (fun n => (split '/' n.ID).length)).foldr max 0

/-- The function `createHierarchy(data)`: the three loops, then the returned `root`
read as a tree. The result is `none` when the walk of some id meets an undefined
`currentNode` (see `walkParts`). -/
def createHierarchy (data : Graph) : Option HierarchyNode :=
  match buildHierarchy data.Nodes
      { nodesMap := initNodesMap data.Nodes (fun _ => none), rootChildren := [] } with
  | none => none
  | some st =>
    match allSome (st.rootChildren.map
        (toTree (addLinks data.Links st.nodesMap) (hierarchyDepth data.Nodes))) with
    | none => none
    | some cs => some (HierarchyNode.mk [] "root".toList none none cs none none)

/-- The parts joined with `/` again. -/
def joinPath : List Str → Str
  | [] => []
  | [part] => part
  | part :: rest => part ++ '/' :: joinPath rest

/-- The non-empty path prefixes of an id at segment boundaries: the first part, the first
two parts joined, and so on up to the id itself. -/
def pathPrefixes (id : Str) : List Str :=
  ((split '/' id).inits.tail).map joinPath

/-- The graph of scenario 1 with a third package below `example.com/a/x`. -/
def scenarioGraph : Graph :=
  { Nodes := [⟨"example.com/a/x/deep".toList, "example.com/a".toList⟩,
              ⟨"example.com/a/x".toList, "example.com/a".toList⟩,
              ⟨"example.com/a/y".toList, "example.com/a".toList⟩]
    Links := [linkXY]
    Modules := scenarioModules }

/-- The properties of an object that the link loop leaves alone. -/
def HObj.shape (o : HObj) : Str × Str × Str × Bool × List Str :=
  (o.id, o.name, o.module, o.isPackage, o.children)

/-- What the claims ask of a single node of the tree: its children have pairwise distinct
ids, and it is marked as a package exactly when its id is one of `ids`. -/
def NodeOK (ids : List Str) (h : HierarchyNode) : Prop :=
  (h.children.map HierarchyNode.id).Nodup ∧ h.isPackage = some (decide (h.id ∈ ids))

/-- The tree `tr` is the subtree of the walked path `t`: listed parents first, its nodes
are the objects of the walked paths `US`, which are exactly the walked paths that extend
`t`, each once. -/
def IsSubtree (ids : List Str) (T : List Str → Prop) (t : List Str) (tr : HierarchyNode)
    (US : List (List Str)) : Prop :=
  tr.id = joinPath t
  ∧ (tr :: tr.descendants).map HierarchyNode.id = US.map joinPath
  ∧ US.Nodup
  ∧ (∀ u, u ∈ US ↔ T u ∧ t <+: u)
  ∧ ∀ h ∈ tr :: tr.descendants, NodeOK ids h

/-- A list of parts that `createHierarchy` walks without skipping: no part is empty and
no part contains the separator. -/
def GoodPath (t : List Str) : Prop :=
  ∀ part ∈ t, part ≠ [] ∧ '/' ∉ part

/-- The value of the variable `parent` after the parts `t` were walked: the root object
before the first part, afterwards the object stored under the joined parts. -/
def parentRef (t : List Str) : Option Str :=
  if t = [] then none else some (joinPath t)

/-- The invariant of the tree-building loop. `ids` are the ids of `data.nodes` and `T`
is the set of part lists walked so far: every walked path and every id has an object,
an object is a package exactly when its key is an id, and the `children` of an object
(and of the root) list, without repeats, the walked paths one part longer. -/
structure HInv (ids : List Str) (T : List Str → Prop) (st : HState) : Prop where
  good : ∀ t, T t → GoodPath t ∧ t ≠ []
  closed : ∀ t s, T (t ++ [s]) → t = [] ∨ T t
  keys_walked : ∀ t, T t → (st.nodesMap (joinPath t)).isSome = true
  keys_ids : ∀ k ∈ ids, (st.nodesMap k).isSome = true
  obj_id : ∀ k o, st.nodesMap k = some o → o.id = k
  obj_pkg : ∀ k o, st.nodesMap k = some o → (o.isPackage = true ↔ k ∈ ids)
  obj_children : ∀ t o, GoodPath t → t ≠ [] → st.nodesMap (joinPath t) = some o →
    o.children.Nodup ∧ ∀ c, c ∈ o.children ↔ ∃ s, T (t ++ [s]) ∧ c = joinPath (t ++ [s])
  root_children : st.rootChildren.Nodup ∧ ∀ c, c ∈ st.rootChildren ↔ T [c]

/-! ## The interactive view (`handleNodeClick`, `updateNodeStyles`,
`updateDependencyVisibility` of the embedded page) -/

/-- The four global variables of the page script. The JavaScript `Set` named
`selectedNodeIds` is the list of its members in insertion order, without repeats. -/
structure ViewState where
  showIncoming : Bool
  showOutgoing : Bool
  showCrossModuleOnly : Bool
  selectedNodeIds : List Str
deriving DecidableEq, Repr

/-- The call `set.delete(x)`. -/
def setDelete (s : List Str) (x : Str) : List Str :=
  s.filter (fun y => y ≠ x)

/-- The three highlight classes that `updateNodeStyles` sets on a node element. -/
structure NodeClasses where
  selected : Bool
  importing : Bool
  imported : Bool
deriving DecidableEq, Repr

/-- The second word of the class attribute of a dependency path. -/
inductive LinkStyle where
  | all
  | outgoing
  | incoming
  | background
deriving DecidableEq, Repr

/-- A path element appended by `updateDependencyVisibility`. The curve
`generateLinkPath(source, target)` is represented by the ids of its two nodes, the
opacity (0.4, 0.1 or 0) by its number of tenths. -/
structure DrawnLink where
  style : LinkStyle
  source : Str
  target : Str
  opacityTenths : Nat
deriving DecidableEq, Repr

/-- The children of the two groups `dependencyLinksGroup` and `incomingLinksGroup`. -/
structure LinkGroups where
  dependencyLinks : List DrawnLink
  incomingLinks : List DrawnLink
deriving DecidableEq, Repr

/-- The expression `allNodes.find(d => d.data.id === id)`: the first node of that id.
`allNodes` stands for `root.descendants()` of the d3 library, the nodes of the hierarchy
with the root among them; the library is not part of the repository and the order in which
it lists the nodes is left open. -/
def findNode (allNodes : List HierarchyNode) (id : Str) : Option HierarchyNode :=
  allNodes.find? (fun d => d.id = id)

/-- The function `getModulePath(node)`: `node.data.module || ''`. -/
def getModulePath (node : HierarchyNode) : Str :=
  node.module.getD []

/-- The function `isCrossModuleDependency(sourceNode, targetNode)`. -/
def isCrossModuleDependency (sourceNode targetNode : HierarchyNode) : Bool :=
  getModulePath sourceNode ≠ getModulePath targetNode

/-- The loop `(list || []).forEach(id => set.add(id))`. -/
def addAll (set : List Str) (list : Option (List Str)) : List Str :=
  (list.getD []).foldl mapSet set

/-- The set `allImports` after the loop `selectedNodeIds.forEach` of `updateNodeStyles`. -/
def allImports (allNodes : List HierarchyNode) (selectedNodeIds : List Str) : List Str :=
  selectedNodeIds.foldl
    (fun acc nodeId =>
      match findNode allNodes nodeId with
      | none => acc
      | some selectedNode => addAll acc selectedNode.imports)
    []

/-- The set `allImportedBy` after the loop `selectedNodeIds.forEach` of
`updateNodeStyles`. -/
def allImportedBy (allNodes : List HierarchyNode) (selectedNodeIds : List Str) : List Str :=
  selectedNodeIds.foldl
    (fun acc nodeId =>
      match findNode allNodes nodeId with
      | none => acc
      | some selectedNode => addAll acc selectedNode.importedBy)
    []

/-- The classes that `updateNodeStyles` gives the element whose datum is `d`. -/
def nodeClasses (allNodes : List HierarchyNode) (v : ViewState) (d : HierarchyNode) :
    NodeClasses :=
  if v.selectedNodeIds.length = 0 then
    { selected := false, importing := false, imported := false }
  else
    { selected := decide (d.id ∈ v.selectedNodeIds)
      importing := decide (d.id ∈ allImports allNodes v.selectedNodeIds)
        && !decide (d.id ∈ v.selectedNodeIds)
      imported := decide (d.id ∈ allImportedBy allNodes v.selectedNodeIds)
        && !decide (d.id ∈ v.selectedNodeIds) }

/-- The function `updateNodeStyles()`: the classes of the node elements, one element per
node of `allNodes`. Every element gets all three classes set anew. -/
def updateNodeStyles (allNodes : List HierarchyNode) (v : ViewState) : List NodeClasses :=
  allNodes.map (nodeClasses allNodes v)

/-- The paths that the branch "no node is selected" appends for one source node. -/
def allLinksOf (allNodes : List HierarchyNode) (v : ViewState) (sourceNode : HierarchyNode) :
    List DrawnLink :=
  match sourceNode.imports with
  | none => []
  | some imports =>
    imports.filterMap (fun targetId =>
      match findNode allNodes targetId with
      | none => none
      | some targetNode =>
        if v.showCrossModuleOnly && !isCrossModuleDependency sourceNode targetNode then none
        else some
          { style := LinkStyle.all
            source := sourceNode.id
            target := targetNode.id
            opacityTenths := if v.showOutgoing then 4 else 0 })

/-- The paths with class `outgoing` that the loop over the selection appends for one
selected id. -/
def outgoingLinksOf (allNodes : List HierarchyNode) (v : ViewState) (nodeId : Str) :
    List DrawnLink :=
  match findNode allNodes nodeId with
  | none => []
  | some selectedNode =>
    if v.showOutgoing then
      match selectedNode.imports with
      | none => []
      | some imports =>
        imports.filterMap (fun targetId =>
          match findNode allNodes targetId with
          | none => none
          | some targetNode =>
            if v.showCrossModuleOnly && !isCrossModuleDependency selectedNode targetNode then
              none
            else some
              { style := LinkStyle.outgoing
                source := selectedNode.id
                target := targetNode.id
                opacityTenths := 4 })
    else []

/-- The paths with class `incoming` that the loop over the selection appends for one
selected id. -/
def incomingLinksOf (allNodes : List HierarchyNode) (v : ViewState) (nodeId : Str) :
    List DrawnLink :=
  match findNode allNodes nodeId with
  | none => []
  | some selectedNode =>
    if v.showIncoming then
      match selectedNode.importedBy with
      | none => []
      | some importedBy =>
        importedBy.filterMap (fun sourceId =>
          match findNode allNodes sourceId with
          | none => none
          | some sourceNode =>
            if v.showCrossModuleOnly && !isCrossModuleDependency sourceNode selectedNode then
              none
            else some
              { style := LinkStyle.incoming
                source := sourceNode.id
                target := selectedNode.id
                opacityTenths := 4 })
    else []

/-- The paths with class `background` that the last loop appends for one source node. -/
def backgroundLinksOf (allNodes : List HierarchyNode) (v : ViewState)
    (sourceNode : HierarchyNode) : List DrawnLink :=
  if sourceNode.id ∈ v.selectedNodeIds then []
  else
    match sourceNode.imports with
    | none => []
    | some imports =>
      imports.filterMap (fun targetId =>
        match findNode allNodes targetId with
        | none => none
        | some targetNode =>
          some
            { style := LinkStyle.background
              source := sourceNode.id
              target := targetNode.id
              opacityTenths := 1 })

/-- The class names in the class attribute of a path: `dependency-link` and the name of
its style. -/
def DrawnLink.classList (l : DrawnLink) : List Str :=
  ["dependency-link".toList,
    match l.style with
    | LinkStyle.all => "all".toList
    | LinkStyle.outgoing => "outgoing".toList
    | LinkStyle.incoming => "incoming".toList
    | LinkStyle.background => "background".toList]

/-- The call `group.selectAll("." + className).remove()` on the paths of one group: the
paths that carry the class go. -/
def removeByClass (className : Str) (paths : List DrawnLink) : List DrawnLink :=
  paths.filter (fun l => className ∉ l.classList)

/-- The two calls `group.selectAll(".dependency-link").remove()` that open
`updateDependencyVisibility`. -/
def removeDependencyLinks (drawn : LinkGroups) : LinkGroups :=
  { dependencyLinks := removeByClass "dependency-link".toList drawn.dependencyLinks
    incomingLinks := removeByClass "dependency-link".toList drawn.incomingLinks }

/-- The function `updateDependencyVisibility()`, from the paths `drawn` that the two
groups hold when it is called to the paths they hold when it returns. -/
def updateDependencyVisibility (allNodes : List HierarchyNode) (v : ViewState)
    (drawn : LinkGroups) : LinkGroups :=
  let cleared := removeDependencyLinks drawn
  if v.selectedNodeIds.length = 0 then
    { cleared with
      dependencyLinks := cleared.dependencyLinks ++ allNodes.flatMap (allLinksOf allNodes v) }
  else
    { dependencyLinks :=
        cleared.dependencyLinks
          ++ v.selectedNodeIds.flatMap (outgoingLinksOf allNodes v)
          ++ allNodes.flatMap (backgroundLinksOf allNodes v)
      incomingLinks :=
        cleared.incomingLinks ++ v.selectedNodeIds.flatMap (incomingLinksOf allNodes v) }

/-- The page: the script variables, the classes of the node elements and the dependency
paths. -/
structure Page where
  view : ViewState
  classes : List NodeClasses
  links : LinkGroups
deriving DecidableEq, Repr

/-- The handler `handleNodeClick(event, d)`; `shiftKey` is `event.shiftKey` and `id` is
`d.data.id`. -/
def handleNodeClick (allNodes : List HierarchyNode) (shiftKey : Bool) (id : Str) (p : Page) :
    Page :=
  let cleared := if !shiftKey then [] else p.view.selectedNodeIds
  let selected := if id ∈ cleared then setDelete cleared id else mapSet cleared id
  let view := { p.view with selectedNodeIds := selected }
  { view := view
    classes := updateNodeStyles allNodes view
    links := updateDependencyVisibility allNodes view p.links }

/-- The nodes of the hierarchy of `scenarioGraph`, the root first. -/
def scenarioNodes : List HierarchyNode :=
  match createHierarchy scenarioGraph with
  | none => []
  | some root => root :: root.descendants

/-- The view in which only `example.com/a/x` is selected, outgoing links are shown and
incoming links are not. -/
def viewX : ViewState :=
  { showIncoming := false, showOutgoing := true, showCrossModuleOnly := false
    selectedNodeIds := ["example.com/a/x".toList] }

/-- The view in which only `example.com/a/y` is selected and both directions are shown. -/
def viewY : ViewState :=
  { showIncoming := true, showOutgoing := true, showCrossModuleOnly := false
    selectedNodeIds := ["example.com/a/y".toList] }

/-- The view of the page when it is loaded: nothing selected, both directions shown. -/
def viewInitial : ViewState :=
  { showIncoming := true, showOutgoing := true, showCrossModuleOnly := false
    selectedNodeIds := [] }

/-- All dependency paths of the page, those of `dependencyLinksGroup` first. -/
def LinkGroups.paths (g : LinkGroups) : List DrawnLink :=
  g.dependencyLinks ++ g.incomingLinks

/-! ## The hierarchy projection: what the tree shows of the objects -/

/-- The node `h` of the tree shows the object that `m` stores under the id of `h`: the
same properties, and the children in the same order. -/
def ShowsObject (m : NodesMap) (h : HierarchyNode) : Prop :=
  ∃ o, m h.id = some o ∧ h.name = o.name ∧ h.module = some o.module
    ∧ h.isPackage = some o.isPackage ∧ h.imports = o.imports
    ∧ h.importedBy = o.importedBy ∧ h.children.map HierarchyNode.id = o.children

/-- The part lists that the walks of `nodes` go through: the non-empty prefixes of the
parts of their ids. -/
def Walked (nodes : List Node) (x : List Str) : Prop :=
  ∃ n ∈ nodes, x ≠ [] ∧ x <+: split '/' n.ID

/-- The properties of an object that the tree loop leaves alone: all but `children`. -/
def HObj.core (o : HObj) : Str × Str × Str × Bool × Option (List Str) × Option (List Str) :=
  (o.id, o.name, o.module, o.isPackage, o.imports, o.importedBy)

/-- What the walk of `node` may do to `nodesMap`: no object goes away, and an object of
the later map is an object of the earlier map with at most other children, or a folder that
the walk created for a path prefix of the id of `node`. -/
def WalkFrame (node : Node) (m m' : NodesMap) : Prop :=
  (∀ k, (m k).isSome = true → (m' k).isSome = true)
  ∧ ∀ k o', m' k = some o' →
      (∃ o, m k = some o ∧ o'.core = o.core)
      ∨ (m k = none ∧ k ∈ pathPrefixes node.ID ∧ o'.module = node.Module
          ∧ o'.isPackage = false ∧ o'.imports = none ∧ o'.importedBy = none)

/-- The module `mod` is the module of the first node of `nodes` that has `k` among the
path prefixes of its id. -/
def FirstOwner (nodes : List Node) (k : Str) (mod : Str) : Prop :=
  ∃ pre n post, nodes = pre ++ n :: post ∧ k ∈ pathPrefixes n.ID
    ∧ (∀ n' ∈ pre, k ∉ pathPrefixes n'.ID) ∧ mod = n.Module

/-- Where the objects of `m` come from once the nodes `walked` were walked, `m0` being the
map of the package objects: an object is a package object, children apart, or a folder
without import lists whose module is that of its first owner. -/
def Owned (walked : List Node) (m0 m : NodesMap) : Prop :=
  ∀ k o, m k = some o →
    (∃ o0, m0 k = some o0 ∧ o.core = o0.core)
    ∨ (m0 k = none ∧ o.isPackage = false ∧ o.imports = none ∧ o.importedBy = none
        ∧ FirstOwner walked k o.module)

/-- What a property that is created as an empty array at its first `push` holds after the
ids of `pushed` were pushed, one by one, on a property that held `x`. -/
def pushAll (x : Option (List Str)) (pushed : List Str) : Option (List Str) :=
  if pushed = [] then x else some (x.getD [] ++ pushed)

/-- The test `source && target` of the link loop, on the map `m`. -/
def linkPresent (m : NodesMap) (link : Link) : Bool :=
  (m link.Source).isSome && (m link.Target).isSome

/-- The ids that have a node in the hierarchy of `nodes`: the path prefixes of the ids. -/
def hierarchyIds (nodes : List Node) : List Str :=
  nodes.flatMap (fun n => pathPrefixes n.ID)

/-- The targets, in link order and with repeats, of the links from `id` to an id of
`present`. -/
def importTargets (links : List Link) (present : List Str) (id : Str) : List Str :=
  (links.filter (fun l => l.Source = id ∧ l.Target ∈ present)).map Link.Target

/-- The sources, in link order and with repeats, of the links to `id` from an id of
`present`. -/
def importSources (links : List Link) (present : List Str) (id : Str) : List Str :=
  (links.filter (fun l => l.Target = id ∧ l.Source ∈ present)).map Link.Source

/-- A graph with the one package `example.com/a/x` and a link from it to
`example.com/a/y`, which has no node. -/
def danglingGraph : Graph :=
  { Nodes := [⟨"example.com/a/x".toList, "example.com/a".toList⟩]
    Links := [linkXY]
    Modules := scenarioModules }

/-- A graph in which the folder `example.com/a` holds a package of the nested module
`example.com/a/sub`, listed first, and a package of the module `example.com/a`. -/
def sharedFolderGraph : Graph :=
  { Nodes := [⟨"example.com/a/sub/pkg".toList, "example.com/a/sub".toList⟩,
              ⟨"example.com/a/x".toList, "example.com/a".toList⟩]
    Links := []
    Modules := [mkModule "example.com/a/sub", mkModule "example.com/a"] }

/-- A graph whose first node ID ends in a slash, with a link to it from the package `b`.
The walk of `a/` makes the folder `a` and skips the empty last part, so the object stored
under `a/` is in `nodesMap` and in no `children` list. -/
def trailingSlashGraph : Graph :=
  { Nodes := [⟨"a/".toList, "a".toList⟩, ⟨"b".toList, "b".toList⟩]
    Links := [⟨"b".toList, "a/".toList⟩]
    Modules := [mkModule "a", mkModule "b"] }

/-- A graph with a node whose ID is the empty string, the id of the root object, and a
link to it from the package `b`. -/
def emptyIdGraph : Graph :=
  { Nodes := [⟨[], "b".toList⟩, ⟨"b".toList, "b".toList⟩]
    Links := [⟨"b".toList, []⟩]
    Modules := [mkModule "b"] }

/-! ## The interactive view: the toggle buttons and the style sheet -/

/-- The click handler of the button `toggleOutgoing`: the flag is flipped and the
dependency paths are drawn anew; `updateNodeStyles` is not called. -/
def toggleOutgoing (allNodes : List HierarchyNode) (p : Page) : Page :=
  let view := { p.view with showOutgoing := !p.view.showOutgoing }
  { p with view := view, links := updateDependencyVisibility allNodes view p.links }

/-- The click handler of the button `toggleIncoming`. -/
def toggleIncoming (allNodes : List HierarchyNode) (p : Page) : Page :=
  let view := { p.view with showIncoming := !p.view.showIncoming }
  { p with view := view, links := updateDependencyVisibility allNodes view p.links }

/-- The click handler of the button `toggleCrossModule`. -/
def toggleCrossModule (allNodes : List HierarchyNode) (p : Page) : Page :=
  let view := { p.view with showCrossModuleOnly := !p.view.showCrossModuleOnly }
  { p with view := view, links := updateDependencyVisibility allNodes view p.links }

/-- The three rules `.node.selected circle`, `.node.importing circle` and
`.node.imported circle` of the style sheet, in the order of the sheet, each with the
stroke colour it sets. -/
def highlightRules : List ((NodeClasses → Bool) × Str) :=
  [(NodeClasses.selected, "#ff0000".toList),
   (NodeClasses.importing, "#ff7f0e".toList),
   (NodeClasses.imported, "#1f77b4".toList)]

/-- The stroke colour that the three rules give a node circle: the rules have the same
specificity, so among those that match the last of the sheet applies. -/
def highlightStroke (c : NodeClasses) : Option Str :=
  ((highlightRules.filter (fun rule => rule.1 c)).getLast?).map (fun rule => rule.2)

/-- A graph of two packages that import each other. -/
def mutualGraph : Graph :=
  { Nodes := [⟨"example.com/a/x".toList, "example.com/a".toList⟩,
              ⟨"example.com/a/y".toList, "example.com/a".toList⟩]
    Links := [linkXY, ⟨"example.com/a/y".toList, "example.com/a/x".toList⟩]
    Modules := scenarioModules }

/-- The nodes of the hierarchy of `mutualGraph`, the root first. -/
def mutualNodes : List HierarchyNode :=
  match createHierarchy mutualGraph with
  | none => []
  | some root => root :: root.descendants

/-! ## Module discovery (`shouldIgnorePath` and the `go.mod` branch of `findModules`) -/

/-- Go `filepath.ToSlash(path)` on a system whose path separator is `sep`. -/
def toSlash (sep : Char) (path : Str) : Str :=
  if sep = '/' then path else path.map (fun c => if c = sep then '/' else c)

/-- The loop of `shouldIgnorePath` over the remaining entries of `ignoredPaths`; the
variable `relPath` is assigned anew in every round. -/
def ignoreLoop (sep : Char) : List Str → Str → Bool
  | [], _ => false
  | ignorePath :: rest, relPath =>
    let ignorePath := toSlash sep ignorePath
    let relPath := toSlash sep relPath
    if hasPrefix relPath ignorePath then true else ignoreLoop sep rest relPath

/-- The function `shouldIgnorePath(path, rootDir)`. The global `ignoredPaths` is a
parameter, and so is `rel`, Go's `filepath.Rel`, which answers `none` for its error. -/
def shouldIgnorePath (sep : Char) (rel : Str → Str → Option Str) (ignoredPaths : List Str)
    (path rootDir : Str) : Bool :=
  match rel rootDir path with
  | none => false
  | some relPath => ignoreLoop sep ignoredPaths relPath

/-- Go `unicode.IsSpace`: the code points with the Unicode property White_Space. -/
def isSpace (c : Char) : Bool :=
  let n := c.toNat
  (9 ≤ n && n ≤ 13) || n = 32 || n = 133 || n = 160 || n = 5760
    || (8192 ≤ n && n ≤ 8202) || n = 8232 || n = 8233 || n = 8239 || n = 8287 || n = 12288

/-- Go `strings.TrimSpace(s)`. -/
def trimSpace (s : Str) : Str :=
  (((s.dropWhile isSpace).reverse).dropWhile isSpace).reverse

/-- Go `strings.TrimPrefix(s, pre)`. -/
def trimPrefix (s pre : Str) : Str :=
  if hasPrefix s pre then s.drop pre.length else s

/-- Go `filepath.Base(path)` on a system whose separator is `/` and that has no volume
names: the last element of the path, `.` for the empty path and `/` for a path of
separators only. -/
def base (path : Str) : Str :=
  if path = [] then ['.']
  else
    let stripped := ((path.reverse).dropWhile (fun c => c = '/')).reverse
    let last := ((stripped.reverse).takeWhile (fun c => c ≠ '/')).reverse
    if last = [] then ['/'] else last

/-- The loop `for _, line := range lines` of `findModules`: `moduleName` stays empty
until a line whose trimmed form starts with `module ` sets it and ends the loop. -/
def scanModuleLines : List Str → Str
  | [] => []
  | line :: rest =>
    if hasPrefix (trimSpace line) "module ".toList then
      trimSpace (trimPrefix (trimSpace line) "module ".toList)
    else scanModuleLines rest

/-- The module name that `findModules` takes from the content of a `go.mod` file, with
the directory name as fallback; `relPath` is the directory relative to the root. -/
def moduleNameOf (modContent relPath : Str) : Str :=
  let moduleName := scanModuleLines (split '\n' modContent)
  if moduleName = [] then base relPath else moduleName

/-- The palette `colors` of `findModules`. -/
def colors : List Str :=
  ["#3498db".toList, "#9b59b6".toList, "#f1c40f".toList, "#e67e22".toList,
   "#1abc9c".toList, "#34495e".toList]

/-- The `ModuleInfo` that `findModules` appends for a `go.mod` file: `relPath` is
`filepath.Rel(rootDir, filepath.Dir(path))`, `dir` is `filepath.Dir(path)`, `modContent`
is the content of the file and `colorIndex` counts the modules found before. -/
def goModEntry (relPath dir modContent : Str) (colorIndex : Nat) : ModuleInfo :=
  { Path := relPath
    Dir := dir
    Name := base relPath
    Color := colors.getD (colorIndex % colors.length) []
    ModulePath := moduleNameOf modContent relPath }

/-- The first line of a `go.mod` content whose trimmed form starts with `module `. -/
def firstModuleLine (modContent : Str) : Option Str :=
  (split '\n' modContent).find? (fun line => hasPrefix (trimSpace line) "module ".toList)

/-- The view of `mutualNodes` in which only `example.com/a/x` is selected. -/
def viewMutual : ViewState :=
  { showIncoming := true, showOutgoing := true, showCrossModuleOnly := false
    selectedNodeIds := ["example.com/a/x".toList] }

/-- The node of `example.com/a/y` in the hierarchy of `mutualGraph`. -/
def nodeY : HierarchyNode :=
  HierarchyNode.mk "example.com/a/y".toList "y".toList (some "example.com/a".toList) (some true)
    [] (some ["example.com/a/x".toList]) (some ["example.com/a/x".toList])

end Godegraph

namespace Godegraph

/-! ## The graph builder: lemmas -/

theorem hasPrefix_iff (s pre : Str) : hasPrefix s pre = true ↔ pre <+: s := by
  unfold hasPrefix
  exact List.isPrefixOf_iff_prefix

theorem mem_mapSet (m : List Str) (k x : Str) : x ∈ mapSet m k ↔ x ∈ m ∨ x = k := by
  unfold mapSet
  split
  · constructor
    · intro h; exact Or.inl h
    · rintro (h | h)
      · exact h
      · subst h; assumption
  · simp

theorem mem_moduleMapFrom (modules : List ModuleInfo) (acc : List Str) (k : Str) :
    k ∈ moduleMapFrom modules acc ↔ k ∈ acc ∨ ∃ m ∈ modules, m.ModulePath = k := by
  induction modules generalizing acc with
  | nil => simp [moduleMapFrom]
  | cons mod rest ih =>
    simp only [moduleMapFrom, ih, mem_mapSet, List.mem_cons, exists_eq_or_imp]
    constructor
    · rintro ((h | h) | h)
      · exact Or.inl h
      · exact Or.inr (Or.inl h.symm)
      · exact Or.inr (Or.inr h)
    · rintro (h | h | h)
      · exact Or.inl (Or.inl h)
      · exact Or.inl (Or.inr h.symm)
      · exact Or.inr h

theorem mem_moduleMap (modules : List ModuleInfo) (k : Str) :
    k ∈ moduleMap modules ↔ ∃ m ∈ modules, m.ModulePath = k := by
  simp [moduleMap, mem_moduleMapFrom]

theorem isInternalPackage_iff_exists (keys : List Str) (p : Str) :
    isInternalPackage keys p = true ↔ ∃ k ∈ keys, k <+: p := by
  induction keys with
  | nil => simp [isInternalPackage]
  | cons k rest ih =>
    simp only [isInternalPackage, List.mem_cons, exists_eq_or_imp]
    by_cases h : hasPrefix p k = true
    · simp [h, (hasPrefix_iff p k).1 h]
    · have h' : ¬ k <+: p := fun hp => h ((hasPrefix_iff p k).2 hp)
      simp [h, h', ih]

theorem isInternalPackage_of_keys (modules : List ModuleInfo) (keys : List Str) (p : Str)
    (hkeys : ∀ k, k ∈ keys ↔ k ∈ moduleMap modules) :
    isInternalPackage keys p = true ↔ IsInternal modules p := by
  rw [isInternalPackage_iff_exists]
  unfold IsInternal
  constructor
  · rintro ⟨k, hk, hp⟩
    obtain ⟨m, hm, rfl⟩ := (mem_moduleMap modules k).1 ((hkeys k).1 hk)
    exact ⟨m, hm, hp⟩
  · rintro ⟨m, hm, hp⟩
    exact ⟨m.ModulePath, (hkeys _).2 ((mem_moduleMap modules _).2 ⟨m, hm, rfl⟩), hp⟩

theorem isInternalPackage_moduleMap (modules : List ModuleInfo) (p : Str) :
    isInternalPackage (moduleMap modules) p = true ↔ IsInternal modules p :=
  isInternalPackage_of_keys modules _ p (fun _ => Iff.rfl)

/-! ### The node pass -/

theorem mem_firstOccurrences (l : List Str) (x : Str) : x ∈ firstOccurrences l ↔ x ∈ l := by
  induction l with
  | nil => simp [firstOccurrences]
  | cons a l ih =>
    simp only [firstOccurrences, List.mem_cons, List.mem_filter, ih, decide_eq_true_eq]
    by_cases h : x = a
    · simp [h]
    · simp [h]

theorem nodup_firstOccurrences (l : List Str) : (firstOccurrences l).Nodup := by
  induction l with
  | nil => simp [firstOccurrences]
  | cons a l ih =>
    simp only [firstOccurrences, List.nodup_cons, List.mem_filter, decide_eq_true_eq]
    exact ⟨fun h => h.2 rfl, ih.filter _⟩

theorem length_firstOccurrences (l : List Str) :
    (firstOccurrences l).length = l.toFinset.card := by
  rw [← List.toFinset_card_of_nodup (nodup_firstOccurrences l)]
  congr 1
  ext x
  simp [mem_firstOccurrences]

theorem filter_firstOccurrences_seen (l seen : List Str) (a : Str) (ha : a ∈ seen) :
    ((firstOccurrences l).filter (fun b => b ≠ a)).filter (fun b => b ∉ seen)
      = (firstOccurrences l).filter (fun b => b ∉ seen) := by
  rw [List.filter_filter]
  apply List.filter_congr
  intro x _
  by_cases hx : x ∈ seen
  · simp [hx]
  · have : x ≠ a := fun h => hx (h ▸ ha)
    simp [hx, this]

theorem filter_mapSet (l seen : List Str) (a : Str) :
    l.filter (fun b => b ∉ mapSet seen a)
      = (l.filter (fun b => b ≠ a)).filter (fun b => b ∉ seen) := by
  rw [List.filter_filter]
  apply List.filter_congr
  intro x _
  by_cases hx : x ∈ seen <;> by_cases hxa : x = a <;> simp [mem_mapSet, hx, hxa]

/-- The node loop appends, to the nodes it starts from, one node for each first
occurrence of an internal path that is not yet in `nodeMap`. -/
theorem createNodes_eq (modules : List ModuleInfo) (pkgs : List Package)
    (nodeMap : List Str) (nodes : List Node) :
    createNodes modules pkgs nodeMap nodes
      = nodes ++ (((firstOccurrences (internalPaths modules pkgs)).filter
          (fun b => b ∉ nodeMap)).map (nodeOf modules)) := by
  induction pkgs generalizing nodeMap nodes with
  | nil => simp [createNodes, internalPaths, firstOccurrences]
  | cons pkg rest ih =>
    unfold createNodes
    by_cases hint : isInternalPackage (moduleMap modules) pkg.ImportPath = true
    · have hI : IsInternal modules pkg.ImportPath := (isInternalPackage_moduleMap _ _).1 hint
      have hpaths : internalPaths modules (pkg :: rest)
          = pkg.ImportPath :: internalPaths modules rest := by
        simp [internalPaths, List.filter_cons, hI]
      rw [if_pos hint, hpaths]
      by_cases hseen : pkg.ImportPath ∈ nodeMap
      · rw [if_pos hseen, ih]
        simp only [firstOccurrences]
        rw [List.filter_cons_of_neg (by simpa using hseen),
          filter_firstOccurrences_seen _ _ _ hseen]
      · rw [if_neg hseen, ih]
        simp only [firstOccurrences]
        rw [List.filter_cons_of_pos (by simpa using hseen), filter_mapSet]
        simp [nodeOf]
    · have hI : ¬ IsInternal modules pkg.ImportPath :=
        fun h => hint ((isInternalPackage_moduleMap _ _).2 h)
      have hpaths : internalPaths modules (pkg :: rest) = internalPaths modules rest := by
        simp [internalPaths, List.filter_cons, hI]
      rw [if_neg hint, hpaths, ih]

theorem nodes_eq (modules : List ModuleInfo) (allPackages : List Package) :
    (extractPackageDependencies modules allPackages).Nodes
      = (firstOccurrences (internalPaths modules allPackages)).map (nodeOf modules) := by
  simp [extractPackageDependencies, createNodes_eq]

theorem nodeIDs_eq (modules : List ModuleInfo) (allPackages : List Package) :
    (extractPackageDependencies modules allPackages).Nodes.map Node.ID
      = firstOccurrences (internalPaths modules allPackages) := by
  rw [nodes_eq, List.map_map]
  have : (Node.ID ∘ nodeOf modules) = id := by funext p; rfl
  rw [this, List.map_id]

theorem mem_internalPaths (modules : List ModuleInfo) (allPackages : List Package) (p : Str) :
    p ∈ internalPaths modules allPackages
      ↔ (∃ pkg ∈ allPackages, pkg.ImportPath = p) ∧ IsInternal modules p := by
  simp [internalPaths, List.mem_filter]

theorem mem_nodes (modules : List ModuleInfo) (allPackages : List Package) (n : Node) :
    n ∈ (extractPackageDependencies modules allPackages).Nodes
      ↔ ((∃ pkg ∈ allPackages, pkg.ImportPath = n.ID) ∧ IsInternal modules n.ID)
        ∧ n.Module = findModuleName modules n.ID := by
  rw [nodes_eq, List.mem_map]
  constructor
  · rintro ⟨p, hp, rfl⟩
    rw [mem_firstOccurrences, mem_internalPaths] at hp
    exact ⟨hp, rfl⟩
  · rintro ⟨hp, hm⟩
    refine ⟨n.ID, ?_, ?_⟩
    · rw [mem_firstOccurrences, mem_internalPaths]; exact hp
    · cases n; simp_all [nodeOf]

/-! ### The link pass -/

theorem linkImports_eq (modules : List ModuleInfo) (source : Str) (imports : List Str)
    (links : List Link) :
    linkImports modules source imports links
      = links ++ linksOf modules ⟨source, imports⟩ := by
  induction imports generalizing links with
  | nil => simp [linkImports, linksOf]
  | cons imp rest ih =>
    unfold linkImports
    by_cases hint : isInternalPackage (moduleMap modules) imp = true
    · have hI : IsInternal modules imp := (isInternalPackage_moduleMap _ _).1 hint
      rw [if_pos hint, ih]
      simp [linksOf, List.filter_cons, hI]
    · have hI : ¬ IsInternal modules imp :=
        fun h => hint ((isInternalPackage_moduleMap _ _).2 h)
      rw [if_neg hint, ih]
      simp [linksOf, List.filter_cons, hI]

theorem createLinks_eq (modules : List ModuleInfo) (pkgs : List Package) (links : List Link) :
    createLinks modules pkgs links = links ++ specLinks modules pkgs := by
  induction pkgs generalizing links with
  | nil => simp [createLinks, specLinks]
  | cons pkg rest ih =>
    unfold createLinks
    by_cases hint : isInternalPackage (moduleMap modules) pkg.ImportPath = true
    · have hI : IsInternal modules pkg.ImportPath := (isInternalPackage_moduleMap _ _).1 hint
      simp only [hint, Bool.not_true, Bool.false_eq_true, if_false]
      rw [ih, linkImports_eq]
      simp [specLinks, List.filter_cons, hI]
    · have hI : ¬ IsInternal modules pkg.ImportPath :=
        fun h => hint ((isInternalPackage_moduleMap _ _).2 h)
      simp only [Bool.not_eq_true] at hint
      simp only [hint, Bool.not_false, if_true]
      rw [ih]
      simp [specLinks, List.filter_cons, hI]

theorem links_eq (modules : List ModuleInfo) (allPackages : List Package) :
    (extractPackageDependencies modules allPackages).Links = specLinks modules allPackages := by
  simp [extractPackageDependencies, createLinks_eq]

theorem mem_specLinks (modules : List ModuleInfo) (allPackages : List Package) (l : Link) :
    l ∈ specLinks modules allPackages
      ↔ ∃ pkg ∈ allPackages, IsInternal modules pkg.ImportPath ∧ pkg.ImportPath = l.Source
          ∧ l.Target ∈ pkg.Imports ∧ IsInternal modules l.Target := by
  simp only [specLinks, linksOf, List.mem_flatMap, List.mem_filter, List.mem_map,
    decide_eq_true_eq]
  constructor
  · rintro ⟨pkg, ⟨hpkg, hI⟩, imp, ⟨himp, hIimp⟩, rfl⟩
    exact ⟨pkg, hpkg, hI, rfl, himp, hIimp⟩
  · rintro ⟨pkg, hpkg, hI, hs, himp, hIimp⟩
    refine ⟨pkg, ⟨hpkg, hI⟩, l.Target, ⟨himp, hIimp⟩, ?_⟩
    cases l; simp_all

/-! ### Module attribution -/

theorem findModuleName_spec (modules : List ModuleInfo) (p : Str) (h : IsInternal modules p) :
    ∃ pre m post, modules = pre ++ m :: post ∧ m.ModulePath <+: p
      ∧ (∀ m' ∈ pre, ¬ m'.ModulePath <+: p) ∧ findModuleName modules p = m.ModulePath := by
  induction modules with
  | nil => obtain ⟨m, hm, _⟩ := h; simp at hm
  | cons mod rest ih =>
    by_cases hp : hasPrefix p mod.ModulePath = true
    · exact ⟨[], mod, rest, rfl, (hasPrefix_iff _ _).1 hp, by simp, by simp [findModuleName, hp]⟩
    · have hnp : ¬ mod.ModulePath <+: p := fun h' => hp ((hasPrefix_iff _ _).2 h')
      have hrest : IsInternal rest p := by
        obtain ⟨m, hm, hmp⟩ := h
        rcases List.mem_cons.1 hm with rfl | hm
        · exact absurd hmp hnp
        · exact ⟨m, hm, hmp⟩
      obtain ⟨pre, m, post, hsplit, hmp, hpre, hfind⟩ := ih hrest
      refine ⟨mod :: pre, m, post, by simp [hsplit], hmp, ?_, by simp [findModuleName, hp, hfind]⟩
      intro m' hm'
      rcases List.mem_cons.1 hm' with rfl | hm'
      · exact hnp
      · exact hpre m' hm'

theorem firstOccurrences_append (l l' : List Str) :
    firstOccurrences (l ++ l')
      = firstOccurrences l ++ (firstOccurrences l').filter (fun b => b ∉ l) := by
  induction l with
  | nil => simp [firstOccurrences]
  | cons a l ih =>
    rw [List.cons_append]
    simp only [firstOccurrences]
    rw [ih, List.filter_append, List.filter_filter, List.cons_append]
    congr 2
    apply List.filter_congr
    intro x _
    by_cases hx : x ∈ l <;> by_cases hxa : x = a <;> simp [hx, hxa]

theorem firstOccurrences_append_self (l : List Str) :
    firstOccurrences (l ++ l) = firstOccurrences l := by
  rw [firstOccurrences_append]
  have : (firstOccurrences l).filter (fun b => b ∉ l) = [] := by
    rw [List.filter_eq_nil_iff]
    intro x hx
    simpa using (mem_firstOccurrences l x).1 hx
  rw [this, List.append_nil]

theorem internalPaths_append (modules : List ModuleInfo) (rs rs' : List Package) :
    internalPaths modules (rs ++ rs') = internalPaths modules rs ++ internalPaths modules rs' := by
  simp [internalPaths]

theorem specLinks_append (modules : List ModuleInfo) (rs rs' : List Package) :
    specLinks modules (rs ++ rs') = specLinks modules rs ++ specLinks modules rs' := by
  simp [specLinks]

theorem prefix_length_le_of_first (modules : List ModuleInfo) (p : Str)
    (hsorted : modules.Pairwise (fun a b => b.ModulePath.length ≤ a.ModulePath.length))
    (m : ModuleInfo) (hm : m ∈ modules) (hmp : m.ModulePath <+: p) :
    m.ModulePath.length ≤ (findModuleName modules p).length := by
  induction modules with
  | nil => simp at hm
  | cons mod rest ih =>
    rw [List.pairwise_cons] at hsorted
    by_cases hp : hasPrefix p mod.ModulePath = true
    · simp only [findModuleName, hp, if_true]
      rcases List.mem_cons.1 hm with rfl | hm
      · exact le_refl _
      · exact hsorted.1 m hm
    · have hnp : ¬ mod.ModulePath <+: p := fun h' => hp ((hasPrefix_iff _ _).2 h')
      simp only [findModuleName, hp]
      rcases List.mem_cons.1 hm with rfl | hm
      · exact absurd hmp hnp
      · exact ih hsorted.2 hm

/-! ## The graph builder: the claims -/

/-- C1, as stated, fails: with the single module `example.com/a` and the single record
`example.com/a/x` importing `example.com/a/y`, the link `(a/x, a/y)` is built although
no node has the ID `example.com/a/y`. -/
theorem link_target_not_node_counterexample :
    ¬ (∀ l ∈ (extractPackageDependencies scenarioModules [recordX]).Links,
        (∃ n ∈ (extractPackageDependencies scenarioModules [recordX]).Nodes, n.ID = l.Source)
        ∧ (∃ n ∈ (extractPackageDependencies scenarioModules [recordX]).Nodes,
            n.ID = l.Target)) := by
  decide

/-- C1, amended: the source of every link is the ID of a node, the target of every link
is an internal path (some module path prefixes it), and the target is the ID of a node
exactly when some record has it as its `ImportPath`. -/
theorem link_source_is_node_target_is_internal (modules : List ModuleInfo)
    (allPackages : List Package) (l : Link)
    (hl : l ∈ (extractPackageDependencies modules allPackages).Links) :
    (∃ n ∈ (extractPackageDependencies modules allPackages).Nodes, n.ID = l.Source)
    ∧ IsInternal modules l.Target
    ∧ ((∃ n ∈ (extractPackageDependencies modules allPackages).Nodes, n.ID = l.Target)
        ↔ ∃ pkg ∈ allPackages, pkg.ImportPath = l.Target) := by
  rw [links_eq, mem_specLinks] at hl
  obtain ⟨pkg, hpkg, hI, hs, _, hIt⟩ := hl
  refine ⟨⟨nodeOf modules l.Source, ?_, rfl⟩, hIt, ?_⟩
  · rw [mem_nodes]
    exact ⟨⟨⟨pkg, hpkg, hs⟩, hs ▸ hI⟩, rfl⟩
  · constructor
    · rintro ⟨n, hn, hid⟩
      rw [mem_nodes] at hn
      exact hid ▸ hn.1.1
    · intro hrec
      refine ⟨nodeOf modules l.Target, ?_, rfl⟩
      rw [mem_nodes]
      exact ⟨⟨hrec, hIt⟩, rfl⟩

/-- Witness for C1 (amended), at scenario 1 of the specification. -/
theorem link_source_is_node_target_is_internal_witness :
    linkXY ∈ (extractPackageDependencies scenarioModules [recordX, recordY]).Links
    ∧ ((∃ n ∈ (extractPackageDependencies scenarioModules [recordX, recordY]).Nodes,
          n.ID = linkXY.Source)
      ∧ IsInternal scenarioModules linkXY.Target
      ∧ ((∃ n ∈ (extractPackageDependencies scenarioModules [recordX, recordY]).Nodes,
            n.ID = linkXY.Target)
          ↔ ∃ pkg ∈ [recordX, recordY], pkg.ImportPath = linkXY.Target)) :=
  ⟨by decide,
    link_source_is_node_target_is_internal scenarioModules [recordX, recordY] linkXY
      (by decide)⟩

/-- C2: the code at the failing input. With the records of scenario 1 decoded twice the
single ordered pair `(a/x, a/y)` occurs twice in `Graph.Links`: the link pass has no
counterpart of the `nodeMap` check of the node pass. -/
theorem links_repeat_at_repeated_records :
    (extractPackageDependencies scenarioModules [recordX, recordY, recordX, recordY]).Links
      = [linkXY, linkXY]
    ∧ ¬ (extractPackageDependencies scenarioModules
          [recordX, recordY, recordX, recordY]).Links.Nodup
    ∧ (extractPackageDependencies scenarioModules
          [recordX, recordY, recordX, recordY]).Links.toFinset.card = 1 := by
  decide

/-- C3: the node IDs are the internal `ImportPath`s of the records with every later
repeat removed; no two nodes share an ID, and the node count is the number of distinct
internal `ImportPath`s. -/
theorem node_ids_are_first_occurrences (modules : List ModuleInfo)
    (allPackages : List Package) :
    (extractPackageDependencies modules allPackages).Nodes.map Node.ID
        = firstOccurrences ((allPackages.map Package.ImportPath).filter
            (fun p => IsInternal modules p))
    ∧ ((extractPackageDependencies modules allPackages).Nodes.map Node.ID).Nodup
    ∧ (extractPackageDependencies modules allPackages).Nodes.length
        = ((allPackages.map Package.ImportPath).filter
            (fun p => IsInternal modules p)).toFinset.card := by
  have h := nodeIDs_eq modules allPackages
  refine ⟨h, ?_, ?_⟩
  · rw [h]; exact nodup_firstOccurrences _
  · rw [← List.length_map _ Node.ID, h, length_firstOccurrences]; rfl

/-- C4: the `Module` of every node is the `ModulePath` of the first module of the list
whose `ModulePath` is a string prefix of the node's ID. With the modules
`example.com/a`, `example.com/a/sub` the package `example.com/a/sub/pkg` gets the
module `example.com/a`; with the list reversed it gets `example.com/a/sub`. -/
theorem node_module_is_first_match :
    (∀ (modules : List ModuleInfo) (allPackages : List Package),
      ∀ n ∈ (extractPackageDependencies modules allPackages).Nodes,
        ∃ pre m post, modules = pre ++ m :: post ∧ m.ModulePath <+: n.ID
          ∧ (∀ m' ∈ pre, ¬ m'.ModulePath <+: n.ID) ∧ n.Module = m.ModulePath)
    ∧ (extractPackageDependencies [mkModule "example.com/a", mkModule "example.com/a/sub"]
          [recordSubPkg]).Nodes
        = [⟨"example.com/a/sub/pkg".toList, "example.com/a".toList⟩]
    ∧ (extractPackageDependencies [mkModule "example.com/a/sub", mkModule "example.com/a"]
          [recordSubPkg]).Nodes
        = [⟨"example.com/a/sub/pkg".toList, "example.com/a/sub".toList⟩] := by
  refine ⟨?_, by decide, by decide⟩
  intro modules allPackages n hn
  rw [mem_nodes] at hn
  obtain ⟨pre, m, post, h1, h2, h3, h4⟩ := findModuleName_spec modules n.ID hn.1.2
  exact ⟨pre, m, post, h1, h2, h3, hn.2.trans h4⟩

/-- Witness for C4: the general part applied to the nested-module example. -/
theorem node_module_is_first_match_witness :
    ∃ pre m post,
      [mkModule "example.com/a", mkModule "example.com/a/sub"] = pre ++ m :: post
      ∧ m.ModulePath <+: "example.com/a/sub/pkg".toList
      ∧ (∀ m' ∈ pre, ¬ m'.ModulePath <+: "example.com/a/sub/pkg".toList)
      ∧ "example.com/a".toList = m.ModulePath :=
  node_module_is_first_match.1 [mkModule "example.com/a", mkModule "example.com/a/sub"]
    [recordSubPkg] ⟨"example.com/a/sub/pkg".toList, "example.com/a".toList⟩ (by decide)

/-- C5, as stated, fails: with the modules `example.com/a`, `example.com/a/sub` (in this
order) the node `example.com/a/sub/pkg` has the module `example.com/a`, although the
longer module path `example.com/a/sub` is a prefix of its ID too. -/
theorem node_module_not_longest_counterexample :
    ¬ (∀ n ∈ (extractPackageDependencies
          [mkModule "example.com/a", mkModule "example.com/a/sub"] [recordSubPkg]).Nodes,
        ∀ m ∈ [mkModule "example.com/a", mkModule "example.com/a/sub"],
          m.ModulePath <+: n.ID → m.ModulePath.length ≤ n.Module.length) := by
  decide

/-- C5, amended: every node's `Module` is a `ModulePath` of the list that is a string
prefix of the node's ID, and it is the longest such one whenever the modules are listed
with no `ModulePath` longer than an earlier one. -/
theorem node_module_longest_when_sorted (modules : List ModuleInfo)
    (allPackages : List Package)
    (hsorted : modules.Pairwise (fun a b => b.ModulePath.length ≤ a.ModulePath.length))
    (n : Node) (hn : n ∈ (extractPackageDependencies modules allPackages).Nodes) :
    (∃ m ∈ modules, m.ModulePath = n.Module ∧ n.Module <+: n.ID)
    ∧ ∀ m ∈ modules, m.ModulePath <+: n.ID → m.ModulePath.length ≤ n.Module.length := by
  rw [mem_nodes] at hn
  obtain ⟨pre, m, post, h1, h2, _, h4⟩ := findModuleName_spec modules n.ID hn.1.2
  refine ⟨⟨m, by simp [h1], (hn.2.trans h4).symm, ?_⟩, ?_⟩
  · rw [hn.2, h4]; exact h2
  · intro m' hm' hp
    rw [hn.2]
    exact prefix_length_le_of_first modules n.ID hsorted m' hm' hp

/-- Witness for C5 (amended): the nested module listed first. -/
theorem node_module_longest_when_sorted_witness :
    ([mkModule "example.com/a/sub", mkModule "example.com/a"].Pairwise
        (fun a b => b.ModulePath.length ≤ a.ModulePath.length))
    ∧ (⟨"example.com/a/sub/pkg".toList, "example.com/a/sub".toList⟩ : Node)
        ∈ (extractPackageDependencies [mkModule "example.com/a/sub", mkModule "example.com/a"]
            [recordSubPkg]).Nodes
    ∧ ((∃ m ∈ [mkModule "example.com/a/sub", mkModule "example.com/a"],
          m.ModulePath = "example.com/a/sub".toList
          ∧ "example.com/a/sub".toList <+: "example.com/a/sub/pkg".toList)
      ∧ ∀ m ∈ [mkModule "example.com/a/sub", mkModule "example.com/a"],
          m.ModulePath <+: "example.com/a/sub/pkg".toList
            → m.ModulePath.length ≤ "example.com/a/sub".toList.length) :=
  ⟨by decide, by decide,
    node_module_longest_when_sorted [mkModule "example.com/a/sub", mkModule "example.com/a"]
      [recordSubPkg] (by decide) ⟨"example.com/a/sub/pkg".toList, "example.com/a/sub".toList⟩
      (by decide)⟩

/-- C6: in whatever order `range moduleMap` visits the keys, `isInternalPackage(p)` is true
exactly when some module of the list has a `ModulePath` that is a literal string prefix
of `p`; the test is not segment-aware: with a module `foo` the package `foobar` is
internal. -/
theorem isInternalPackage_iff_module_prefix (modules : List ModuleInfo) (keys : List Str)
    (p : Str) (hkeys : ∀ k, k ∈ keys ↔ k ∈ moduleMap modules) :
    (isInternalPackage keys p = true ↔ ∃ m ∈ modules, m.ModulePath <+: p)
    ∧ isInternalPackage (moduleMap [mkModule "foo"]) "foobar".toList = true :=
  ⟨isInternalPackage_of_keys modules keys p hkeys, by decide⟩

/-- Witness for C6: two modules whose keys are visited in reverse insertion order. -/
theorem isInternalPackage_iff_module_prefix_witness :
    (∀ k, k ∈ ["example.com/b".toList, "example.com/a".toList]
        ↔ k ∈ moduleMap [mkModule "example.com/a", mkModule "example.com/b"])
    ∧ ((isInternalPackage ["example.com/b".toList, "example.com/a".toList]
          "example.com/a/x".toList = true
        ↔ ∃ m ∈ [mkModule "example.com/a", mkModule "example.com/b"],
            m.ModulePath <+: "example.com/a/x".toList)
      ∧ isInternalPackage (moduleMap [mkModule "foo"]) "foobar".toList = true) :=
  ⟨by intro k; simp [moduleMap, moduleMapFrom, mapSet, mkModule]; tauto,
    isInternalPackage_iff_module_prefix [mkModule "example.com/a", mkModule "example.com/b"]
      ["example.com/b".toList, "example.com/a".toList] "example.com/a/x".toList
      (by intro k; simp [moduleMap, moduleMapFrom, mapSet, mkModule]; tauto)⟩

/-- C7: `Graph.Links` is, in order, the list that takes every record with an internal
`ImportPath` and, for every internal entry `imp` of its `Imports`, the link
`(record.ImportPath, imp)`; so no link has a source or target that no module prefixes,
and the import of `example.com/external/z` yields no link. -/
theorem links_are_internal_imports_in_order :
    (∀ (modules : List ModuleInfo) (allPackages : List Package),
      (extractPackageDependencies modules allPackages).Links
          = (allPackages.filter (fun pkg => IsInternal modules pkg.ImportPath)).flatMap
              (fun pkg => (pkg.Imports.filter (fun imp => IsInternal modules imp)).map
                (fun imp => ({ Source := pkg.ImportPath, Target := imp } : Link)))
      ∧ ∀ l ∈ (extractPackageDependencies modules allPackages).Links,
          IsInternal modules l.Source ∧ IsInternal modules l.Target)
    ∧ (extractPackageDependencies scenarioModules [recordXZ, recordY]).Links = [linkXY]
    ∧ (extractPackageDependencies scenarioModules [recordXZ, recordY]).Nodes
        = [⟨"example.com/a/x".toList, "example.com/a".toList⟩,
           ⟨"example.com/a/y".toList, "example.com/a".toList⟩] := by
  refine ⟨fun modules allPackages => ⟨links_eq modules allPackages, ?_⟩, by decide, by decide⟩
  intro l hl
  rw [links_eq, mem_specLinks] at hl
  obtain ⟨pkg, _, hI, hs, _, hIt⟩ := hl
  exact ⟨hs ▸ hI, hIt⟩

/-- Witness for C7: the link of scenario 3 has internal endpoints. -/
theorem links_are_internal_imports_in_order_witness :
    IsInternal scenarioModules linkXY.Source ∧ IsInternal scenarioModules linkXY.Target :=
  (links_are_internal_imports_in_order.1 scenarioModules [recordXZ, recordY]).2 linkXY
    (by decide)

/-- C8: the code at the failing input, and in general. Building from `rs ++ rs` gives
the same `Nodes` as building from `rs`, but `Links` comes out as the links of `rs`
twice over; with the records of scenario 1 repeated the two graphs differ. -/
theorem repeated_records_double_the_links :
    (∀ (modules : List ModuleInfo) (rs : List Package),
      (extractPackageDependencies modules (rs ++ rs)).Nodes
          = (extractPackageDependencies modules rs).Nodes
      ∧ (extractPackageDependencies modules (rs ++ rs)).Links
          = (extractPackageDependencies modules rs).Links
            ++ (extractPackageDependencies modules rs).Links)
    ∧ (extractPackageDependencies scenarioModules [recordX, recordY]).Links = [linkXY]
    ∧ (extractPackageDependencies scenarioModules
          ([recordX, recordY] ++ [recordX, recordY])).Links = [linkXY, linkXY]
    ∧ extractPackageDependencies scenarioModules ([recordX, recordY] ++ [recordX, recordY])
        ≠ extractPackageDependencies scenarioModules [recordX, recordY] := by
  refine ⟨fun modules rs => ⟨?_, ?_⟩, by decide, by decide, by decide⟩
  · rw [nodes_eq, nodes_eq, internalPaths_append, firstOccurrences_append_self]
  · rw [links_eq, links_eq, specLinks_append]

/-! ### Splitting and joining paths -/

theorem split_ne_nil (sep : Char) (s : Str) : split sep s ≠ [] := by
  induction s with
  | nil => simp [split]
  | cons c s ih =>
    unfold split
    split_ifs
    · simp
    · cases h : split sep s with
      | nil => exact absurd h ih
      | cons part parts => simp

theorem split_cons_sep (sep : Char) (s : Str) : split sep (sep :: s) = [] :: split sep s := by
  simp [split]

theorem split_cons_of_ne (sep c : Char) (s : Str) (hc : c ≠ sep) :
    ∃ part parts, split sep s = part :: parts ∧ split sep (c :: s) = (c :: part) :: parts := by
  cases h : split sep s with
  | nil => exact absurd h (split_ne_nil sep s)
  | cons part parts => exact ⟨part, parts, rfl, by simp [split, hc, h]⟩

theorem split_no_sep (sep : Char) (s : Str) : ∀ part ∈ split sep s, sep ∉ part := by
  induction s with
  | nil => simp [split]
  | cons c s ih =>
    by_cases hc : c = sep
    · subst hc
      rw [split_cons_sep]
      intro part hpart
      rcases List.mem_cons.1 hpart with rfl | hpart
      · simp
      · exact ih part hpart
    · obtain ⟨part, parts, h1, h2⟩ := split_cons_of_ne sep c s hc
      rw [h2]
      rw [h1] at ih
      intro q hq
      rcases List.mem_cons.1 hq with rfl | hq
      · intro hmem
        rcases List.mem_cons.1 hmem with h | h
        · exact hc h.symm
        · exact ih part (List.mem_cons_self _ _) h
      · exact ih q (List.mem_cons_of_mem _ hq)

theorem joinPath_cons_cons (p q : Str) (r : List Str) :
    joinPath (p :: q :: r) = p ++ '/' :: joinPath (q :: r) := rfl

theorem joinPath_cons_head (c : Char) (part : Str) (parts : List Str) :
    joinPath ((c :: part) :: parts) = c :: joinPath (part :: parts) := by
  cases parts <;> rfl

theorem joinPath_split (s : Str) : joinPath (split '/' s) = s := by
  induction s with
  | nil => rfl
  | cons c s ih =>
    by_cases hc : c = '/'
    · subst hc
      rw [split_cons_sep]
      cases h : split '/' s with
      | nil => exact absurd h (split_ne_nil _ s)
      | cons q r => rw [joinPath_cons_cons, ← h, ih]; rfl
    · obtain ⟨part, parts, h1, h2⟩ := split_cons_of_ne '/' c s hc
      rw [h2, joinPath_cons_head, ← h1, ih]

theorem split_of_no_sep (p : Str) (hp : '/' ∉ p) : split '/' p = [p] := by
  induction p with
  | nil => rfl
  | cons c p ih =>
    have hc : c ≠ '/' := fun h => hp (h ▸ List.mem_cons_self _ _)
    have hp' : '/' ∉ p := fun h => hp (List.mem_cons_of_mem _ h)
    simp [split, hc, ih hp']

theorem split_append_sep (p r : Str) (hp : '/' ∉ p) :
    split '/' (p ++ '/' :: r) = p :: split '/' r := by
  induction p with
  | nil => simp [split]
  | cons c p ih =>
    have hc : c ≠ '/' := fun h => hp (h ▸ List.mem_cons_self _ _)
    have hp' : '/' ∉ p := fun h => hp (List.mem_cons_of_mem _ h)
    simp [split, hc, ih hp']

theorem split_joinPath (t : List Str) (hne : t ≠ []) (hsep : ∀ p ∈ t, '/' ∉ p) :
    split '/' (joinPath t) = t := by
  induction t with
  | nil => exact absurd rfl hne
  | cons p t ih =>
    cases t with
    | nil => exact split_of_no_sep p (hsep p (List.mem_cons_self _ _))
    | cons q r =>
      rw [joinPath_cons_cons, split_append_sep _ _ (hsep p (List.mem_cons_self _ _)),
        ih (by simp) (fun x hx => hsep x (List.mem_cons_of_mem _ hx))]

theorem joinPath_ne_nil (t : List Str) (hgood : GoodPath t) (hne : t ≠ []) :
    joinPath t ≠ [] := by
  cases t with
  | nil => exact absurd rfl hne
  | cons p t =>
    have hp : p ≠ [] := (hgood p (List.mem_cons_self _ _)).1
    cases t with
    | nil => exact hp
    | cons q r => rw [joinPath_cons_cons]; simp [hp]

theorem joinPath_injective (a b : List Str) (ha : GoodPath a) (hb : GoodPath b)
    (h : joinPath a = joinPath b) : a = b := by
  by_cases hane : a = []
  · subst hane
    by_contra hbne
    exact joinPath_ne_nil b hb (fun h' => hbne h'.symm) h.symm
  · by_cases hbne : b = []
    · subst hbne
      exact absurd h (joinPath_ne_nil a ha hane)
    · rw [← split_joinPath a hane (fun p hp => (ha p hp).2),
        ← split_joinPath b hbne (fun p hp => (hb p hp).2), h]

theorem joinPath_snoc (t : List Str) (s : Str) (hne : t ≠ []) :
    joinPath (t ++ [s]) = joinPath t ++ '/' :: s := by
  induction t with
  | nil => exact absurd rfl hne
  | cons p t ih =>
    cases t with
    | nil => rfl
    | cons q r =>
      rw [List.cons_append, List.cons_append, joinPath_cons_cons, ← List.cons_append,
        ih (by simp), joinPath_cons_cons]
      simp

theorem goodPath_split (s : Str) (h : ∀ part ∈ split '/' s, part ≠ []) :
    GoodPath (split '/' s) :=
  fun part hpart => ⟨h part hpart, split_no_sep '/' s part hpart⟩

theorem GoodPath.mono {t u : List Str} (hu : GoodPath u) (h : t <+: u) : GoodPath t :=
  fun part hpart => hu part (h.subset hpart)

theorem mem_tail_inits {α : Type} (l t : List α) :
    t ∈ l.inits.tail ↔ t ≠ [] ∧ t <+: l := by
  cases l with
  | nil => simp
  | cons a l =>
    simp only [List.inits, List.tail_cons, List.mem_map, List.mem_inits]
    constructor
    · rintro ⟨u, hu, rfl⟩
      exact ⟨by simp, by simpa using hu⟩
    · rintro ⟨hne, hpre⟩
      cases t with
      | nil => exact absurd rfl hne
      | cons b t =>
        rw [List.cons_prefix_cons] at hpre
        exact ⟨t, hpre.2, by rw [hpre.1]⟩

theorem mem_pathPrefixes (id p : Str) :
    p ∈ pathPrefixes id ↔ ∃ t, t ≠ [] ∧ t <+: split '/' id ∧ p = joinPath t := by
  simp only [pathPrefixes, List.mem_map, mem_tail_inits]
  constructor
  · rintro ⟨t, ⟨h1, h2⟩, rfl⟩; exact ⟨t, h1, h2, rfl⟩
  · rintro ⟨t, h1, h2, rfl⟩; exact ⟨t, ⟨h1, h2⟩, rfl⟩

/-! ### The invariant of the tree-building loop -/

theorem NodesMap.set_same (m : NodesMap) (k : Str) (o : HObj) : (m.set k o) k = some o := by
  simp [NodesMap.set]

theorem NodesMap.set_other (m : NodesMap) (k k' : Str) (o : HObj) (h : k' ≠ k) :
    (m.set k o) k' = m k' := by
  simp [NodesMap.set, h]

theorem NodesMap.set_isSome (m : NodesMap) (k k' : Str) (o : HObj)
    (h : (m k').isSome = true) : ((m.set k o) k').isSome = true := by
  by_cases hk : k' = k
  · subst hk; simp [NodesMap.set_same]
  · rw [NodesMap.set_other m k k' o hk]; exact h

theorem HInv.congr_pred {ids : List Str} {T T' : List Str → Prop} {st : HState}
    (h : HInv ids T st) (hT : ∀ x, T' x ↔ T x) : HInv ids T' st := by
  have : T' = T := funext fun x => propext (hT x)
  rw [this]; exact h

theorem HInv.createFolder {ids : List Str} {T : List Str → Prop} {st : HState}
    (h : HInv ids T st) (cur : Str) (folder : HObj) (hnone : st.nodesMap cur = none)
    (hid : folder.id = cur) (hpkg : folder.isPackage = false) (hch : folder.children = []) :
    HInv ids T { st with nodesMap := st.nodesMap.set cur folder } where
  good := h.good
  closed := h.closed
  keys_walked := fun t ht => NodesMap.set_isSome _ _ _ _ (h.keys_walked t ht)
  keys_ids := fun k hk => NodesMap.set_isSome _ _ _ _ (h.keys_ids k hk)
  obj_id := by
    intro k o hko
    by_cases hk : k = cur
    · subst hk
      simp only [NodesMap.set_same] at hko
      cases hko; exact hid
    · simp only [NodesMap.set_other _ _ _ _ hk] at hko
      exact h.obj_id k o hko
  obj_pkg := by
    intro k o hko
    by_cases hk : k = cur
    · subst hk
      simp only [NodesMap.set_same] at hko
      cases hko
      have hnot : k ∉ ids := fun hmem => by
        have := h.keys_ids k hmem
        rw [hnone] at this
        simp at this
      simp [hpkg, hnot]
    · simp only [NodesMap.set_other _ _ _ _ hk] at hko
      exact h.obj_pkg k o hko
  obj_children := by
    intro t o hg hne hko
    by_cases hk : joinPath t = cur
    · simp only [hk, NodesMap.set_same] at hko
      cases hko
      rw [hch]
      refine ⟨List.nodup_nil, fun c => ⟨fun hc => by simp at hc, ?_⟩⟩
      rintro ⟨s, hs, _⟩
      rcases h.closed t s hs with ht | ht
      · exact absurd ht hne
      · have := h.keys_walked t ht
        rw [hk, hnone] at this
        simp at this
    · simp only [NodesMap.set_other _ _ _ _ hk] at hko
      exact h.obj_children t o hg hne hko
  root_children := h.root_children

theorem HInv.pushChild {ids : List Str} {T : List Str → Prop} {st : HState}
    (h : HInv ids T st) (t : List Str) (s : Str) (hgood : GoodPath (t ++ [s]))
    (hparent : t = [] ∨ T t)
    (hkey : (st.nodesMap (joinPath (t ++ [s]))).isSome = true) :
    ∃ st', pushChild st (parentRef t) (joinPath (t ++ [s])) = some st'
      ∧ HInv ids (fun x => T x ∨ x = t ++ [s]) st' := by
  have hgt : GoodPath t := hgood.mono (List.prefix_append t [s])
  by_cases hT : T (t ++ [s])
  · -- the path was walked before: nothing is pushed
    refine ⟨st, ?_, h.congr_pred (fun x => ⟨fun hx => hx.elim (fun a => a) (fun e => e ▸ hT), Or.inl⟩)⟩
    by_cases ht : t = []
    · subst ht
      have hmem : joinPath ([] ++ [s]) ∈ st.rootChildren := (h.root_children.2 s).2 hT
      simp only [parentRef, if_true, Godegraph.pushChild, hmem]
    · have hTt : T t := hparent.resolve_left ht
      obtain ⟨o, ho⟩ := Option.isSome_iff_exists.1 (h.keys_walked t hTt)
      have hmem : joinPath (t ++ [s]) ∈ o.children :=
        ((h.obj_children t o hgt ht ho).2 _).2 ⟨s, hT, rfl⟩
      simp only [parentRef, ht, if_false, Godegraph.pushChild, ho, hmem, if_true]
  · have hgood' : ∀ x, (T x ∨ x = t ++ [s]) → GoodPath x ∧ x ≠ [] := by
      rintro x (hx | rfl)
      · exact h.good x hx
      · exact ⟨hgood, by simp⟩
    have hclosed' : ∀ x y, (T (x ++ [y]) ∨ x ++ [y] = t ++ [s]) →
        x = [] ∨ (T x ∨ x = t ++ [s]) := by
      rintro x y (hx | hx)
      · exact (h.closed x y hx).imp_right Or.inl
      · have := (List.append_inj' hx rfl).1
        subst this
        exact hparent.imp_right Or.inl
    by_cases ht : t = []
    · subst ht
      have hnot : joinPath ([] ++ [s]) ∉ st.rootChildren := fun hm =>
        hT ((h.root_children.2 s).1 hm)
      refine ⟨{ st with rootChildren := st.rootChildren ++ [s] }, ?_, ?_⟩
      · simp only [parentRef, if_true, Godegraph.pushChild, hnot, if_false]
        rfl
      · refine ⟨hgood', hclosed', ?_, h.keys_ids, h.obj_id, h.obj_pkg, ?_, ?_⟩
        · rintro x (hx | rfl)
          · exact h.keys_walked x hx
          · exact hkey
        · intro t' o hg hne hko
          obtain ⟨hnd, hmem⟩ := h.obj_children t' o hg hne hko
          refine ⟨hnd, fun c => (hmem c).trans ⟨?_, ?_⟩⟩
          · rintro ⟨y, hy, rfl⟩; exact ⟨y, Or.inl hy, rfl⟩
          · rintro ⟨y, hy | hy, rfl⟩
            · exact ⟨y, hy, rfl⟩
            · exact absurd (List.append_inj' hy rfl).1 hne
        · refine ⟨?_, fun c => ?_⟩
          · have : s ∉ st.rootChildren := hnot
            exact List.Nodup.append h.root_children.1 (List.nodup_singleton s)
              (by simpa using this)
          · simp only [List.mem_append, List.mem_singleton, h.root_children.2 c]
            simp
    · have hTt : T t := hparent.resolve_left ht
      obtain ⟨o, ho⟩ := Option.isSome_iff_exists.1 (h.keys_walked t hTt)
      obtain ⟨hnd, hmem⟩ := h.obj_children t o hgt ht ho
      have hnot : joinPath (t ++ [s]) ∉ o.children := fun hm => by
        obtain ⟨y, hy, heq⟩ := (hmem _).1 hm
        have hgy : GoodPath (t ++ [y]) := (h.good _ hy).1
        have := joinPath_injective _ _ hgood hgy heq
        rw [this] at hT
        exact hT hy
      refine ⟨{ st with
          nodesMap := st.nodesMap.set (joinPath t)
            { o with children := o.children ++ [joinPath (t ++ [s])] } }, ?_, ?_⟩
      · simp only [parentRef, ht, if_false, Godegraph.pushChild, ho, hnot]
      · refine ⟨hgood', hclosed', ?_, ?_, ?_, ?_, ?_, ?_⟩
        · rintro x (hx | rfl)
          · exact NodesMap.set_isSome _ _ _ _ (h.keys_walked x hx)
          · exact NodesMap.set_isSome _ _ _ _ hkey
        · exact fun k hk => NodesMap.set_isSome _ _ _ _ (h.keys_ids k hk)
        · intro k o' hko
          by_cases hk : k = joinPath t
          · subst hk
            simp only [NodesMap.set_same] at hko
            cases hko
            exact h.obj_id _ o ho
          · simp only [NodesMap.set_other _ _ _ _ hk] at hko
            exact h.obj_id k o' hko
        · intro k o' hko
          by_cases hk : k = joinPath t
          · subst hk
            simp only [NodesMap.set_same] at hko
            cases hko
            exact h.obj_pkg _ o ho
          · simp only [NodesMap.set_other _ _ _ _ hk] at hko
            exact h.obj_pkg k o' hko
        · intro t' o' hg hne hko
          by_cases hk : joinPath t' = joinPath t
          · have ht' : t' = t := joinPath_injective _ _ hg hgt hk
            subst ht'
            simp only [NodesMap.set_same] at hko
            cases hko
            refine ⟨?_, fun c => ?_⟩
            · exact List.Nodup.append hnd (List.nodup_singleton _) (by simpa using hnot)
            · simp only [List.mem_append, List.mem_singleton, hmem c]
              constructor
              · rintro (⟨y, hy, rfl⟩ | rfl)
                · exact ⟨y, Or.inl hy, rfl⟩
                · exact ⟨s, Or.inr rfl, rfl⟩
              · rintro ⟨y, hy | hy, rfl⟩
                · exact Or.inl ⟨y, hy, rfl⟩
                · exact Or.inr (by rw [hy])
          · simp only [NodesMap.set_other _ _ _ _ hk] at hko
            obtain ⟨hnd', hmem'⟩ := h.obj_children t' o' hg hne hko
            refine ⟨hnd', fun c => (hmem' c).trans ⟨?_, ?_⟩⟩
            · rintro ⟨y, hy, rfl⟩; exact ⟨y, Or.inl hy, rfl⟩
            · rintro ⟨y, hy | hy, rfl⟩
              · exact ⟨y, hy, rfl⟩
              · exact absurd (by rw [(List.append_inj' hy rfl).1]) hk
        · refine ⟨h.root_children.1, fun c => (h.root_children.2 c).trans ⟨Or.inl, ?_⟩⟩
          rintro (hc | hc)
          · exact hc
          · have hlen := congrArg List.length hc
            simp at hlen
            exact absurd hlen ht

/-! ### Walking the parts of one id -/

theorem currentPath_eq (done : List Str) (part : Str) (hgood : GoodPath done) :
    (if joinPath done ≠ [] then joinPath done ++ '/' :: part else part)
      = joinPath (done ++ [part]) := by
  by_cases hd : done = []
  · subst hd; simp [joinPath]
  · rw [if_pos (joinPath_ne_nil done hgood hd), joinPath_snoc done part hd]

theorem parentRef_snoc (done : List Str) (part : Str) :
    parentRef (done ++ [part]) = some (joinPath (done ++ [part])) := by
  simp [parentRef]

theorem walkParts_inv {ids : List Str} (node : Node) (rest : List Str) :
    ∀ (done : List Str) (T : List Str → Prop) (st : HState), HInv ids T st →
      done ++ rest = split '/' node.ID → GoodPath (split '/' node.ID) → node.ID ∈ ids →
      (∀ x, x ≠ [] → x <+: done → T x) →
      ∃ st', walkParts node (split '/' node.ID).length rest done.length (joinPath done)
            (parentRef done) st = some st'
        ∧ HInv ids (fun x => T x ∨ (x ≠ [] ∧ x <+: split '/' node.ID)) st' := by
  induction rest with
  | nil =>
    intro done T st h hsplit _ _ hdone
    refine ⟨st, by simp [walkParts], h.congr_pred (fun x => ⟨?_, Or.inl⟩)⟩
    rintro (hx | ⟨hne, hpre⟩)
    · exact hx
    · rw [← hsplit, List.append_nil] at hpre
      exact hdone x hne hpre
  | cons part rest ih =>
    intro done T st h hsplit hgood hid hdone
    have hpartmem : part ∈ split '/' node.ID := by rw [← hsplit]; simp
    have hpart : part ≠ [] := (hgood part hpartmem).1
    have hpre : done ++ [part] <+: split '/' node.ID :=
      ⟨rest, by rw [← hsplit]; simp⟩
    have hgdone : GoodPath done := hgood.mono ⟨part :: rest, hsplit⟩
    have hgcur : GoodPath (done ++ [part]) := hgood.mono hpre
    have hparent : done = [] ∨ T done := by
      by_cases hd : done = []
      · exact Or.inl hd
      · exact Or.inr (hdone done hd (List.prefix_refl _))
    -- what remains once the child is pushed
    have hfinish : ∀ st1 : HState, HInv ids T st1 →
        (st1.nodesMap (joinPath (done ++ [part]))).isSome = true →
        ∃ st', (match pushChild st1 (parentRef done) (joinPath (done ++ [part])) with
            | none => none
            | some st' => walkParts node (split '/' node.ID).length rest (done.length + 1)
                (joinPath (done ++ [part])) (some (joinPath (done ++ [part]))) st') = some st'
          ∧ HInv ids (fun x => T x ∨ (x ≠ [] ∧ x <+: split '/' node.ID)) st' := by
      intro st1 h1 hkey
      obtain ⟨st2, hpush, h2⟩ := h1.pushChild done part hgcur hparent hkey
      have hdone' : ∀ x, x ≠ [] → x <+: done ++ [part] → (T x ∨ x = done ++ [part]) := by
        intro x hne hx
        rcases List.prefix_concat_iff.1 hx with rfl | hx
        · exact Or.inr rfl
        · exact Or.inl (hdone x hne hx)
      obtain ⟨st3, hwalk, h3⟩ := ih (done ++ [part]) _ st2 h2 (by rw [← hsplit]; simp)
        hgood hid hdone'
      rw [List.length_append, List.length_singleton, parentRef_snoc] at hwalk
      refine ⟨st3, by rw [hpush]; exact hwalk, h3.congr_pred (fun x => ⟨?_, ?_⟩)⟩
      · rintro (hx | hx)
        · exact Or.inl (Or.inl hx)
        · exact Or.inr hx
      · rintro ((hx | rfl) | hx)
        · exact Or.inl hx
        · exact Or.inr ⟨by simp, hpre⟩
        · exact Or.inr hx
    unfold walkParts
    simp only [hpart, if_false, currentPath_eq done part hgdone]
    by_cases hlast : done.length = (split '/' node.ID).length - 1
    · rw [if_pos hlast]
      have hrest : rest = [] := by
        have hlen := congrArg List.length hsplit
        simp only [List.length_append, List.length_cons] at hlen
        have : rest.length = 0 := by omega
        exact List.length_eq_zero.1 this
      have hcur : joinPath (done ++ [part]) = node.ID := by
        have : done ++ [part] = split '/' node.ID := by rw [← hsplit, hrest]
        rw [this, joinPath_split]
      have hkey : (st.nodesMap (joinPath (done ++ [part]))).isSome = true := by
        rw [hcur]; exact h.keys_ids _ hid
      obtain ⟨o, ho⟩ := Option.isSome_iff_exists.1 hkey
      simp only [ho]
      exact hfinish st h hkey
    · rw [if_neg hlast]
      cases hget : st.nodesMap (joinPath (done ++ [part])) with
      | none =>
        simp only []
        exact hfinish _ (h.createFolder _ _ hget rfl rfl rfl) (by simp [NodesMap.set_same])
      | some o =>
        simp only []
        exact hfinish st h (by simp [hget])

/-! ### The three loops -/

theorem buildHierarchy_inv {ids : List Str} (nodes : List Node) :
    ∀ (T : List Str → Prop) (st : HState), HInv ids T st →
      (∀ n ∈ nodes, n.ID ∈ ids ∧ GoodPath (split '/' n.ID)) →
      ∃ st', buildHierarchy nodes st = some st'
        ∧ HInv ids (fun x => T x ∨ ∃ n ∈ nodes, x ≠ [] ∧ x <+: split '/' n.ID) st' := by
  induction nodes with
  | nil =>
    intro T st h _
    exact ⟨st, rfl, h.congr_pred (fun x => by simp)⟩
  | cons node rest ih =>
    intro T st h hnodes
    obtain ⟨hid, hgood⟩ := hnodes node (List.mem_cons_self _ _)
    obtain ⟨st1, hwalk, h1⟩ := walkParts_inv node (split '/' node.ID) [] T st h rfl hgood hid
      (fun x hne hx => absurd (List.prefix_nil.1 hx) hne)
    have hwalk' : walkParts node (split '/' node.ID).length (split '/' node.ID) 0 [] none st
        = some st1 := hwalk
    obtain ⟨st2, hbuild, h2⟩ := ih _ st1 h1 (fun n hn => hnodes n (List.mem_cons_of_mem _ hn))
    refine ⟨st2, by simp only [buildHierarchy, hwalk', hbuild], h2.congr_pred (fun x => ?_)⟩
    simp only [List.mem_cons, exists_eq_or_imp]
    tauto

theorem initNodesMap_spec (nodes : List Node) :
    ∀ (m : NodesMap) (k : Str),
      (k ∈ nodes.map Node.ID →
        ∃ o, initNodesMap nodes m k = some o ∧ o.id = k ∧ o.isPackage = true ∧ o.children = [])
      ∧ (k ∉ nodes.map Node.ID → initNodesMap nodes m k = m k) := by
  induction nodes with
  | nil => intro m k; simp [initNodesMap]
  | cons node rest ih =>
    intro m k
    simp only [initNodesMap, List.map_cons, List.mem_cons, not_or]
    by_cases hrest : k ∈ rest.map Node.ID
    · exact ⟨fun _ => (ih _ k).1 hrest, fun h => absurd hrest h.2⟩
    · refine ⟨fun h => ?_, fun h => ?_⟩
      · have hk : k = node.ID := h.resolve_right hrest
        rw [(ih _ k).2 hrest, hk, NodesMap.set_same]
        exact ⟨_, rfl, rfl, rfl, rfl⟩
      · rw [(ih _ k).2 hrest, NodesMap.set_other _ _ _ _ h.1]

theorem initial_inv (nodes : List Node) :
    HInv (nodes.map Node.ID) (fun _ => False)
      { nodesMap := initNodesMap nodes (fun _ => none), rootChildren := [] } := by
  have hkey : ∀ k o, initNodesMap nodes (fun _ => none) k = some o →
      k ∈ nodes.map Node.ID ∧ o.id = k ∧ o.isPackage = true ∧ o.children = [] := by
    intro k o hko
    by_cases hk : k ∈ nodes.map Node.ID
    · obtain ⟨o', ho', h1, h2, h3⟩ := (initNodesMap_spec nodes (fun _ => none) k).1 hk
      rw [ho'] at hko
      cases hko
      exact ⟨hk, h1, h2, h3⟩
    · rw [(initNodesMap_spec nodes (fun _ => none) k).2 hk] at hko
      cases hko
  refine ⟨fun _ h => h.elim, fun _ _ h => h.elim, fun _ h => h.elim, ?_, ?_, ?_, ?_, ?_⟩
  · intro k hk
    obtain ⟨o, ho, _⟩ := (initNodesMap_spec nodes (fun _ => none) k).1 hk
    simp [ho]
  · exact fun k o hko => (hkey k o hko).2.1
  · intro k o hko
    obtain ⟨h1, _, h3, _⟩ := hkey k o hko
    simp [h1, h3]
  · intro t o _ _ hko
    obtain ⟨_, _, _, h4⟩ := hkey _ o hko
    rw [h4]
    exact ⟨List.nodup_nil, fun c => by simp⟩
  · exact ⟨List.nodup_nil, fun c => by simp⟩

theorem set_shape (m : NodesMap) (k0 : Str) (o o' : HObj) (hk : m k0 = some o)
    (hshape : o'.shape = o.shape) (k : Str) :
    ((m.set k0 o') k).map HObj.shape = (m k).map HObj.shape := by
  by_cases h : k = k0
  · subst h; rw [NodesMap.set_same, hk]; simp [hshape]
  · rw [NodesMap.set_other _ _ _ _ h]

theorem addLink_shape (m : NodesMap) (link : Link) (k : Str) :
    ((addLink m link) k).map HObj.shape = (m k).map HObj.shape := by
  unfold addLink
  cases hs : m link.Source with
  | none => simp
  | some source =>
    cases ht : m link.Target with
    | none => simp
    | some target =>
      simp only []
      have h1 := set_shape m link.Source source
        { source with imports := some (source.imports.getD [] ++ [target.id]) } hs rfl
      cases ht1 : (m.set link.Source
          { source with imports := some (source.imports.getD [] ++ [target.id]) }) link.Target with
      | none => simp only []; exact h1 k
      | some target1 =>
        simp only []
        exact (set_shape _ link.Target target1
          { target1 with importedBy := some (target1.importedBy.getD [] ++ [source.id]) }
          ht1 rfl k).trans (h1 k)

theorem addLinks_shape (links : List Link) :
    ∀ (m : NodesMap) (k : Str), ((addLinks links m) k).map HObj.shape = (m k).map HObj.shape := by
  induction links with
  | nil => intro m k; rfl
  | cons link rest ih =>
    intro m k
    rw [addLinks, ih, addLink_shape]

theorem shape_lookup {m m' : NodesMap} {k : Str} {o' : HObj}
    (h : (m' k).map HObj.shape = (m k).map HObj.shape) (hk : m' k = some o') :
    ∃ o, m k = some o ∧ o.shape = o'.shape := by
  rw [hk] at h
  cases hm : m k with
  | none => rw [hm] at h; simp at h
  | some o => rw [hm] at h; exact ⟨o, rfl, by simpa using h.symm⟩

theorem HInv.of_shape {ids : List Str} {T : List Str → Prop} {st : HState}
    (h : HInv ids T st) (m' : NodesMap)
    (hm : ∀ k, (m' k).map HObj.shape = (st.nodesMap k).map HObj.shape) :
    HInv ids T { nodesMap := m', rootChildren := st.rootChildren } := by
  have hsome : ∀ k, (m' k).isSome = (st.nodesMap k).isSome := by
    intro k
    have := congrArg Option.isSome (hm k)
    simpa using this
  refine ⟨h.good, h.closed, ?_, ?_, ?_, ?_, ?_, h.root_children⟩
  · intro t ht; simp only [hsome]; exact h.keys_walked t ht
  · intro k hk; simp only [hsome]; exact h.keys_ids k hk
  · intro k o' hko
    obtain ⟨o, ho, hshape⟩ := shape_lookup (hm k) hko
    have : o.id = o'.id := congrArg (fun x => x.1) hshape
    rw [← this]; exact h.obj_id k o ho
  · intro k o' hko
    obtain ⟨o, ho, hshape⟩ := shape_lookup (hm k) hko
    have : o.isPackage = o'.isPackage := congrArg (fun x => x.2.2.2.1) hshape
    rw [← this]; exact h.obj_pkg k o ho
  · intro t o' hg hne hko
    obtain ⟨o, ho, hshape⟩ := shape_lookup (hm _) hko
    have : o.children = o'.children := congrArg (fun x => x.2.2.2.2) hshape
    rw [← this]; exact h.obj_children t o hg hne ho

/-! ### Reading the object graph as a tree -/

theorem HInv.prefix_closed {ids : List Str} {T : List Str → Prop} {st : HState}
    (h : HInv ids T st) (u : List Str) :
    T u → ∀ x, x ≠ [] → x <+: u → T x := by
  induction u using List.reverseRecOn with
  | nil =>
    intro _ x hne hx
    exact absurd (List.prefix_nil.1 hx) hne
  | append_singleton u a ih =>
    intro hu x hne hx
    rcases List.prefix_concat_iff.1 hx with rfl | hx
    · exact hu
    · rcases h.closed u a hu with hnil | hTu
      · subst hnil
        exact absurd (List.prefix_nil.1 hx) hne
      · exact ih hTu x hne hx

theorem exists_preimage_list {α β : Type} (f : α → β) (Q : α → Prop) (l : List β)
    (h : ∀ c ∈ l, ∃ s, Q s ∧ c = f s) : ∃ ss : List α, l = ss.map f ∧ ∀ s ∈ ss, Q s := by
  induction l with
  | nil => exact ⟨[], rfl, by simp⟩
  | cons c l ih =>
    obtain ⟨s, hs, rfl⟩ := h c (List.mem_cons_self _ _)
    obtain ⟨ss, rfl, hss⟩ := ih (fun c hc => h c (List.mem_cons_of_mem _ hc))
    refine ⟨s :: ss, rfl, ?_⟩
    intro x hx
    rcases List.mem_cons.1 hx with rfl | hx
    · exact hs
    · exact hss x hx

theorem snoc_prefix_unique {t u : List Str} {s s' : Str}
    (h : t ++ [s] <+: u) (h' : t ++ [s'] <+: u) : s = s' := by
  have hp := List.prefix_of_prefix_length_le h h' (by simp)
  have heq := hp.eq_of_length (by simp)
  exact List.singleton_inj.1 (List.append_cancel_left heq)

theorem descendantsList_cons (c : HierarchyNode) (cs : List HierarchyNode) :
    HierarchyNode.descendantsList (c :: cs)
      = (c :: c.descendants) ++ HierarchyNode.descendantsList cs := by
  simp [HierarchyNode.descendantsList]

theorem forest_spec (ids : List Str) (T : List Str → Prop) (t : List Str)
    (f : Str → Option HierarchyNode) (ss : List Str) (hnd : ss.Nodup)
    (hsub : ∀ s ∈ ss, ∃ tr US, f (joinPath (t ++ [s])) = some tr
      ∧ IsSubtree ids T (t ++ [s]) tr US) :
    ∃ (trs : List HierarchyNode) (USS : List (List Str)),
      allSome ((ss.map (fun s => joinPath (t ++ [s]))).map f) = some trs
      ∧ trs.map HierarchyNode.id = ss.map (fun s => joinPath (t ++ [s]))
      ∧ (HierarchyNode.descendantsList trs).map HierarchyNode.id = USS.map joinPath
      ∧ USS.Nodup
      ∧ (∀ u, u ∈ USS ↔ T u ∧ ∃ s ∈ ss, t ++ [s] <+: u)
      ∧ ∀ h ∈ HierarchyNode.descendantsList trs, NodeOK ids h := by
  induction ss with
  | nil =>
    exact ⟨[], [], rfl, rfl, rfl, List.nodup_nil, by simp,
      by simp [HierarchyNode.descendantsList]⟩
  | cons s ss ih =>
    rw [List.nodup_cons] at hnd
    obtain ⟨tr, US, hf, hid, hmap, hUS, hmem, hok⟩ := hsub s (List.mem_cons_self _ _)
    obtain ⟨trs, USS, hall, hids, hmaps, hUSS, hmems, hoks⟩ :=
      ih hnd.2 (fun x hx => hsub x (List.mem_cons_of_mem _ hx))
    refine ⟨tr :: trs, US ++ USS, ?_, ?_, ?_, ?_, ?_, ?_⟩
    · simp only [List.map_cons, allSome, hf]
      simp only [List.map_map] at hall ⊢
      rw [hall]
    · simp [hid, hids]
    · rw [descendantsList_cons, List.map_append, hmap, hmaps, List.map_append]
    · refine List.Nodup.append hUS hUSS ?_
      intro u hu hu'
      obtain ⟨_, hpre⟩ := (hmem u).1 hu
      obtain ⟨_, s', hs', hpre'⟩ := (hmems u).1 hu'
      exact hnd.1 (snoc_prefix_unique hpre hpre' ▸ hs')
    · intro u
      simp only [List.mem_append, hmem, hmems, List.mem_cons, exists_eq_or_imp]
      tauto
    · intro h hh
      rw [descendantsList_cons, List.mem_append] at hh
      rcases hh with hh | hh
      · exact hok h hh
      · exact hoks h hh

theorem toTree_spec {ids : List Str} {T : List Str → Prop} {st : HState}
    (h : HInv ids T st) (N : Nat) (hN : ∀ t, T t → t.length ≤ N) :
    ∀ (fuel : Nat) (t : List Str), T t → N + 1 ≤ fuel + t.length →
      ∃ tr US, toTree st.nodesMap fuel (joinPath t) = some tr ∧ IsSubtree ids T t tr US := by
  intro fuel
  induction fuel with
  | zero =>
    intro t ht hlen
    have := hN t ht
    omega
  | succ fuel ih =>
    intro t ht hlen
    obtain ⟨hgt, hne⟩ := h.good t ht
    obtain ⟨o, ho⟩ := Option.isSome_iff_exists.1 (h.keys_walked t ht)
    obtain ⟨hnd, hmem⟩ := h.obj_children t o hgt hne ho
    obtain ⟨ss, hss, hT⟩ := exists_preimage_list (fun s => joinPath (t ++ [s]))
      (fun s => T (t ++ [s])) o.children (fun c hc => (hmem c).1 hc)
    have hssnd : ss.Nodup := by
      rw [hss] at hnd
      exact List.Nodup.of_map _ hnd
    have hsub : ∀ s ∈ ss, ∃ tr US, toTree st.nodesMap fuel (joinPath (t ++ [s])) = some tr
        ∧ IsSubtree ids T (t ++ [s]) tr US := by
      intro s hs
      refine ih (t ++ [s]) (hT s hs) ?_
      simp only [List.length_append, List.length_singleton]
      omega
    obtain ⟨trs, USS, hall, hids, hmaps, hUSS, hmems, hoks⟩ :=
      forest_spec ids T t (toTree st.nodesMap fuel) ss hssnd hsub
    refine ⟨HierarchyNode.mk o.id o.name (some o.module) (some o.isPackage) trs
      o.imports o.importedBy, t :: USS, ?_, ?_, ?_, ?_, ?_, ?_⟩
    · simp only [toTree, ho, hss, hall]
    · exact h.obj_id _ o ho
    · simp only [List.map_cons, HierarchyNode.descendants, HierarchyNode.id, hmaps]
      rw [h.obj_id _ o ho]
    · refine List.nodup_cons.2 ⟨?_, hUSS⟩
      intro hmemt
      obtain ⟨_, s, _, hpre⟩ := (hmems t).1 hmemt
      have := hpre.length_le
      simp at this
    · intro u
      simp only [List.mem_cons, hmems]
      constructor
      · rintro (rfl | ⟨hu, s, _, hpre⟩)
        · exact ⟨ht, List.prefix_refl _⟩
        · exact ⟨hu, (List.prefix_append t [s]).trans hpre⟩
      · rintro ⟨hu, w, rfl⟩
        cases w with
        | nil => left; simp
        | cons s w =>
          right
          have hpre : t ++ [s] <+: t ++ s :: w := ⟨w, by simp⟩
          have hTs : T (t ++ [s]) := h.prefix_closed _ hu _ (by simp) hpre
          refine ⟨hu, s, ?_, hpre⟩
          have hc : joinPath (t ++ [s]) ∈ o.children := (hmem _).2 ⟨s, hTs, rfl⟩
          rw [hss, List.mem_map] at hc
          obtain ⟨s', hs', heq⟩ := hc
          have hinj := joinPath_injective _ _ (h.good _ (hT s' hs')).1 (h.good _ hTs).1 heq
          have : s' = s := List.singleton_inj.1 (List.append_cancel_left hinj)
          exact this ▸ hs'
    · intro x hx
      rcases List.mem_cons.1 hx with rfl | hx
      · refine ⟨?_, ?_⟩
        · simp only [HierarchyNode.children, hids, ← hss]
          exact hnd
        · simp only [HierarchyNode.isPackage, HierarchyNode.id, Option.some.injEq]
          have := h.obj_pkg _ o ho
          rw [h.obj_id _ o ho]
          by_cases hmem' : joinPath t ∈ ids
          · simp [hmem', this.2 hmem']
          · have hb : o.isPackage = false := by
              cases hb : o.isPackage with
              | false => rfl
              | true => exact absurd (this.1 hb) hmem'
            simp [hmem', hb]
      · exact hoks x hx

theorem le_hierarchyDepth (nodes : List Node) :
    ∀ n ∈ nodes, (split '/' n.ID).length ≤ hierarchyDepth nodes := by
  induction nodes with
  | nil => intro n hn; simp at hn
  | cons node rest ih =>
    intro n hn
    simp only [hierarchyDepth, List.map_cons, List.foldr_cons]
    rcases List.mem_cons.1 hn with rfl | hn
    · exact le_max_left _ _
    · exact le_trans (ih n hn) (le_max_right _ _)

/-- The whole of `createHierarchy` on ids without empty parts: it returns a tree whose
nodes below the root are, each once, the objects of the non-empty part prefixes of the
ids, and every node is as `NodeOK` asks. -/
theorem createHierarchy_spec (data : Graph)
    (hseg : ∀ n ∈ data.Nodes, ∀ part ∈ split '/' n.ID, part ≠ []) :
    ∃ (root : HierarchyNode) (USS : List (List Str)),
      createHierarchy data = some root
      ∧ root.descendants.map HierarchyNode.id = USS.map joinPath
      ∧ USS.Nodup
      ∧ (∀ u, u ∈ USS ↔ ∃ n ∈ data.Nodes, u ≠ [] ∧ u <+: split '/' n.ID)
      ∧ (root.children.map HierarchyNode.id).Nodup
      ∧ ∀ h ∈ root.descendants, NodeOK (data.Nodes.map Node.ID) h := by
  obtain ⟨st, hbuild, hst⟩ := buildHierarchy_inv data.Nodes _ _ (initial_inv data.Nodes)
    (fun n hn => ⟨List.mem_map_of_mem _ hn, goodPath_split _ (hseg n hn)⟩)
  have hlinks := hst.of_shape (addLinks data.Links st.nodesMap) (addLinks_shape _ _)
  have hN : ∀ t, (False ∨ ∃ n ∈ data.Nodes, t ≠ [] ∧ t <+: split '/' n.ID) →
      t.length ≤ hierarchyDepth data.Nodes := by
    rintro t (hf | ⟨n, hn, _, hpre⟩)
    · exact hf.elim
    · exact le_trans hpre.length_le (le_hierarchyDepth data.Nodes n hn)
  obtain ⟨trs, USS, hall, hids, hmaps, hUSS, hmems, hoks⟩ :=
    forest_spec (data.Nodes.map Node.ID) _ [] (toTree (addLinks data.Links st.nodesMap)
      (hierarchyDepth data.Nodes)) st.rootChildren hlinks.root_children.1
      (fun s hs => toTree_spec hlinks _ hN _ [s] ((hlinks.root_children.2 s).1 hs) (by simp))
  have hrc : st.rootChildren.map (fun s => joinPath ([] ++ [s])) = st.rootChildren := by
    simp [joinPath]
  rw [hrc] at hall hids
  refine ⟨HierarchyNode.mk [] "root".toList none none trs none none, USS, ?_, ?_, hUSS, ?_, ?_, ?_⟩
  · simp only [createHierarchy, hbuild, hall]
  · simpa [HierarchyNode.descendants] using hmaps
  · intro u
    rw [hmems]
    constructor
    · rintro ⟨hf | hu, _⟩
      · exact hf.elim
      · exact hu
    · intro hu
      refine ⟨Or.inr hu, ?_⟩
      obtain ⟨n, hn, hne, hpre⟩ := hu
      cases u with
      | nil => exact absurd rfl hne
      | cons s w =>
        have hpre' : [s] <+: s :: w := ⟨w, rfl⟩
        have hTs := hlinks.prefix_closed _ (Or.inr ⟨n, hn, hne, hpre⟩) [s] (by simp) hpre'
        exact ⟨s, (hlinks.root_children.2 s).2 hTs, hpre'⟩
  · simp only [HierarchyNode.children, hids]
    exact hlinks.root_children.1
  · simpa [HierarchyNode.descendants] using hoks

/-! ## The hierarchy projection: the claims -/

/-- C9: for a graph whose node IDs are pairwise distinct and have no empty part,
`createHierarchy` returns a tree that has, below the root, exactly one node for each
non-empty path prefix (at part boundaries) of a node ID and no other node; no node of
the tree, the root included, has two children with the same id. -/
theorem createHierarchy_one_node_per_prefix (data : Graph)
    (_hdistinct : (data.Nodes.map Node.ID).Nodup)
    (hseg : ∀ n ∈ data.Nodes, ∀ part ∈ split '/' n.ID, part ≠ []) :
    ∃ root, createHierarchy data = some root
      ∧ (root.descendants.map HierarchyNode.id).Nodup
      ∧ (∀ p, p ∈ root.descendants.map HierarchyNode.id
          ↔ ∃ n ∈ data.Nodes, p ∈ pathPrefixes n.ID)
      ∧ ∀ h ∈ root :: root.descendants, (h.children.map HierarchyNode.id).Nodup := by
  obtain ⟨root, USS, hroot, hmap, hUSS, hmem, hrc, hok⟩ := createHierarchy_spec data hseg
  have hgood : ∀ u ∈ USS, GoodPath u := by
    intro u hu
    obtain ⟨n, hn, _, hpre⟩ := (hmem u).1 hu
    exact (goodPath_split _ (hseg n hn)).mono hpre
  refine ⟨root, hroot, ?_, ?_, ?_⟩
  · rw [hmap]
    exact List.Nodup.map_on
      (fun x hx y hy hxy => joinPath_injective x y (hgood x hx) (hgood y hy) hxy) hUSS
  · intro p
    rw [hmap, List.mem_map]
    constructor
    · rintro ⟨u, hu, rfl⟩
      obtain ⟨n, hn, hne, hpre⟩ := (hmem u).1 hu
      exact ⟨n, hn, (mem_pathPrefixes _ _).2 ⟨u, hne, hpre, rfl⟩⟩
    · rintro ⟨n, hn, hp⟩
      obtain ⟨u, hne, hpre, rfl⟩ := (mem_pathPrefixes _ _).1 hp
      exact ⟨u, (hmem u).2 ⟨n, hn, hne, hpre⟩, rfl⟩
  · intro h hh
    rcases List.mem_cons.1 hh with rfl | hh
    · exact hrc
    · exact (hok h hh).1

/-- Witness for C9: three packages that share the prefixes `example.com` and
`example.com/a`. -/
theorem createHierarchy_one_node_per_prefix_witness :
    (scenarioGraph.Nodes.map Node.ID).Nodup
    ∧ (∀ n ∈ scenarioGraph.Nodes, ∀ part ∈ split '/' n.ID, part ≠ [])
    ∧ ∃ root, createHierarchy scenarioGraph = some root
      ∧ (root.descendants.map HierarchyNode.id).Nodup
      ∧ (∀ p, p ∈ root.descendants.map HierarchyNode.id
          ↔ ∃ n ∈ scenarioGraph.Nodes, p ∈ pathPrefixes n.ID)
      ∧ ∀ h ∈ root :: root.descendants, (h.children.map HierarchyNode.id).Nodup :=
  ⟨by decide, by decide,
    createHierarchy_one_node_per_prefix scenarioGraph (by decide) (by decide)⟩

/-- C10: for a graph whose node IDs are pairwise distinct and have no empty part, a node
below the root of the tree returned by `createHierarchy` has `isPackage = true` exactly
when its id is the ID of a node of the graph, and `isPackage = false` otherwise. In
`scenarioGraph` the package `example.com/a/x` is first reached as an intermediate part of
`example.com/a/x/deep` and is a package all the same. -/
theorem createHierarchy_isPackage_iff_node (data : Graph)
    (_hdistinct : (data.Nodes.map Node.ID).Nodup)
    (hseg : ∀ n ∈ data.Nodes, ∀ part ∈ split '/' n.ID, part ≠ []) :
    (∃ root, createHierarchy data = some root
      ∧ ∀ h ∈ root.descendants,
          (h.isPackage = some true ↔ ∃ n ∈ data.Nodes, n.ID = h.id)
          ∧ (h.isPackage = some false ↔ ¬ ∃ n ∈ data.Nodes, n.ID = h.id))
    ∧ (createHierarchy scenarioGraph).map
        (fun root => root.descendants.map (fun h => (h.id, h.isPackage)))
      = some [("example.com".toList, some false), ("example.com/a".toList, some false),
          ("example.com/a/x".toList, some true), ("example.com/a/x/deep".toList, some true),
          ("example.com/a/y".toList, some true)] := by
  refine ⟨?_, by decide⟩
  obtain ⟨root, USS, hroot, _, _, _, _, hok⟩ := createHierarchy_spec data hseg
  refine ⟨root, hroot, fun h hh => ?_⟩
  have hpkg := (hok h hh).2
  have hiff : h.id ∈ data.Nodes.map Node.ID ↔ ∃ n ∈ data.Nodes, n.ID = h.id := by
    simp [List.mem_map]
  rw [hpkg, ← hiff]
  by_cases hmem : h.id ∈ data.Nodes.map Node.ID <;> simp [hmem]

/-- Witness for C10, at `scenarioGraph`. -/
theorem createHierarchy_isPackage_iff_node_witness :
    (scenarioGraph.Nodes.map Node.ID).Nodup
    ∧ (∀ n ∈ scenarioGraph.Nodes, ∀ part ∈ split '/' n.ID, part ≠ [])
    ∧ ∃ root, createHierarchy scenarioGraph = some root
      ∧ ∀ h ∈ root.descendants,
          (h.isPackage = some true ↔ ∃ n ∈ scenarioGraph.Nodes, n.ID = h.id)
          ∧ (h.isPackage = some false ↔ ¬ ∃ n ∈ scenarioGraph.Nodes, n.ID = h.id) :=
  ⟨by decide, by decide,
    (createHierarchy_isPackage_iff_node scenarioGraph (by decide) (by decide)).1⟩

/-! ## The interactive view: lemmas -/

theorem findNode_some {allNodes : List HierarchyNode} {id : Str} {t : HierarchyNode}
    (h : findNode allNodes id = some t) : t ∈ allNodes ∧ t.id = id := by
  unfold findNode at h
  exact ⟨List.mem_of_find?_eq_some h, by simpa using List.find?_some h⟩

theorem mem_foldl_mapSet (l set : List Str) (x : Str) :
    x ∈ l.foldl mapSet set ↔ x ∈ set ∨ x ∈ l := by
  induction l generalizing set with
  | nil => simp
  | cons a l ih =>
    rw [List.foldl_cons, ih, mem_mapSet, List.mem_cons]
    tauto

theorem mem_addAll (set : List Str) (list : Option (List Str)) (x : Str) :
    x ∈ addAll set list ↔ x ∈ set ∨ x ∈ list.getD [] := by
  unfold addAll
  exact mem_foldl_mapSet _ _ _

theorem mem_foldl_addAll (allNodes : List HierarchyNode) (field : HierarchyNode → Option (List Str))
    (ids acc : List Str) (x : Str) :
    x ∈ ids.foldl
        (fun acc nodeId =>
          match findNode allNodes nodeId with
          | none => acc
          | some selectedNode => addAll acc (field selectedNode))
        acc
      ↔ x ∈ acc ∨ ∃ sid ∈ ids, ∃ s, findNode allNodes sid = some s ∧ x ∈ (field s).getD [] := by
  induction ids generalizing acc with
  | nil => simp
  | cons a ids ih =>
    rw [List.foldl_cons, ih]
    simp only [List.mem_cons, exists_eq_or_imp]
    cases hfind : findNode allNodes a with
    | none => simp
    | some s =>
      simp only [mem_addAll, Option.some.injEq, exists_eq_left']
      tauto

theorem mem_allImports (allNodes : List HierarchyNode) (ids : List Str) (x : Str) :
    x ∈ allImports allNodes ids
      ↔ ∃ sid ∈ ids, ∃ s, findNode allNodes sid = some s ∧ x ∈ s.imports.getD [] := by
  unfold allImports
  rw [mem_foldl_addAll allNodes HierarchyNode.imports]
  simp

theorem mem_allImportedBy (allNodes : List HierarchyNode) (ids : List Str) (x : Str) :
    x ∈ allImportedBy allNodes ids
      ↔ ∃ sid ∈ ids, ∃ s, findNode allNodes sid = some s ∧ x ∈ s.importedBy.getD [] := by
  unfold allImportedBy
  rw [mem_foldl_addAll allNodes HierarchyNode.importedBy]
  simp

theorem length_ne_zero_of_ne_nil {l : List Str} (h : l ≠ []) : ¬ l.length = 0 :=
  fun h0 => h (List.length_eq_zero.1 h0)

theorem mem_allLinksOf (allNodes : List HierarchyNode) (v : ViewState) (s : HierarchyNode)
    (l : DrawnLink) :
    l ∈ allLinksOf allNodes v s ↔
      ∃ t, findNode allNodes l.target = some t ∧ l.target ∈ s.imports.getD []
        ∧ l.source = s.id ∧ l.style = LinkStyle.all
        ∧ l.opacityTenths = (if v.showOutgoing then 4 else 0)
        ∧ ¬ (v.showCrossModuleOnly = true ∧ getModulePath s = getModulePath t) := by
  unfold allLinksOf
  cases himp : s.imports with
  | none => simp
  | some imports =>
    simp only [List.mem_filterMap, Option.getD_some]
    constructor
    · rintro ⟨tid, htid, hl⟩
      cases hfind : findNode allNodes tid with
      | none => simp [hfind] at hl
      | some t =>
        simp only [hfind] at hl
        have hid := (findNode_some hfind).2
        by_cases hcross : (v.showCrossModuleOnly && !isCrossModuleDependency s t) = true
        · simp [hcross] at hl
        · rw [if_neg hcross, Option.some.injEq] at hl
          subst hl
          refine ⟨t, by simpa [hid] using hfind, by simpa [hid] using htid, rfl, rfl, rfl, ?_⟩
          simpa [isCrossModuleDependency] using hcross
    · rintro ⟨t, hfind, hmem, hsrc, hstyle, hop, hcross⟩
      refine ⟨l.target, hmem, ?_⟩
      simp only [hfind]
      rw [if_neg (by simpa [isCrossModuleDependency] using hcross)]
      have hid := (findNode_some hfind).2
      cases l
      simp_all

theorem mem_outgoingLinksOf (allNodes : List HierarchyNode) (v : ViewState) (sid : Str)
    (l : DrawnLink) :
    l ∈ outgoingLinksOf allNodes v sid ↔
      v.showOutgoing = true ∧ ∃ s t, findNode allNodes sid = some s
        ∧ findNode allNodes l.target = some t ∧ l.target ∈ s.imports.getD []
        ∧ l.source = sid ∧ l.style = LinkStyle.outgoing ∧ l.opacityTenths = 4
        ∧ ¬ (v.showCrossModuleOnly = true ∧ getModulePath s = getModulePath t) := by
  unfold outgoingLinksOf
  cases hsel : findNode allNodes sid with
  | none => simp
  | some s =>
    have hsid := (findNode_some hsel).2
    by_cases hout : v.showOutgoing = true
    · simp only [hout, if_true, true_and]
      cases himp : s.imports with
      | none =>
        simp only [List.not_mem_nil, false_iff]
        rintro ⟨s', t, hs', _, hmem, _⟩
        cases hs'
        simp [himp] at hmem
      | some imports =>
        simp only [List.mem_filterMap]
        constructor
        · rintro ⟨tid, htid, hl⟩
          cases hfind : findNode allNodes tid with
          | none => simp [hfind] at hl
          | some t =>
            simp only [hfind] at hl
            have hid := (findNode_some hfind).2
            by_cases hcross : (v.showCrossModuleOnly && !isCrossModuleDependency s t) = true
            · simp [hcross] at hl
            · rw [if_neg hcross, Option.some.injEq] at hl
              subst hl
              refine ⟨s, t, rfl, by simpa [hid] using hfind, by simpa [hid, himp] using htid,
                hsid, rfl, rfl, ?_⟩
              simpa [isCrossModuleDependency] using hcross
        · rintro ⟨s', t, hs', hfind, hmem, hsrc, hstyle, hop, hcross⟩
          cases hs'
          refine ⟨l.target, by simpa [himp] using hmem, ?_⟩
          simp only [hfind]
          rw [if_neg (by simpa [isCrossModuleDependency] using hcross)]
          have hid := (findNode_some hfind).2
          cases l
          simp_all
    · simp [hout]

theorem mem_incomingLinksOf (allNodes : List HierarchyNode) (v : ViewState) (sid : Str)
    (l : DrawnLink) :
    l ∈ incomingLinksOf allNodes v sid ↔
      v.showIncoming = true ∧ ∃ s u, findNode allNodes sid = some s
        ∧ findNode allNodes l.source = some u ∧ l.source ∈ s.importedBy.getD []
        ∧ l.target = sid ∧ l.style = LinkStyle.incoming ∧ l.opacityTenths = 4
        ∧ ¬ (v.showCrossModuleOnly = true ∧ getModulePath u = getModulePath s) := by
  unfold incomingLinksOf
  cases hsel : findNode allNodes sid with
  | none => simp
  | some s =>
    have hsid := (findNode_some hsel).2
    by_cases hinc : v.showIncoming = true
    · simp only [hinc, if_true, true_and]
      cases himp : s.importedBy with
      | none =>
        simp only [List.not_mem_nil, false_iff]
        rintro ⟨s', u, hs', _, hmem, _⟩
        cases hs'
        simp [himp] at hmem
      | some importedBy =>
        simp only [List.mem_filterMap]
        constructor
        · rintro ⟨uid, huid, hl⟩
          cases hfind : findNode allNodes uid with
          | none => simp [hfind] at hl
          | some u =>
            simp only [hfind] at hl
            have hid := (findNode_some hfind).2
            by_cases hcross : (v.showCrossModuleOnly && !isCrossModuleDependency u s) = true
            · simp [hcross] at hl
            · rw [if_neg hcross, Option.some.injEq] at hl
              subst hl
              refine ⟨s, u, rfl, by simpa [hid] using hfind, by simpa [hid, himp] using huid,
                hsid, rfl, rfl, ?_⟩
              simpa [isCrossModuleDependency] using hcross
        · rintro ⟨s', u, hs', hfind, hmem, htgt, hstyle, hop, hcross⟩
          cases hs'
          refine ⟨l.source, by simpa [himp] using hmem, ?_⟩
          simp only [hfind]
          rw [if_neg (by simpa [isCrossModuleDependency] using hcross)]
          have hid := (findNode_some hfind).2
          cases l
          simp_all
    · simp [hinc]

theorem mem_backgroundLinksOf (allNodes : List HierarchyNode) (v : ViewState)
    (s : HierarchyNode) (l : DrawnLink) :
    l ∈ backgroundLinksOf allNodes v s ↔
      s.id ∉ v.selectedNodeIds ∧ ∃ t, findNode allNodes l.target = some t
        ∧ l.target ∈ s.imports.getD [] ∧ l.source = s.id ∧ l.style = LinkStyle.background
        ∧ l.opacityTenths = 1 := by
  unfold backgroundLinksOf
  by_cases hsel : s.id ∈ v.selectedNodeIds
  · simp [hsel]
  · simp only [hsel, if_false, not_false_eq_true, true_and]
    cases himp : s.imports with
    | none => simp
    | some imports =>
      simp only [List.mem_filterMap, Option.getD_some]
      constructor
      · rintro ⟨tid, htid, hl⟩
        cases hfind : findNode allNodes tid with
        | none => simp [hfind] at hl
        | some t =>
          simp only [hfind, Option.some.injEq] at hl
          have hid := (findNode_some hfind).2
          subst hl
          exact ⟨t, by simpa [hid] using hfind, by simpa [hid] using htid, rfl, rfl, rfl⟩
      · rintro ⟨t, hfind, hmem, hsrc, hstyle, hop⟩
        refine ⟨l.target, hmem, ?_⟩
        simp only [hfind]
        have hid := (findNode_some hfind).2
        cases l
        simp_all

/-- Every path carries the class `dependency-link`, so the two calls of `remove` empty
both groups. -/
theorem removeDependencyLinks_eq (drawn : LinkGroups) :
    removeDependencyLinks drawn = { dependencyLinks := [], incomingLinks := [] } := by
  have h : ∀ paths : List DrawnLink, removeByClass "dependency-link".toList paths = [] := by
    intro paths
    unfold removeByClass
    rw [List.filter_eq_nil_iff]
    intro l _
    simp [DrawnLink.classList]
  unfold removeDependencyLinks
  rw [h, h]

theorem mem_paths_no_selection (allNodes : List HierarchyNode) (v : ViewState)
    (drawn : LinkGroups) (hsel : v.selectedNodeIds = []) (l : DrawnLink) :
    l ∈ (updateDependencyVisibility allNodes v drawn).paths
      ↔ ∃ s ∈ allNodes, l ∈ allLinksOf allNodes v s := by
  simp [updateDependencyVisibility, removeDependencyLinks_eq, LinkGroups.paths, hsel,
    List.mem_flatMap]

theorem mem_paths_selection (allNodes : List HierarchyNode) (v : ViewState)
    (drawn : LinkGroups) (hsel : v.selectedNodeIds ≠ []) (l : DrawnLink) :
    l ∈ (updateDependencyVisibility allNodes v drawn).paths
      ↔ (∃ sid ∈ v.selectedNodeIds, l ∈ outgoingLinksOf allNodes v sid)
        ∨ (∃ s ∈ allNodes, l ∈ backgroundLinksOf allNodes v s)
        ∨ (∃ sid ∈ v.selectedNodeIds, l ∈ incomingLinksOf allNodes v sid) := by
  simp [updateDependencyVisibility, removeDependencyLinks_eq, LinkGroups.paths, hsel,
    List.mem_flatMap, or_assoc]

/-- The paths of style `outgoing` and of style `incoming` under a non-empty selection. -/
theorem selection_paths_split (allNodes : List HierarchyNode) (v : ViewState)
    (drawn : LinkGroups) (hsel : v.selectedNodeIds ≠ []) (l : DrawnLink) :
    ((l ∈ (updateDependencyVisibility allNodes v drawn).paths
          ∧ l.style = LinkStyle.outgoing) →
        v.showOutgoing = true ∧ ∃ sid ∈ v.selectedNodeIds, ∃ s t,
          findNode allNodes sid = some s ∧ findNode allNodes l.target = some t
          ∧ l.target ∈ s.imports.getD [] ∧ l.source = sid ∧ l.style = LinkStyle.outgoing
          ∧ l.opacityTenths = 4
          ∧ ¬ (v.showCrossModuleOnly = true ∧ getModulePath s = getModulePath t))
    ∧ ((l ∈ (updateDependencyVisibility allNodes v drawn).paths
          ∧ l.style = LinkStyle.incoming) →
        v.showIncoming = true ∧ ∃ sid ∈ v.selectedNodeIds, ∃ s u,
          findNode allNodes sid = some s ∧ findNode allNodes l.source = some u
          ∧ l.source ∈ s.importedBy.getD [] ∧ l.target = sid ∧ l.style = LinkStyle.incoming
          ∧ l.opacityTenths = 4
          ∧ ¬ (v.showCrossModuleOnly = true ∧ getModulePath u = getModulePath s)) := by
  rw [mem_paths_selection allNodes v drawn hsel]
  simp only [mem_outgoingLinksOf, mem_backgroundLinksOf, mem_incomingLinksOf]
  constructor
  · rintro ⟨h | h | h, hstyle⟩
    · obtain ⟨sid, hsid, hout, rest⟩ := h
      exact ⟨hout, sid, hsid, rest⟩
    · obtain ⟨_, _, _, _, _, _, _, hs, _⟩ := h
      rw [hs] at hstyle; cases hstyle
    · obtain ⟨_, _, _, _, _, _, _, _, _, hs, _⟩ := h
      rw [hs] at hstyle; cases hstyle
  · rintro ⟨h | h | h, hstyle⟩
    · obtain ⟨_, _, _, _, _, _, _, _, _, hs, _⟩ := h
      rw [hs] at hstyle; cases hstyle
    · obtain ⟨_, _, _, _, _, _, _, hs, _⟩ := h
      rw [hs] at hstyle; cases hstyle
    · obtain ⟨sid, hsid, hinc, rest⟩ := h
      exact ⟨hinc, sid, hsid, rest⟩

/-! ## The interactive view: the claims -/

/-- C15: a click without the shift key leaves the selection equal to `{n}` whether or not
`n` was selected; a click with the shift key removes `n` from the selection if it was in
it and adds it otherwise; the selection stays free of repeats and the three filter flags
are unchanged by any click. -/
theorem handleNodeClick_selection (allNodes : List HierarchyNode) (p : Page) (n : Str) :
    (handleNodeClick allNodes false n p).view.selectedNodeIds = [n]
    ∧ (n ∈ p.view.selectedNodeIds →
        ∀ x, x ∈ (handleNodeClick allNodes true n p).view.selectedNodeIds
          ↔ x ∈ p.view.selectedNodeIds ∧ x ≠ n)
    ∧ (n ∉ p.view.selectedNodeIds →
        ∀ x, x ∈ (handleNodeClick allNodes true n p).view.selectedNodeIds
          ↔ x ∈ p.view.selectedNodeIds ∨ x = n)
    ∧ (p.view.selectedNodeIds.Nodup →
        (handleNodeClick allNodes true n p).view.selectedNodeIds.Nodup)
    ∧ ∀ shiftKey,
        (handleNodeClick allNodes shiftKey n p).view.showOutgoing = p.view.showOutgoing
        ∧ (handleNodeClick allNodes shiftKey n p).view.showIncoming = p.view.showIncoming
        ∧ (handleNodeClick allNodes shiftKey n p).view.showCrossModuleOnly
            = p.view.showCrossModuleOnly := by
  refine ⟨by simp [handleNodeClick, mapSet], ?_, ?_, ?_, fun shiftKey => ⟨rfl, rfl, rfl⟩⟩
  · intro hn x
    simp [handleNodeClick, hn, setDelete]
  · intro hn x
    simp [handleNodeClick, hn, mem_mapSet]
  · intro hnd
    by_cases hn : n ∈ p.view.selectedNodeIds
    · simp only [handleNodeClick, hn, setDelete, Bool.not_true, Bool.false_eq_true, if_false,
        if_true]
      exact hnd.filter _
    · simp only [handleNodeClick, hn, mapSet, Bool.not_true, Bool.false_eq_true, if_false]
      exact List.Nodup.append hnd (List.nodup_singleton n) (by simpa using hn)

/-- C16: when nothing is selected no node has a highlight class, and the dependency paths
are exactly the pairs of a node `s` and a node `t` whose id is in `s.imports`, all with
style `all`, the pairs within one module being left out when `showCrossModuleOnly` is
set; their opacity is 0.4 when `showOutgoing` is set and 0 otherwise. -/
theorem no_selection_draws_all_links (allNodes : List HierarchyNode) (v : ViewState)
    (drawn : LinkGroups) (hsel : v.selectedNodeIds = []) :
    (∀ d, nodeClasses allNodes v d = { selected := false, importing := false, imported := false })
    ∧ (∀ l, l ∈ (updateDependencyVisibility allNodes v drawn).paths ↔
        ∃ s ∈ allNodes, ∃ t, findNode allNodes l.target = some t
          ∧ l.target ∈ s.imports.getD [] ∧ l.source = s.id ∧ l.style = LinkStyle.all
          ∧ l.opacityTenths = (if v.showOutgoing then 4 else 0)
          ∧ ¬ (v.showCrossModuleOnly = true ∧ getModulePath s = getModulePath t))
    ∧ (∀ l ∈ (updateDependencyVisibility allNodes v drawn).paths,
        l.style ≠ LinkStyle.outgoing ∧ l.style ≠ LinkStyle.incoming
        ∧ l.style ≠ LinkStyle.background) := by
  have hmem : ∀ l, l ∈ (updateDependencyVisibility allNodes v drawn).paths ↔
      ∃ s ∈ allNodes, ∃ t, findNode allNodes l.target = some t
        ∧ l.target ∈ s.imports.getD [] ∧ l.source = s.id ∧ l.style = LinkStyle.all
        ∧ l.opacityTenths = (if v.showOutgoing then 4 else 0)
        ∧ ¬ (v.showCrossModuleOnly = true ∧ getModulePath s = getModulePath t) := by
    intro l
    rw [mem_paths_no_selection allNodes v drawn hsel]
    simp only [mem_allLinksOf]
  refine ⟨fun d => by simp [nodeClasses, hsel], hmem, ?_⟩
  intro l hl
  obtain ⟨_, _, _, _, _, _, hstyle, _⟩ := (hmem l).1 hl
  simp [hstyle]

/-- Witness for C16: the page as loaded, on the hierarchy of `scenarioGraph`. -/
theorem no_selection_draws_all_links_witness :
    viewInitial.selectedNodeIds = []
    ∧ ((∀ d, nodeClasses scenarioNodes viewInitial d
          = { selected := false, importing := false, imported := false })
      ∧ (∀ l, l ∈ (updateDependencyVisibility scenarioNodes viewInitial ⟨[], []⟩).paths ↔
          ∃ s ∈ scenarioNodes, ∃ t, findNode scenarioNodes l.target = some t
            ∧ l.target ∈ s.imports.getD [] ∧ l.source = s.id ∧ l.style = LinkStyle.all
            ∧ l.opacityTenths = (if viewInitial.showOutgoing then 4 else 0)
            ∧ ¬ (viewInitial.showCrossModuleOnly = true
                  ∧ getModulePath s = getModulePath t))
      ∧ (∀ l ∈ (updateDependencyVisibility scenarioNodes viewInitial ⟨[], []⟩).paths,
          l.style ≠ LinkStyle.outgoing ∧ l.style ≠ LinkStyle.incoming
          ∧ l.style ≠ LinkStyle.background)) :=
  ⟨rfl, no_selection_draws_all_links scenarioNodes viewInitial ⟨[], []⟩ rfl⟩

/-- C17: with a non-empty selection the paths of style `outgoing` are exactly the pairs
of a selected node `s` and a node `t` whose id is in `s.imports`, if `showOutgoing` is set
(none otherwise), and the paths of style `incoming` are exactly the pairs of a node `u`
whose id is in `s.importedBy` and a selected node `s`, if `showIncoming` is set (none
otherwise); in both cases the pairs within one module are left out when
`showCrossModuleOnly` is set. Selecting `example.com/a/x` with `showOutgoing` set and
`showIncoming` not set draws the outgoing path to `example.com/a/y` and no incoming one. -/
theorem selection_draws_outgoing_and_incoming (allNodes : List HierarchyNode) (v : ViewState)
    (drawn : LinkGroups) (hsel : v.selectedNodeIds ≠ []) :
    (∀ l, (l ∈ (updateDependencyVisibility allNodes v drawn).paths
            ∧ l.style = LinkStyle.outgoing) ↔
        v.showOutgoing = true ∧ ∃ sid ∈ v.selectedNodeIds, ∃ s t,
          findNode allNodes sid = some s ∧ findNode allNodes l.target = some t
          ∧ l.target ∈ s.imports.getD [] ∧ l.source = sid ∧ l.style = LinkStyle.outgoing
          ∧ l.opacityTenths = 4
          ∧ ¬ (v.showCrossModuleOnly = true ∧ getModulePath s = getModulePath t))
    ∧ (∀ l, (l ∈ (updateDependencyVisibility allNodes v drawn).paths
            ∧ l.style = LinkStyle.incoming) ↔
        v.showIncoming = true ∧ ∃ sid ∈ v.selectedNodeIds, ∃ s u,
          findNode allNodes sid = some s ∧ findNode allNodes l.source = some u
          ∧ l.source ∈ s.importedBy.getD [] ∧ l.target = sid ∧ l.style = LinkStyle.incoming
          ∧ l.opacityTenths = 4
          ∧ ¬ (v.showCrossModuleOnly = true ∧ getModulePath u = getModulePath s))
    ∧ (updateDependencyVisibility scenarioNodes viewX ⟨[], []⟩).paths
        = [{ style := LinkStyle.outgoing, source := "example.com/a/x".toList,
             target := "example.com/a/y".toList, opacityTenths := 4 }] := by
  refine ⟨fun l => ⟨(selection_paths_split allNodes v drawn hsel l).1, ?_⟩,
    fun l => ⟨(selection_paths_split allNodes v drawn hsel l).2, ?_⟩, by decide⟩
  · rintro ⟨hout, sid, hsid, s, t, h1, h2, h3, h4, h5, h6⟩
    rw [mem_paths_selection allNodes v drawn hsel]
    exact ⟨Or.inl ⟨sid, hsid, (mem_outgoingLinksOf _ _ _ _).2
      ⟨hout, s, t, h1, h2, h3, h4, h5, h6⟩⟩, h5⟩
  · rintro ⟨hinc, sid, hsid, s, u, h1, h2, h3, h4, h5, h6⟩
    rw [mem_paths_selection allNodes v drawn hsel]
    exact ⟨Or.inr (Or.inr ⟨sid, hsid, (mem_incomingLinksOf _ _ _ _).2
      ⟨hinc, s, u, h1, h2, h3, h4, h5, h6⟩⟩), h5⟩

/-- Witness for C17: `example.com/a/y` selected on the hierarchy of `scenarioGraph`. -/
theorem selection_draws_outgoing_and_incoming_witness :
    viewY.selectedNodeIds ≠ []
    ∧ ∀ l, (l ∈ (updateDependencyVisibility scenarioNodes viewY ⟨[], []⟩).paths
            ∧ l.style = LinkStyle.incoming) ↔
        viewY.showIncoming = true ∧ ∃ sid ∈ viewY.selectedNodeIds, ∃ s u,
          findNode scenarioNodes sid = some s ∧ findNode scenarioNodes l.source = some u
          ∧ l.source ∈ s.importedBy.getD [] ∧ l.target = sid ∧ l.style = LinkStyle.incoming
          ∧ l.opacityTenths = 4
          ∧ ¬ (viewY.showCrossModuleOnly = true ∧ getModulePath u = getModulePath s) :=
  ⟨by decide,
    (selection_draws_outgoing_and_incoming scenarioNodes viewY ⟨[], []⟩ (by decide)).2.1⟩

theorem filter_background_outgoing (allNodes : List HierarchyNode) (v : ViewState)
    (ids : List Str) :
    (ids.flatMap (outgoingLinksOf allNodes v)).filter
      (fun l => l.style = LinkStyle.background) = [] := by
  rw [List.filter_eq_nil_iff]
  intro l hl
  obtain ⟨sid, _, hmem⟩ := List.mem_flatMap.1 hl
  obtain ⟨_, _, _, _, _, _, _, hs, _⟩ := (mem_outgoingLinksOf _ _ _ _).1 hmem
  simp [hs]

theorem filter_background_incoming (allNodes : List HierarchyNode) (v : ViewState)
    (ids : List Str) :
    (ids.flatMap (incomingLinksOf allNodes v)).filter
      (fun l => l.style = LinkStyle.background) = [] := by
  rw [List.filter_eq_nil_iff]
  intro l hl
  obtain ⟨sid, _, hmem⟩ := List.mem_flatMap.1 hl
  obtain ⟨_, _, _, _, _, _, _, hs, _⟩ := (mem_incomingLinksOf _ _ _ _).1 hmem
  simp [hs]

theorem filter_background_background (allNodes : List HierarchyNode) (v : ViewState)
    (nodes : List HierarchyNode) :
    (nodes.flatMap (backgroundLinksOf allNodes v)).filter
      (fun l => l.style = LinkStyle.background)
      = nodes.flatMap (backgroundLinksOf allNodes v) := by
  rw [List.filter_eq_self]
  intro l hl
  obtain ⟨s, _, hmem⟩ := List.mem_flatMap.1 hl
  obtain ⟨_, _, _, _, _, hs, _⟩ := (mem_backgroundLinksOf _ _ _ _).1 hmem
  simp [hs]

theorem background_paths_eq (allNodes : List HierarchyNode) (v : ViewState)
    (drawn : LinkGroups) (hsel : v.selectedNodeIds ≠ []) :
    (updateDependencyVisibility allNodes v drawn).paths.filter
        (fun l => l.style = LinkStyle.background)
      = allNodes.flatMap (backgroundLinksOf allNodes v) := by
  have hlen := length_ne_zero_of_ne_nil hsel
  simp only [updateDependencyVisibility, removeDependencyLinks_eq, LinkGroups.paths, hlen,
    if_false, List.nil_append, List.filter_append, filter_background_outgoing,
    filter_background_incoming, filter_background_background, List.append_nil]

theorem backgroundLinksOf_crossModule (allNodes : List HierarchyNode) (v : ViewState)
    (b : Bool) (s : HierarchyNode) :
    backgroundLinksOf allNodes { v with showCrossModuleOnly := b } s
      = backgroundLinksOf allNodes v s := rfl

/-- C18, as stated, fails: with `example.com/a/y` selected, the path from the unselected
`example.com/a/x` to the selected `example.com/a/y` is drawn with style `background`. -/
theorem background_touches_selected_counterexample :
    ¬ (∀ l ∈ (updateDependencyVisibility scenarioNodes viewY ⟨[], []⟩).paths,
        l.style = LinkStyle.background →
          l.source ∉ viewY.selectedNodeIds ∧ l.target ∉ viewY.selectedNodeIds) := by
  decide

/-- C18, amended: with a non-empty selection the paths of style `background` are exactly
the pairs of a node `s` that is not selected and a node `t` whose id is in `s.imports`
(`t` may be selected), and they are the same whether `showCrossModuleOnly` is set or
not. -/
theorem background_links_of_unselected_sources (allNodes : List HierarchyNode)
    (v : ViewState) (drawn : LinkGroups) (hsel : v.selectedNodeIds ≠ []) :
    (∀ l, (l ∈ (updateDependencyVisibility allNodes v drawn).paths
            ∧ l.style = LinkStyle.background) ↔
        ∃ s ∈ allNodes, s.id ∉ v.selectedNodeIds ∧ ∃ t, findNode allNodes l.target = some t
          ∧ l.target ∈ s.imports.getD [] ∧ l.source = s.id
          ∧ l.style = LinkStyle.background ∧ l.opacityTenths = 1)
    ∧ ∀ b, (updateDependencyVisibility allNodes { v with showCrossModuleOnly := b }
              drawn).paths.filter (fun l => l.style = LinkStyle.background)
          = (updateDependencyVisibility allNodes v drawn).paths.filter
              (fun l => l.style = LinkStyle.background) := by
  refine ⟨fun l => ?_, fun b => ?_⟩
  · have h := background_paths_eq allNodes v drawn hsel
    have hiff : (l ∈ (updateDependencyVisibility allNodes v drawn).paths
        ∧ l.style = LinkStyle.background)
        ↔ l ∈ (updateDependencyVisibility allNodes v drawn).paths.filter
            (fun l => l.style = LinkStyle.background) := by
      simp [List.mem_filter]
    rw [hiff, h, List.mem_flatMap]
    simp only [mem_backgroundLinksOf]
  · rw [background_paths_eq allNodes v drawn hsel,
      background_paths_eq allNodes { v with showCrossModuleOnly := b } drawn hsel]
    rfl

/-- Witness for C18 (amended): `example.com/a/y` selected on the hierarchy of
`scenarioGraph`. -/
theorem background_links_of_unselected_sources_witness :
    viewY.selectedNodeIds ≠ []
    ∧ ∀ b, (updateDependencyVisibility scenarioNodes { viewY with showCrossModuleOnly := b }
              ⟨[], []⟩).paths.filter (fun l => l.style = LinkStyle.background)
          = (updateDependencyVisibility scenarioNodes viewY ⟨[], []⟩).paths.filter
              (fun l => l.style = LinkStyle.background) :=
  ⟨by decide,
    (background_links_of_unselected_sources scenarioNodes viewY ⟨[], []⟩ (by decide)).2⟩

/-- C19: with a non-empty selection `S` a node is classed `importing` exactly when it is
not in `S` and its id is in the `imports` of a node of `S`, and `imported` exactly when it
is not in `S` and its id is in the `importedBy` of a node of `S`. So a node that is
`importing` for the selection `{b}` is in the `imports` of `b`, and the far end of every
path of style `outgoing` (of style `incoming`), if not selected, is classed `importing`
(`imported`). -/
theorem highlight_classes_of_selection (allNodes : List HierarchyNode) (v : ViewState)
    (drawn : LinkGroups) (hsel : v.selectedNodeIds ≠ []) :
    (∀ d, (nodeClasses allNodes v d).importing = true ↔
        d.id ∉ v.selectedNodeIds ∧ ∃ sid ∈ v.selectedNodeIds, ∃ s,
          findNode allNodes sid = some s ∧ d.id ∈ s.imports.getD [])
    ∧ (∀ d, (nodeClasses allNodes v d).imported = true ↔
        d.id ∉ v.selectedNodeIds ∧ ∃ sid ∈ v.selectedNodeIds, ∃ s,
          findNode allNodes sid = some s ∧ d.id ∈ s.importedBy.getD [])
    ∧ (∀ b d, v.selectedNodeIds = [b] → (nodeClasses allNodes v d).importing = true →
        ∃ s, findNode allNodes b = some s ∧ d.id ∈ s.imports.getD [])
    ∧ (∀ l ∈ (updateDependencyVisibility allNodes v drawn).paths,
        l.style = LinkStyle.outgoing → ∀ d, d.id = l.target → d.id ∉ v.selectedNodeIds →
          (nodeClasses allNodes v d).importing = true)
    ∧ (∀ l ∈ (updateDependencyVisibility allNodes v drawn).paths,
        l.style = LinkStyle.incoming → ∀ d, d.id = l.source → d.id ∉ v.selectedNodeIds →
          (nodeClasses allNodes v d).imported = true) := by
  have hlen := length_ne_zero_of_ne_nil hsel
  have himporting : ∀ d, (nodeClasses allNodes v d).importing = true ↔
      d.id ∉ v.selectedNodeIds ∧ ∃ sid ∈ v.selectedNodeIds, ∃ s,
        findNode allNodes sid = some s ∧ d.id ∈ s.imports.getD [] := by
    intro d
    simp only [nodeClasses, hlen, if_false, Bool.and_eq_true, decide_eq_true_eq,
      Bool.not_eq_true', decide_eq_false_iff_not, mem_allImports]
    tauto
  have himported : ∀ d, (nodeClasses allNodes v d).imported = true ↔
      d.id ∉ v.selectedNodeIds ∧ ∃ sid ∈ v.selectedNodeIds, ∃ s,
        findNode allNodes sid = some s ∧ d.id ∈ s.importedBy.getD [] := by
    intro d
    simp only [nodeClasses, hlen, if_false, Bool.and_eq_true, decide_eq_true_eq,
      Bool.not_eq_true', decide_eq_false_iff_not, mem_allImportedBy]
    tauto
  have hpaths := selection_paths_split allNodes v drawn hsel
  refine ⟨himporting, himported, ?_, ?_, ?_⟩
  · intro b d hb hd
    obtain ⟨_, sid, hsid, s, hs, hmem⟩ := (himporting d).1 hd
    rw [hb, List.mem_singleton] at hsid
    subst hsid
    exact ⟨s, hs, hmem⟩
  · intro l hl hstyle d hd hnot
    obtain ⟨_, sid, hsid, s, t, h1, _, h3, _⟩ := (hpaths l).1 ⟨hl, hstyle⟩
    exact (himporting d).2 ⟨hnot, sid, hsid, s, h1, hd ▸ h3⟩
  · intro l hl hstyle d hd hnot
    obtain ⟨_, sid, hsid, s, u, h1, _, h3, _⟩ := (hpaths l).2 ⟨hl, hstyle⟩
    exact (himported d).2 ⟨hnot, sid, hsid, s, h1, hd ▸ h3⟩

/-- Witness for C19: `example.com/a/x` selected on the hierarchy of `scenarioGraph`; the
node `example.com/a/y` is classed `importing`. -/
theorem highlight_classes_of_selection_witness :
    viewX.selectedNodeIds ≠ []
    ∧ ∀ d, (nodeClasses scenarioNodes viewX d).importing = true ↔
        d.id ∉ viewX.selectedNodeIds ∧ ∃ sid ∈ viewX.selectedNodeIds, ∃ s,
          findNode scenarioNodes sid = some s ∧ d.id ∈ s.imports.getD [] :=
  ⟨by decide, (highlight_classes_of_selection scenarioNodes viewX ⟨[], []⟩ (by decide)).1⟩

/-- C20: with a non-empty selection every selected node is classed `selected` and neither
`importing` nor `imported`, whatever `imports` and `importedBy` lists its id occurs in,
and no node that is not selected is classed `selected`. -/
theorem selected_nodes_only_selected (allNodes : List HierarchyNode) (v : ViewState)
    (hsel : v.selectedNodeIds ≠ []) (d : HierarchyNode) :
    (d.id ∈ v.selectedNodeIds →
      nodeClasses allNodes v d = { selected := true, importing := false, imported := false })
    ∧ (d.id ∉ v.selectedNodeIds → (nodeClasses allNodes v d).selected = false) := by
  have hlen := length_ne_zero_of_ne_nil hsel
  constructor
  · intro hd
    simp [nodeClasses, hlen, hd]
  · intro hd
    simp [nodeClasses, hlen, hd]

/-- Witness for C20: `example.com/a/y` selected on the hierarchy of `scenarioGraph`. -/
theorem selected_nodes_only_selected_witness :
    viewY.selectedNodeIds ≠ []
    ∧ ∀ d : HierarchyNode,
        (d.id ∈ viewY.selectedNodeIds →
          nodeClasses scenarioNodes viewY d
            = { selected := true, importing := false, imported := false })
        ∧ (d.id ∉ viewY.selectedNodeIds → (nodeClasses scenarioNodes viewY d).selected = false) :=
  ⟨by decide, fun d => selected_nodes_only_selected scenarioNodes viewY (by decide) d⟩

/-! ### The nodes of the tree and the objects of `nodesMap` -/

theorem allSome_map_eq_some {α β : Type} (f : α → Option β) (P : α → β → Prop)
    (hP : ∀ a b, f a = some b → P a b) :
    ∀ (l : List α) (r : List β), allSome (l.map f) = some r → List.Forall₂ P l r := by
  intro l
  induction l with
  | nil =>
    intro r h
    simp only [List.map_nil, allSome, Option.some.injEq] at h
    subst h
    exact List.Forall₂.nil
  | cons a l ih =>
    intro r h
    simp only [List.map_cons] at h
    cases hfa : f a with
    | none => simp [hfa, allSome] at h
    | some b =>
      cases hrest : allSome (l.map f) with
      | none => simp [hfa, hrest, allSome] at h
      | some r' =>
        simp only [hfa, hrest, allSome, Option.some.injEq] at h
        subst h
        exact List.Forall₂.cons (hP a b hfa) (ih r' hrest)

theorem descendantsList_of_forall₂ {α : Type} (Q : HierarchyNode → Prop)
    (R : α → HierarchyNode → Prop) (hR : ∀ a t, R a t → ∀ h ∈ t :: t.descendants, Q h) :
    ∀ (l : List α) (cs : List HierarchyNode), List.Forall₂ R l cs →
      ∀ h ∈ HierarchyNode.descendantsList cs, Q h := by
  intro l cs hall
  induction hall with
  | nil => intro h hh; simp [HierarchyNode.descendantsList] at hh
  | cons hhead _ ih =>
    intro h hh
    rw [descendantsList_cons, List.mem_append] at hh
    rcases hh with hh | hh
    · exact hR _ _ hhead h hh
    · exact ih h hh

theorem map_id_of_forall₂ (l : List Str) (cs : List HierarchyNode)
    (hall : List.Forall₂ (fun r t => t.id = r) l cs) : cs.map HierarchyNode.id = l := by
  induction hall with
  | nil => rfl
  | cons hhead _ ih => simp [hhead, ih]

/-- Every node of a tree read off `m` shows an object of `m`, provided every object is
stored under its own id. -/
theorem toTree_shows (m : NodesMap) (hid : ∀ k o, m k = some o → o.id = k) :
    ∀ (fuel : Nat) (ref : Str) (tr : HierarchyNode), toTree m fuel ref = some tr →
      tr.id = ref ∧ ∀ h ∈ tr :: tr.descendants, ShowsObject m h := by
  intro fuel
  induction fuel with
  | zero => intro ref tr h; simp [toTree] at h
  | succ fuel ih =>
    intro ref tr h
    simp only [toTree] at h
    cases ho : m ref with
    | none => simp [ho] at h
    | some o =>
      cases hcs : allSome (o.children.map (toTree m fuel)) with
      | none => simp [ho, hcs] at h
      | some cs =>
        simp only [ho, hcs, Option.some.injEq] at h
        subst h
        have hoid := hid ref o ho
        have hall := allSome_map_eq_some (toTree m fuel)
          (fun r t => t.id = r ∧ ∀ h ∈ t :: t.descendants, ShowsObject m h)
          (fun a b hab => ih a b hab) o.children cs hcs
        have hids : cs.map HierarchyNode.id = o.children :=
          map_id_of_forall₂ _ _ (hall.imp (fun _ _ hrt => hrt.1))
        refine ⟨hoid, fun h hh => ?_⟩
        rcases List.mem_cons.1 hh with rfl | hh
        · refine ⟨o, ?_, rfl, rfl, rfl, rfl, rfl, hids⟩
          simp only [HierarchyNode.id, hoid, ho]
        · exact descendantsList_of_forall₂ (ShowsObject m) _ (fun _ _ hrt => hrt.2)
            o.children cs hall h hh

/-- The state in which `createHierarchy` returns, for ids without empty parts: the tree
loop and the link loop leave the invariant in place, with the walked paths of all nodes,
and the root that is returned holds the trees read off the root's children. -/
theorem createHierarchy_state (data : Graph)
    (hseg : ∀ n ∈ data.Nodes, ∀ part ∈ split '/' n.ID, part ≠ []) :
    ∃ (st : HState) (trs : List HierarchyNode),
      buildHierarchy data.Nodes
          { nodesMap := initNodesMap data.Nodes (fun _ => none), rootChildren := [] } = some st
      ∧ HInv (data.Nodes.map Node.ID) (Walked data.Nodes)
          { nodesMap := addLinks data.Links st.nodesMap, rootChildren := st.rootChildren }
      ∧ HInv (data.Nodes.map Node.ID) (Walked data.Nodes) st
      ∧ allSome (st.rootChildren.map
          (toTree (addLinks data.Links st.nodesMap) (hierarchyDepth data.Nodes))) = some trs
      ∧ trs.map HierarchyNode.id = st.rootChildren
      ∧ (∀ h ∈ HierarchyNode.descendantsList trs,
          ShowsObject (addLinks data.Links st.nodesMap) h)
      ∧ createHierarchy data
          = some (HierarchyNode.mk [] "root".toList none none trs none none) := by
  obtain ⟨st, hbuild, hst0⟩ := buildHierarchy_inv data.Nodes _ _ (initial_inv data.Nodes)
    (fun n hn => ⟨List.mem_map_of_mem _ hn, goodPath_split _ (hseg n hn)⟩)
  have hst : HInv (data.Nodes.map Node.ID) (Walked data.Nodes) st :=
    hst0.congr_pred (fun x => by simp [Walked])
  have hlinks := hst.of_shape (addLinks data.Links st.nodesMap) (addLinks_shape _ _)
  obtain ⟨root, USS, hroot, _⟩ := createHierarchy_spec data hseg
  simp only [createHierarchy, hbuild] at hroot
  cases hall : allSome (st.rootChildren.map
      (toTree (addLinks data.Links st.nodesMap) (hierarchyDepth data.Nodes))) with
  | none => simp [hall] at hroot
  | some trs =>
    have hF := allSome_map_eq_some
      (toTree (addLinks data.Links st.nodesMap) (hierarchyDepth data.Nodes))
      (fun r t => t.id = r ∧ ∀ h ∈ t :: t.descendants,
        ShowsObject (addLinks data.Links st.nodesMap) h)
      (fun a b hab => toTree_shows _ hlinks.obj_id _ a b hab) st.rootChildren trs hall
    refine ⟨st, trs, hbuild, hlinks, hst, hall, ?_, ?_, ?_⟩
    · exact map_id_of_forall₂ _ _ (hF.imp (fun _ _ hrt => hrt.1))
    · exact descendantsList_of_forall₂ _ _ (fun _ _ hrt => hrt.2) _ _ hF
    · simp only [createHierarchy, hbuild, hall]

/-! ### Every node below the root is a child exactly once -/

theorem children_perm_of_forall (cs : List HierarchyNode)
    (hcs : ∀ c ∈ cs, ((c :: c.descendants).flatMap HierarchyNode.children).Perm c.descendants) :
    (cs ++ (HierarchyNode.descendantsList cs).flatMap HierarchyNode.children).Perm
      (HierarchyNode.descendantsList cs) := by
  induction cs with
  | nil => simp [HierarchyNode.descendantsList]
  | cons c cs ih =>
    have hc := hcs c (List.mem_cons_self _ _)
    have hrest := ih (fun x hx => hcs x (List.mem_cons_of_mem _ hx))
    rw [descendantsList_cons, List.flatMap_append]
    -- c :: cs ++ (X ++ Y)  ~  c :: (desc c ++ dl cs)   with X ~ desc c and cs ++ Y ~ dl cs
    have h1 : (cs ++ ((c :: c.descendants).flatMap HierarchyNode.children
        ++ (HierarchyNode.descendantsList cs).flatMap HierarchyNode.children)).Perm
        ((c :: c.descendants).flatMap HierarchyNode.children
          ++ (cs ++ (HierarchyNode.descendantsList cs).flatMap HierarchyNode.children)) := by
      rw [← List.append_assoc, ← List.append_assoc]
      exact List.Perm.append_right _ List.perm_append_comm
    exact List.Perm.cons c (h1.trans (List.Perm.append hc hrest))

theorem children_perm_descendants :
    ∀ h : HierarchyNode,
      ((h :: h.descendants).flatMap HierarchyNode.children).Perm h.descendants
  | HierarchyNode.mk i n m b cs imp impBy => by
    have hcs : ∀ c ∈ cs,
        ((c :: c.descendants).flatMap HierarchyNode.children).Perm c.descendants :=
      fun c _ => children_perm_descendants c
    have h := children_perm_of_forall cs hcs
    simpa [HierarchyNode.descendants, HierarchyNode.children] using h
termination_by h => sizeOf h
decreasing_by
  simp_wf
  have := List.sizeOf_lt_of_mem ‹c ∈ cs›
  omega

/-- All that the claims about the tree use, for ids without empty parts: the state in
which `createHierarchy` returns, the tree it returns, and how the two fit. -/
theorem createHierarchy_full (data : Graph)
    (hseg : ∀ n ∈ data.Nodes, ∀ part ∈ split '/' n.ID, part ≠ []) :
    ∃ (st : HState) (root : HierarchyNode),
      buildHierarchy data.Nodes
          { nodesMap := initNodesMap data.Nodes (fun _ => none), rootChildren := [] } = some st
      ∧ createHierarchy data = some root
      ∧ root.id = []
      ∧ root.imports = none ∧ root.importedBy = none
      ∧ root.children.map HierarchyNode.id = st.rootChildren
      ∧ HInv (data.Nodes.map Node.ID) (Walked data.Nodes)
          { nodesMap := addLinks data.Links st.nodesMap, rootChildren := st.rootChildren }
      ∧ HInv (data.Nodes.map Node.ID) (Walked data.Nodes) st
      ∧ (root.descendants.map HierarchyNode.id).Nodup
      ∧ (∀ h ∈ root.descendants, ShowsObject (addLinks data.Links st.nodesMap) h
          ∧ ∃ t, Walked data.Nodes t ∧ h.id = joinPath t)
      ∧ ∀ t, Walked data.Nodes t → joinPath t ∈ root.descendants.map HierarchyNode.id := by
  obtain ⟨st, trs, hbuild, hlinks, hst, _, htrsid, hshow, hroot⟩ :=
    createHierarchy_state data hseg
  obtain ⟨root', USS, hroot', hmap, hUSS, hmem, _, _⟩ := createHierarchy_spec data hseg
  have heq : root' = HierarchyNode.mk [] "root".toList none none trs none none := by
    rw [hroot] at hroot'
    exact (Option.some.inj hroot').symm
  subst heq
  have hgood : ∀ u ∈ USS, GoodPath u := by
    intro u hu
    obtain ⟨n, hn, _, hpre⟩ := (hmem u).1 hu
    exact (goodPath_split _ (hseg n hn)).mono hpre
  refine ⟨st, _, hbuild, hroot, rfl, rfl, rfl, htrsid, hlinks, hst, ?_, ?_, ?_⟩
  · rw [hmap]
    exact List.Nodup.map_on
      (fun x hx y hy hxy => joinPath_injective x y (hgood x hx) (hgood y hy) hxy) hUSS
  · intro h hh
    refine ⟨hshow h hh, ?_⟩
    have hid : h.id ∈ (HierarchyNode.mk [] "root".toList none none trs none
        none).descendants.map HierarchyNode.id := List.mem_map_of_mem _ hh
    rw [hmap, List.mem_map] at hid
    obtain ⟨u, hu, hju⟩ := hid
    exact ⟨u, (hmem u).1 hu, hju.symm⟩
  · intro t ht
    rw [hmap, List.mem_map]
    exact ⟨t, (hmem t).2 ht, rfl⟩

theorem length_filter_eq_one {l : List Str} (hnd : l.Nodup) {a : Str} (ha : a ∈ l) :
    (l.filter (fun x => x = a)).length = 1 := by
  induction l with
  | nil => simp at ha
  | cons b l ih =>
    rw [List.nodup_cons] at hnd
    by_cases hb : b = a
    · subst hb
      have hnil : l.filter (fun x => x = b) = [] := by
        rw [List.filter_eq_nil_iff]
        intro x hx
        have : x ≠ b := fun h => hnd.1 (h ▸ hx)
        simpa using this
      simp [hnil]
    · have ha' : a ∈ l := by
        rcases List.mem_cons.1 ha with h | h
        · exact absurd h.symm hb
        · exact h
      simp [hb, ih hnd.2 ha']

/-! ## The hierarchy projection: the further claims -/

/-- C11: for a graph whose node IDs are pairwise distinct and have no empty part, in the
tree returned by `createHierarchy` the children lists together hold every node below the
root exactly once, so every such node is a child of exactly one node; and the id of a
child is the id of its parent extended by one part: the part itself below the root,
`parent.id + "/" + part` elsewhere. -/
theorem createHierarchy_is_tree (data : Graph)
    (_hdistinct : (data.Nodes.map Node.ID).Nodup)
    (hseg : ∀ n ∈ data.Nodes, ∀ part ∈ split '/' n.ID, part ≠ []) :
    ∃ root, createHierarchy data = some root
      ∧ root.id = []
      ∧ (∀ h ∈ root.descendants, h.id ≠ [])
      ∧ ((root :: root.descendants).flatMap HierarchyNode.children).Perm root.descendants
      ∧ (∀ h ∈ root.descendants,
          (((root :: root.descendants).flatMap
            (fun p => p.children.map HierarchyNode.id)).filter (fun x => x = h.id)).length = 1)
      ∧ ∀ p ∈ root :: root.descendants, ∀ c ∈ p.children,
          ∃ part, part ≠ [] ∧ '/' ∉ part
            ∧ c.id = (if p.id = [] then part else p.id ++ '/' :: part) := by
  obtain ⟨st, root, _, hroot, hrootid, _, _, hrc, hlinks, _, hnodup, hshow, _⟩ :=
    createHierarchy_full data hseg
  have hne : ∀ h ∈ root.descendants, h.id ≠ [] := by
    intro h hh
    obtain ⟨_, t, ht, hid⟩ := hshow h hh
    rw [hid]
    exact joinPath_ne_nil t (hlinks.good t ht).1 (hlinks.good t ht).2
  have hperm := children_perm_descendants root
  refine ⟨root, hroot, hrootid, hne, hperm, ?_, ?_⟩
  · intro h hh
    have hmapeq : (root :: root.descendants).flatMap (fun p => p.children.map HierarchyNode.id)
        = ((root :: root.descendants).flatMap HierarchyNode.children).map HierarchyNode.id := by
      rw [List.map_flatMap]
    rw [hmapeq, ((hperm.map HierarchyNode.id).filter _).length_eq]
    exact length_filter_eq_one hnodup (List.mem_map_of_mem _ hh)
  · intro p hp c hc
    have hcid : c.id ∈ p.children.map HierarchyNode.id := List.mem_map_of_mem _ hc
    rcases List.mem_cons.1 hp with rfl | hp
    · rw [hrc] at hcid
      have hT := (hlinks.root_children.2 c.id).1 hcid
      have hgood := (hlinks.good _ hT).1 c.id (List.mem_singleton_self _)
      exact ⟨c.id, hgood.1, hgood.2, by simp [hrootid]⟩
    · obtain ⟨⟨o, ho, _, _, _, _, _, hch⟩, t, ht, hid⟩ := hshow p hp
      obtain ⟨hgt, htne⟩ := hlinks.good t ht
      rw [hid] at ho
      rw [hch] at hcid
      obtain ⟨s, hTs, hcs⟩ := ((hlinks.obj_children t o hgt htne ho).2 c.id).1 hcid
      have hgs := (hlinks.good _ hTs).1 s (by simp)
      refine ⟨s, hgs.1, hgs.2, ?_⟩
      rw [if_neg (hne p hp), hcs, joinPath_snoc t s htne, hid]

/-- Witness for C11, at `scenarioGraph`. -/
theorem createHierarchy_is_tree_witness :
    (scenarioGraph.Nodes.map Node.ID).Nodup
    ∧ (∀ n ∈ scenarioGraph.Nodes, ∀ part ∈ split '/' n.ID, part ≠ [])
    ∧ ∃ root, createHierarchy scenarioGraph = some root
      ∧ root.id = []
      ∧ (∀ h ∈ root.descendants, h.id ≠ [])
      ∧ ((root :: root.descendants).flatMap HierarchyNode.children).Perm root.descendants
      ∧ (∀ h ∈ root.descendants,
          (((root :: root.descendants).flatMap
            (fun p => p.children.map HierarchyNode.id)).filter (fun x => x = h.id)).length = 1)
      ∧ ∀ p ∈ root :: root.descendants, ∀ c ∈ p.children,
          ∃ part, part ≠ [] ∧ '/' ∉ part
            ∧ c.id = (if p.id = [] then part else p.id ++ '/' :: part) :=
  ⟨by decide, by decide, createHierarchy_is_tree scenarioGraph (by decide) (by decide)⟩

/-! ### Where the objects come from -/

theorem WalkFrame.refl (node : Node) (m : NodesMap) : WalkFrame node m m :=
  ⟨fun _ h => h, fun _ o' h => Or.inl ⟨o', h, rfl⟩⟩

theorem WalkFrame.trans {node : Node} {a b c : NodesMap} (hab : WalkFrame node a b)
    (hbc : WalkFrame node b c) : WalkFrame node a c := by
  refine ⟨fun k h => hbc.1 k (hab.1 k h), fun k o'' hk => ?_⟩
  rcases hbc.2 k o'' hk with ⟨o', ho', hcore⟩ | ⟨hnone, hpre, h1, h2, h3, h4⟩
  · rcases hab.2 k o' ho' with ⟨o, ho, hcore'⟩ | ⟨hnone, hpre, h1, h2, h3, h4⟩
    · exact Or.inl ⟨o, ho, hcore.trans hcore'⟩
    · have e1 : o''.module = o'.module := congrArg (fun x => x.2.2.1) hcore
      have e2 : o''.isPackage = o'.isPackage := congrArg (fun x => x.2.2.2.1) hcore
      have e3 : o''.imports = o'.imports := congrArg (fun x => x.2.2.2.2.1) hcore
      have e4 : o''.importedBy = o'.importedBy := congrArg (fun x => x.2.2.2.2.2) hcore
      exact Or.inr ⟨hnone, hpre, e1.trans h1, e2.trans h2, e3.trans h3, e4.trans h4⟩
  · refine Or.inr ⟨?_, hpre, h1, h2, h3, h4⟩
    cases ha : a k with
    | none => rfl
    | some o =>
      have := hab.1 k (by simp [ha])
      rw [hnone] at this
      simp at this

theorem pushChild_frame (node : Node) (st st' : HState) (parent : Option Str) (c : Str)
    (h : pushChild st parent c = some st') : WalkFrame node st.nodesMap st'.nodesMap := by
  unfold pushChild at h
  cases parent with
  | none =>
    simp only at h
    split_ifs at h <;> (cases h; exact WalkFrame.refl _ _)
  | some p =>
    simp only at h
    cases hp : st.nodesMap p with
    | none => simp [hp] at h
    | some o =>
      simp only [hp] at h
      split_ifs at h
      · cases h; exact WalkFrame.refl _ _
      · cases h
        refine ⟨fun k hk => NodesMap.set_isSome _ _ _ _ hk, fun k o' hk => Or.inl ?_⟩
        by_cases hkp : k = p
        · subst hkp
          simp only [NodesMap.set_same] at hk
          cases hk
          exact ⟨o, hp, rfl⟩
        · simp only [NodesMap.set_other _ _ _ _ hkp] at hk
          exact ⟨o', hk, rfl⟩

theorem walkParts_frame (node : Node) (rest : List Str) :
    ∀ (done : List Str) (st st' : HState),
      done ++ rest = split '/' node.ID → GoodPath (split '/' node.ID) →
      walkParts node (split '/' node.ID).length rest done.length (joinPath done)
          (parentRef done) st = some st' →
      WalkFrame node st.nodesMap st'.nodesMap := by
  induction rest with
  | nil =>
    intro done st st' _ _ h
    simp only [walkParts, Option.some.injEq] at h
    subst h
    exact WalkFrame.refl _ _
  | cons part rest ih =>
    intro done st st' hsplit hgood h
    have hpartmem : part ∈ split '/' node.ID := by rw [← hsplit]; simp
    have hpart : part ≠ [] := (hgood part hpartmem).1
    have hpre : done ++ [part] <+: split '/' node.ID := ⟨rest, by rw [← hsplit]; simp⟩
    have hgdone : GoodPath done := hgood.mono ⟨part :: rest, hsplit⟩
    have hfinish : ∀ st1 : HState, WalkFrame node st.nodesMap st1.nodesMap →
        (match pushChild st1 (parentRef done) (joinPath (done ++ [part])) with
          | none => none
          | some st2 => walkParts node (split '/' node.ID).length rest (done.length + 1)
              (joinPath (done ++ [part])) (some (joinPath (done ++ [part]))) st2) = some st' →
        WalkFrame node st.nodesMap st'.nodesMap := by
      intro st1 h1 hrun
      cases hpush : pushChild st1 (parentRef done) (joinPath (done ++ [part])) with
      | none => simp [hpush] at hrun
      | some st2 =>
        simp only [hpush] at hrun
        have h2 := pushChild_frame node st1 st2 _ _ hpush
        have hrun' : walkParts node (split '/' node.ID).length rest (done ++ [part]).length
            (joinPath (done ++ [part])) (parentRef (done ++ [part])) st2 = some st' := by
          rw [List.length_append, List.length_singleton, parentRef_snoc]
          exact hrun
        have h3 := ih (done ++ [part]) st2 st' (by rw [← hsplit]; simp) hgood hrun'
        exact (h1.trans h2).trans h3
    unfold walkParts at h
    simp only [hpart, if_false, currentPath_eq done part hgdone] at h
    by_cases hlast : done.length = (split '/' node.ID).length - 1
    · rw [if_pos hlast] at h
      cases hget : st.nodesMap (joinPath (done ++ [part])) with
      | none => simp [hget] at h
      | some o =>
        simp only [hget] at h
        exact hfinish st (WalkFrame.refl _ _) h
    · rw [if_neg hlast] at h
      cases hget : st.nodesMap (joinPath (done ++ [part])) with
      | none =>
        simp only [hget] at h
        refine hfinish _ ?_ h
        refine ⟨fun k hk => NodesMap.set_isSome _ _ _ _ hk, fun k o' hk => ?_⟩
        by_cases hkc : k = joinPath (done ++ [part])
        · subst hkc
          simp only [NodesMap.set_same] at hk
          cases hk
          exact Or.inr ⟨hget, (mem_pathPrefixes _ _).2 ⟨done ++ [part], by simp, hpre, rfl⟩,
            rfl, rfl, rfl, rfl⟩
        · simp only [NodesMap.set_other _ _ _ _ hkc] at hk
          exact Or.inl ⟨o', hk, rfl⟩
      | some o =>
        simp only [hget] at h
        exact hfinish st (WalkFrame.refl _ _) h

theorem FirstOwner.append {walked : List Node} {k mod : Str} (h : FirstOwner walked k mod)
    (more : List Node) : FirstOwner (walked ++ more) k mod := by
  obtain ⟨pre, n, post, hsplit, h1, h2, h3⟩ := h
  exact ⟨pre, n, post ++ more, by simp [hsplit], h1, h2, h3⟩

theorem self_mem_pathPrefixes (id : Str) : id ∈ pathPrefixes id :=
  (mem_pathPrefixes id id).2
    ⟨split '/' id, split_ne_nil '/' id, List.prefix_refl _, (joinPath_split id).symm⟩

theorem buildHierarchy_owned {ids : List Str} (m0 : NodesMap)
    (hm0 : ∀ k, (m0 k).isSome = true → k ∈ ids) (rest : List Node) :
    ∀ (walked : List Node) (T : List Str → Prop) (st st' : HState), HInv ids T st →
      (∀ n ∈ walked, ∀ x, x ≠ [] → x <+: split '/' n.ID → T x) →
      Owned walked m0 st.nodesMap →
      (∀ n ∈ rest, n.ID ∈ ids ∧ GoodPath (split '/' n.ID)) →
      buildHierarchy rest st = some st' →
      Owned (walked ++ rest) m0 st'.nodesMap := by
  induction rest with
  | nil =>
    intro walked T st st' _ _ hown _ h
    simp only [buildHierarchy, Option.some.injEq] at h
    subst h
    simpa using hown
  | cons node rest ih =>
    intro walked T st st' hinv hT hown hnodes h
    obtain ⟨hid, hgood⟩ := hnodes node (List.mem_cons_self _ _)
    obtain ⟨st1, hwalk, h1⟩ := walkParts_inv node (split '/' node.ID) [] T st hinv rfl hgood hid
      (fun x hne hx => absurd (List.prefix_nil.1 hx) hne)
    have hwalk' : walkParts node (split '/' node.ID).length (split '/' node.ID) 0 [] none st
        = some st1 := hwalk
    simp only [buildHierarchy, hwalk'] at h
    have hframe := walkParts_frame node (split '/' node.ID) [] st st1 rfl hgood hwalk
    have hown1 : Owned (walked ++ [node]) m0 st1.nodesMap := by
      intro k o' hk
      rcases hframe.2 k o' hk with ⟨o, ho, hcore⟩ | ⟨hnone, hpre, e1, e2, e3, e4⟩
      · rcases hown k o ho with ⟨o0, ho0, hcore0⟩ | ⟨hm, f1, f2, f3, f4⟩
        · exact Or.inl ⟨o0, ho0, hcore.trans hcore0⟩
        · have e1 : o'.module = o.module := congrArg (fun x => x.2.2.1) hcore
          have e2 : o'.isPackage = o.isPackage := congrArg (fun x => x.2.2.2.1) hcore
          have e3 : o'.imports = o.imports := congrArg (fun x => x.2.2.2.2.1) hcore
          have e4 : o'.importedBy = o.importedBy := congrArg (fun x => x.2.2.2.2.2) hcore
          exact Or.inr ⟨hm, e2.trans f1, e3.trans f2, e4.trans f3, e1 ▸ f4.append [node]⟩
      · have hm : m0 k = none := by
          cases hmk : m0 k with
          | none => rfl
          | some o0 =>
            have := hinv.keys_ids k (hm0 k (by simp [hmk]))
            rw [hnone] at this
            simp at this
        refine Or.inr ⟨hm, e2, e3, e4, walked, node, [], rfl, hpre, ?_, e1⟩
        intro n' hn' hmem
        obtain ⟨t, hne, htpre, hkt⟩ := (mem_pathPrefixes _ _).1 hmem
        have := hinv.keys_walked t (hT n' hn' t hne htpre)
        rw [← hkt, hnone] at this
        simp at this
    have hT1 : ∀ n ∈ walked ++ [node], ∀ x, x ≠ [] → x <+: split '/' n.ID →
        (T x ∨ (x ≠ [] ∧ x <+: split '/' node.ID)) := by
      intro n hn x hne hx
      rcases List.mem_append.1 hn with hn | hn
      · exact Or.inl (hT n hn x hne hx)
      · rw [List.mem_singleton] at hn
        subst hn
        exact Or.inr ⟨hne, hx⟩
    have := ih (walked ++ [node]) _ st1 st' h1 hT1 hown1
      (fun n hn => hnodes n (List.mem_cons_of_mem _ hn)) h
    simpa using this

/-- The object that the first loop stores for an id is the package object of a node of
that id: of the node itself when the ids are pairwise distinct. -/
theorem initNodesMap_object (nodes : List Node) :
    ∀ (m : NodesMap) (k : Str) (o : HObj), initNodesMap nodes m k = some o →
      k ∈ nodes.map Node.ID →
      o.imports = none ∧ o.importedBy = none
        ∧ ((nodes.map Node.ID).Nodup → ∀ n ∈ nodes, n.ID = k → o.module = n.Module) := by
  induction nodes with
  | nil => intro m k o _ hk; simp at hk
  | cons node rest ih =>
    intro m k o h hk
    simp only [initNodesMap] at h
    by_cases hrest : k ∈ rest.map Node.ID
    · obtain ⟨h1, h2, h3⟩ := ih _ k o h hrest
      refine ⟨h1, h2, fun hnd n hn hnk => ?_⟩
      rw [List.map_cons, List.nodup_cons] at hnd
      rcases List.mem_cons.1 hn with rfl | hn
      · exact absurd (hnk ▸ hrest) hnd.1
      · exact h3 hnd.2 n hn hnk
    · have hknode : k = node.ID := by
        rcases List.mem_cons.1 hk with h' | h'
        · exact h'
        · exact absurd h' hrest
      rw [(initNodesMap_spec rest _ k).2 hrest, hknode, NodesMap.set_same] at h
      cases h
      refine ⟨rfl, rfl, fun _ n hn hnk => ?_⟩
      rcases List.mem_cons.1 hn with rfl | hn
      · rfl
      · exact absurd (List.mem_map.2 ⟨n, hn, hnk⟩) hrest

theorem initNodesMap_isSome (nodes : List Node) (k : Str)
    (h : (initNodesMap nodes (fun _ => none) k).isSome = true) : k ∈ nodes.map Node.ID := by
  by_contra hk
  rw [(initNodesMap_spec nodes (fun _ => none) k).2 hk] at h
  simp at h

/-- The objects with which the tree loop ends, for ids without empty parts. -/
theorem buildHierarchy_objects (data : Graph)
    (hseg : ∀ n ∈ data.Nodes, ∀ part ∈ split '/' n.ID, part ≠ [])
    (st : HState)
    (hbuild : buildHierarchy data.Nodes
      { nodesMap := initNodesMap data.Nodes (fun _ => none), rootChildren := [] } = some st) :
    Owned data.Nodes (initNodesMap data.Nodes (fun _ => none)) st.nodesMap := by
  have h := buildHierarchy_owned (initNodesMap data.Nodes (fun _ => none))
    (initNodesMap_isSome data.Nodes) data.Nodes [] _ _ st (initial_inv data.Nodes)
    (fun n hn => by simp at hn) (fun k o hk => Or.inl ⟨o, hk, rfl⟩)
    (fun n hn => ⟨List.mem_map_of_mem _ hn, goodPath_split _ (hseg n hn)⟩) hbuild
  simpa using h

/-- The keys of `nodesMap` when the tree loop ends are the path prefixes of the ids. -/
theorem buildHierarchy_keys (data : Graph)
    (hseg : ∀ n ∈ data.Nodes, ∀ part ∈ split '/' n.ID, part ≠ [])
    (st : HState)
    (hbuild : buildHierarchy data.Nodes
      { nodesMap := initNodesMap data.Nodes (fun _ => none), rootChildren := [] } = some st)
    (hinv : HInv (data.Nodes.map Node.ID) (Walked data.Nodes) st) (k : Str) :
    (st.nodesMap k).isSome = true ↔ ∃ n ∈ data.Nodes, k ∈ pathPrefixes n.ID := by
  constructor
  · intro hk
    obtain ⟨o, ho⟩ := Option.isSome_iff_exists.1 hk
    rcases buildHierarchy_objects data hseg st hbuild k o ho with
      ⟨o0, ho0, _⟩ | ⟨_, _, _, _, pre, n, post, hsplit, hmem, _⟩
    · have hid := initNodesMap_isSome data.Nodes k (by simp [ho0])
      obtain ⟨n, hn, rfl⟩ := List.mem_map.1 hid
      exact ⟨n, hn, self_mem_pathPrefixes _⟩
    · exact ⟨n, by simp [hsplit], hmem⟩
  · rintro ⟨n, hn, hmem⟩
    obtain ⟨t, hne, hpre, rfl⟩ := (mem_pathPrefixes _ _).1 hmem
    exact hinv.keys_walked t ⟨n, hn, hne, hpre⟩

/-! ### The link loop -/

theorem addLink_absent (m : NodesMap) (link : Link) (h : linkPresent m link = false) :
    addLink m link = m := by
  unfold addLink
  cases hs : m link.Source with
  | none => rfl
  | some source =>
    cases ht : m link.Target with
    | none => rfl
    | some target => simp [linkPresent, hs, ht] at h

theorem addLink_lists (m : NodesMap) (hid : ∀ k o, m k = some o → o.id = k) (link : Link)
    (h : linkPresent m link = true) (k : Str) :
    ((addLink m link) k).bind HObj.imports
        = (if k = link.Source then
            some (((m k).bind HObj.imports).getD [] ++ [link.Target])
          else (m k).bind HObj.imports)
    ∧ ((addLink m link) k).bind HObj.importedBy
        = (if k = link.Target then
            some (((m k).bind HObj.importedBy).getD [] ++ [link.Source])
          else (m k).bind HObj.importedBy) := by
  unfold addLink
  cases hs : m link.Source with
  | none => simp [linkPresent, hs] at h
  | some source =>
    cases ht : m link.Target with
    | none => simp [linkPresent, hs, ht] at h
    | some target =>
      have hsid := hid _ _ hs
      have htid := hid _ _ ht
      simp only []
      by_cases hts : link.Target = link.Source
      · have hst : source = target := by
          rw [hts, hs] at ht
          exact Option.some.inj ht
        subst hst
        simp only [hts, NodesMap.set_same]
        by_cases hk : k = link.Source
        · subst hk
          simp [NodesMap.set_same, hs, hsid, htid, hts]
        · simp [NodesMap.set_other _ _ _ _ hk, hk]
      · simp only [NodesMap.set_other _ _ _ _ hts, ht]
        have hst' : link.Source ≠ link.Target := fun e => hts e.symm
        by_cases hk : k = link.Source
        · subst hk
          simp [NodesMap.set_other _ _ _ _ hst', NodesMap.set_same, hs, htid, hst']
        · by_cases hkt : k = link.Target
          · subst hkt
            simp [NodesMap.set_same, ht, hsid, hk]
          · simp [NodesMap.set_other _ _ _ _ hkt, NodesMap.set_other _ _ _ _ hk, hk, hkt]

theorem addLink_obj_id (m : NodesMap) (hid : ∀ k o, m k = some o → o.id = k) (link : Link) :
    ∀ k o, addLink m link k = some o → o.id = k := by
  intro k o' hk
  obtain ⟨o, ho, hshape⟩ := shape_lookup (addLink_shape m link k) hk
  have : o.id = o'.id := congrArg (fun x => x.1) hshape
  rw [← this]
  exact hid k o ho

theorem addLink_isSome (m : NodesMap) (link : Link) (k : Str) :
    ((addLink m link) k).isSome = (m k).isSome := by
  have := congrArg Option.isSome (addLink_shape m link k)
  simpa using this

theorem linkPresent_addLink (m : NodesMap) (link l : Link) :
    linkPresent (addLink m link) l = linkPresent m l := by
  simp [linkPresent, addLink_isSome]

theorem pushAll_cons (x : Option (List Str)) (a : Str) (pushed : List Str) :
    pushAll (some (x.getD [] ++ [a])) pushed = pushAll x (a :: pushed) := by
  unfold pushAll
  by_cases h : pushed = []
  · simp [h]
  · simp [h]

theorem addLinks_lists (links : List Link) :
    ∀ (m : NodesMap), (∀ k o, m k = some o → o.id = k) → ∀ k,
      ((addLinks links m) k).bind HObj.imports
          = pushAll ((m k).bind HObj.imports)
              ((links.filter (fun l => linkPresent m l && decide (l.Source = k))).map
                Link.Target)
      ∧ ((addLinks links m) k).bind HObj.importedBy
          = pushAll ((m k).bind HObj.importedBy)
              ((links.filter (fun l => linkPresent m l && decide (l.Target = k))).map
                Link.Source) := by
  induction links with
  | nil => intro m _ k; simp [addLinks, pushAll]
  | cons link rest ih =>
    intro m hid k
    obtain ⟨ih1, ih2⟩ := ih (addLink m link) (addLink_obj_id m hid link) k
    simp only [addLinks, ih1, ih2, linkPresent_addLink]
    by_cases hp : linkPresent m link = true
    · obtain ⟨h1, h2⟩ := addLink_lists m hid link hp k
      rw [h1, h2]
      constructor
      · by_cases hk : k = link.Source
        · subst hk
          simp only [if_true, List.filter_cons, hp, decide_True, Bool.and_self, List.map_cons]
          exact pushAll_cons _ _ _
        · have hk' : ¬ link.Source = k := fun e => hk e.symm
          simp [hk, hk', List.filter_cons]
      · by_cases hk : k = link.Target
        · subst hk
          simp only [if_true, List.filter_cons, hp, decide_True, Bool.and_self, List.map_cons]
          exact pushAll_cons _ _ _
        · have hk' : ¬ link.Target = k := fun e => hk e.symm
          simp [hk, hk', List.filter_cons]
    · have hp' : linkPresent m link = false := by simpa using hp
      rw [addLink_absent m link hp']
      simp [List.filter_cons, hp']

theorem addLinks_filter_present (links : List Link) :
    ∀ (m : NodesMap), addLinks links m = addLinks (links.filter (linkPresent m)) m := by
  induction links with
  | nil => intro m; rfl
  | cons link rest ih =>
    intro m
    by_cases hp : linkPresent m link = true
    · rw [List.filter_cons_of_pos hp]
      simp only [addLinks]
      rw [ih (addLink m link),
        show rest.filter (linkPresent (addLink m link)) = rest.filter (linkPresent m) from
          List.filter_congr (fun l _ => linkPresent_addLink m link l)]
    · have hp' : linkPresent m link = false := by simpa using hp
      rw [List.filter_cons_of_neg hp]
      simp only [addLinks, addLink_absent m link hp']
      exact ih m

theorem mem_hierarchyIds (nodes : List Node) (k : Str) :
    k ∈ hierarchyIds nodes ↔ ∃ n ∈ nodes, k ∈ pathPrefixes n.ID := by
  simp [hierarchyIds, List.mem_flatMap]

theorem pushAll_none (pushed : List Str) :
    (pushAll none pushed).getD [] = pushed ∧ (pushAll none pushed = none ↔ pushed = []) := by
  unfold pushAll
  by_cases h : pushed = []
  · simp [h]
  · simp [h]

/-- The objects that the nodes below the root show, for ids without empty parts: the
object of the tree loop under the same id, with the import lists that the link loop
pushed on empty properties. -/
theorem createHierarchy_objects (data : Graph)
    (hseg : ∀ n ∈ data.Nodes, ∀ part ∈ split '/' n.ID, part ≠ []) :
    ∃ (st : HState) (root : HierarchyNode),
      createHierarchy data = some root
      ∧ root.imports = none ∧ root.importedBy = none
      ∧ HInv (data.Nodes.map Node.ID) (Walked data.Nodes) st
      ∧ Owned data.Nodes (initNodesMap data.Nodes (fun _ => none)) st.nodesMap
      ∧ (∀ k, (st.nodesMap k).isSome = true ↔ k ∈ root.descendants.map HierarchyNode.id)
      ∧ (∀ k, k ∈ root.descendants.map HierarchyNode.id ↔ k ∈ hierarchyIds data.Nodes)
      ∧ ∀ h ∈ root.descendants, ∃ o, st.nodesMap h.id = some o
          ∧ h.module = some o.module ∧ h.isPackage = some o.isPackage
          ∧ o.imports = none ∧ o.importedBy = none
          ∧ h.imports = pushAll none ((data.Links.filter
              (fun l => linkPresent st.nodesMap l && decide (l.Source = h.id))).map Link.Target)
          ∧ h.importedBy = pushAll none ((data.Links.filter
              (fun l => linkPresent st.nodesMap l && decide (l.Target = h.id))).map
                Link.Source) := by
  obtain ⟨st, root, hbuild, hroot, _, hri, hrib, _, _, hst, _, hshow, hwalked⟩ :=
    createHierarchy_full data hseg
  have hown := buildHierarchy_objects data hseg st hbuild
  have hkeys := buildHierarchy_keys data hseg st hbuild hst
  have hids : ∀ k, k ∈ root.descendants.map HierarchyNode.id ↔ k ∈ hierarchyIds data.Nodes := by
    intro k
    rw [mem_hierarchyIds]
    constructor
    · intro hk
      obtain ⟨h, hh, rfl⟩ := List.mem_map.1 hk
      obtain ⟨_, t, ⟨n, hn, hne, hpre⟩, hid⟩ := hshow h hh
      exact ⟨n, hn, (mem_pathPrefixes _ _).2 ⟨t, hne, hpre, hid⟩⟩
    · rintro ⟨n, hn, hmem⟩
      obtain ⟨t, hne, hpre, rfl⟩ := (mem_pathPrefixes _ _).1 hmem
      exact hwalked t ⟨n, hn, hne, hpre⟩
  refine ⟨st, root, hroot, hri, hrib, hst, hown, fun k => ?_, hids, fun h hh => ?_⟩
  · rw [hkeys, hids, mem_hierarchyIds]
  · obtain ⟨⟨o', ho', _, hmod, hpkg, himp, himpBy, _⟩, _⟩ := hshow h hh
    obtain ⟨o, ho, hshape⟩ := shape_lookup (addLinks_shape data.Links st.nodesMap h.id) ho'
    have e1 : o.module = o'.module := congrArg (fun x => x.2.2.1) hshape
    have e2 : o.isPackage = o'.isPackage := congrArg (fun x => x.2.2.2.1) hshape
    have hnone : o.imports = none ∧ o.importedBy = none := by
      rcases hown h.id o ho with ⟨o0, ho0, hcore⟩ | ⟨_, _, f2, f3, _⟩
      · have hk := initNodesMap_isSome data.Nodes h.id (by simp [ho0])
        obtain ⟨g1, g2, _⟩ := initNodesMap_object data.Nodes _ h.id o0 ho0 hk
        have c1 : o.imports = o0.imports := congrArg (fun x => x.2.2.2.2.1) hcore
        have c2 : o.importedBy = o0.importedBy := congrArg (fun x => x.2.2.2.2.2) hcore
        exact ⟨c1.trans g1, c2.trans g2⟩
      · exact ⟨f2, f3⟩
    obtain ⟨l1, l2⟩ := addLinks_lists data.Links st.nodesMap hst.obj_id h.id
    simp only [ho', ho, Option.some_bind, hnone.1, hnone.2] at l1 l2
    refine ⟨o, ho, by rw [hmod, e1], by rw [hpkg, e2], hnone.1, hnone.2, ?_, ?_⟩
    · rw [himp, l1]
    · rw [himpBy, l2]

/-- C12, as stated, fails: in the tree of `trailingSlashGraph` the node `b` has the
imports list `["a/"]`, and no node of the tree, the root included, has the id `a/`; the
list of the targets that have a node is empty. -/
theorem createHierarchy_import_lists_counterexample :
    ¬ (∀ root, createHierarchy trailingSlashGraph = some root →
        ∀ h ∈ root :: root.descendants,
          h.imports.getD []
              = importTargets trailingSlashGraph.Links
                  ((root :: root.descendants).map HierarchyNode.id) h.id
          ∧ h.importedBy.getD []
              = importSources trailingSlashGraph.Links
                  ((root :: root.descendants).map HierarchyNode.id) h.id) := by
  intro H
  have hev : (createHierarchy trailingSlashGraph).map
      (fun root => (root :: root.descendants).map (fun h => (h.id, h.imports.getD [])))
      = some [([], []), ("a".toList, []), ("b".toList, ["a/".toList])] := by decide
  obtain ⟨root, hroot, hl⟩ := Option.map_eq_some'.1 hev
  have hb : (("b".toList, ["a/".toList]) : Str × List Str)
      ∈ (root :: root.descendants).map (fun h => (h.id, h.imports.getD [])) := by
    rw [hl]
    simp
  obtain ⟨h, hh, he⟩ := List.mem_map.1 hb
  have hids : (root :: root.descendants).map HierarchyNode.id
      = [[], "a".toList, "b".toList] := by
    have hfst := congrArg (List.map Prod.fst) hl
    rw [List.map_map] at hfst
    exact hfst
  have hclaim := (H root hroot h hh).1
  have e1 : h.id = "b".toList := congrArg Prod.fst he
  have e2 : h.imports.getD [] = ["a/".toList] := congrArg Prod.snd he
  rw [hids, e1, e2] at hclaim
  exact absurd hclaim (by decide)

/-- C12, amended: for ids without empty parts, every node `h` below the root of the tree
returned by `createHierarchy` has as `imports` the targets, in link order and with
repeats, of the links whose source is `h.id` and whose target has a node below the root,
and as `importedBy` the sources of the links whose target is `h.id` and whose source has
a node below the root; a list that would be empty is left undefined. The root, which is
not in `nodesMap`, has neither list. -/
theorem createHierarchy_import_lists (data : Graph)
    (hseg : ∀ n ∈ data.Nodes, ∀ part ∈ split '/' n.ID, part ≠ []) :
    ∃ root, createHierarchy data = some root
      ∧ (∀ h ∈ root.descendants,
          h.imports.getD []
              = importTargets data.Links (root.descendants.map HierarchyNode.id) h.id
          ∧ (h.imports = none
              ↔ importTargets data.Links (root.descendants.map HierarchyNode.id) h.id = [])
          ∧ h.importedBy.getD []
              = importSources data.Links (root.descendants.map HierarchyNode.id) h.id
          ∧ (h.importedBy = none
              ↔ importSources data.Links (root.descendants.map HierarchyNode.id) h.id = []))
      ∧ root.imports = none ∧ root.importedBy = none := by
  obtain ⟨st, root, hroot, hri, hrib, _, _, hkeys, _, hobj⟩ := createHierarchy_objects data hseg
  refine ⟨root, hroot, fun h hh => ?_, hri, hrib⟩
  obtain ⟨o, ho, _, _, _, _, himp, himpBy⟩ := hobj h hh
  have hself : (st.nodesMap h.id).isSome = true := by simp [ho]
  have ht : (data.Links.filter
      (fun l => linkPresent st.nodesMap l && decide (l.Source = h.id))).map Link.Target
      = importTargets data.Links (root.descendants.map HierarchyNode.id) h.id := by
    unfold importTargets
    congr 1
    apply List.filter_congr
    intro l _
    by_cases hl : l.Source = h.id
    · have := hkeys l.Target
      by_cases hp : (st.nodesMap l.Target).isSome = true
      · simp [linkPresent, hl, hself, hp, this.1 hp]
      · have hnot : l.Target ∉ root.descendants.map HierarchyNode.id := fun hm => hp (this.2 hm)
        have hp' : (st.nodesMap l.Target).isSome = false := by simpa using hp
        simp only [linkPresent, hl, hself, hp', hnot]
        simp
    · simp [hl]
  have hs : (data.Links.filter
      (fun l => linkPresent st.nodesMap l && decide (l.Target = h.id))).map Link.Source
      = importSources data.Links (root.descendants.map HierarchyNode.id) h.id := by
    unfold importSources
    congr 1
    apply List.filter_congr
    intro l _
    by_cases hl : l.Target = h.id
    · have := hkeys l.Source
      by_cases hp : (st.nodesMap l.Source).isSome = true
      · simp [linkPresent, hl, hself, hp, this.1 hp]
      · have hnot : l.Source ∉ root.descendants.map HierarchyNode.id := fun hm => hp (this.2 hm)
        have hp' : (st.nodesMap l.Source).isSome = false := by simpa using hp
        simp only [linkPresent, hl, hself, hp', hnot]
        simp
    · simp [hl]
  rw [himp, himpBy, ht, hs]
  exact ⟨(pushAll_none _).1, (pushAll_none _).2, (pushAll_none _).1, (pushAll_none _).2⟩

/-- Witness for C12 (amended), at `scenarioGraph`. -/
theorem createHierarchy_import_lists_witness :
    (∀ n ∈ scenarioGraph.Nodes, ∀ part ∈ split '/' n.ID, part ≠ [])
    ∧ ∃ root, createHierarchy scenarioGraph = some root
      ∧ (∀ h ∈ root.descendants,
          h.imports.getD []
              = importTargets scenarioGraph.Links (root.descendants.map HierarchyNode.id) h.id
          ∧ (h.imports = none
              ↔ importTargets scenarioGraph.Links
                  (root.descendants.map HierarchyNode.id) h.id = [])
          ∧ h.importedBy.getD []
              = importSources scenarioGraph.Links (root.descendants.map HierarchyNode.id) h.id
          ∧ (h.importedBy = none
              ↔ importSources scenarioGraph.Links
                  (root.descendants.map HierarchyNode.id) h.id = []))
      ∧ root.imports = none ∧ root.importedBy = none :=
  ⟨by decide, createHierarchy_import_lists scenarioGraph (by decide)⟩

/-- C13, as stated, fails: the link of `danglingGraph` points at `example.com/a/y`, which
has no node, and `createHierarchy` returns a tree all the same. -/
theorem createHierarchy_dangling_link_counterexample :
    ¬ ((∃ l ∈ danglingGraph.Links,
          l.Source ∉ hierarchyIds danglingGraph.Nodes
          ∨ l.Target ∉ hierarchyIds danglingGraph.Nodes)
        → (createHierarchy danglingGraph).isNone = true) := by
  decide

/-- C13, amended: for ids without empty parts `createHierarchy` returns a tree whatever
the links are, and a link whose source or target has no node is skipped: the tree is the
one returned for the graph without such links. -/
theorem createHierarchy_skips_dangling_links (data : Graph)
    (hseg : ∀ n ∈ data.Nodes, ∀ part ∈ split '/' n.ID, part ≠ []) :
    (createHierarchy data).isSome = true
    ∧ createHierarchy data
        = createHierarchy
            { data with
              Links := data.Links.filter (fun l =>
                l.Source ∈ hierarchyIds data.Nodes ∧ l.Target ∈ hierarchyIds data.Nodes) } := by
  obtain ⟨st, root, hbuild, hroot, _, _, _, _, _, hst, _, _, _⟩ := createHierarchy_full data hseg
  have hkeys := buildHierarchy_keys data hseg st hbuild hst
  refine ⟨by simp [hroot], ?_⟩
  have hfilter : data.Links.filter (linkPresent st.nodesMap)
      = data.Links.filter (fun l =>
          l.Source ∈ hierarchyIds data.Nodes ∧ l.Target ∈ hierarchyIds data.Nodes) := by
    apply List.filter_congr
    intro l _
    have h1 := (hkeys l.Source).trans (mem_hierarchyIds data.Nodes l.Source).symm
    have h2 := (hkeys l.Target).trans (mem_hierarchyIds data.Nodes l.Target).symm
    by_cases hs : l.Source ∈ hierarchyIds data.Nodes
    · by_cases ht : l.Target ∈ hierarchyIds data.Nodes
      · simp [linkPresent, h1.2 hs, h2.2 ht, hs, ht]
      · have : (st.nodesMap l.Target).isSome = false := by
          cases hx : (st.nodesMap l.Target).isSome with
          | false => rfl
          | true => exact absurd (h2.1 hx) ht
        simp [linkPresent, this, ht]
    · have : (st.nodesMap l.Source).isSome = false := by
        cases hx : (st.nodesMap l.Source).isSome with
        | false => rfl
        | true => exact absurd (h1.1 hx) hs
      simp [linkPresent, this, hs]
  have hidem : addLinks (data.Links.filter (linkPresent st.nodesMap)) st.nodesMap
      = addLinks data.Links st.nodesMap := (addLinks_filter_present data.Links st.nodesMap).symm
  simp only [createHierarchy, hbuild, ← hfilter, hidem]

/-- Witness for C13 (amended), at `danglingGraph`: the tree is that of the graph without
the link. -/
theorem createHierarchy_skips_dangling_links_witness :
    (∀ n ∈ danglingGraph.Nodes, ∀ part ∈ split '/' n.ID, part ≠ [])
    ∧ (createHierarchy danglingGraph).isSome = true
    ∧ createHierarchy danglingGraph
        = createHierarchy
            { danglingGraph with
              Links := danglingGraph.Links.filter (fun l =>
                l.Source ∈ hierarchyIds danglingGraph.Nodes
                ∧ l.Target ∈ hierarchyIds danglingGraph.Nodes) } :=
  ⟨by decide, createHierarchy_skips_dangling_links danglingGraph (by decide)⟩

/-- C14: for a graph whose node IDs are pairwise distinct and have no empty part, in the
tree returned by `createHierarchy` every package node has the module of its own node, and
every folder node has the module of the first node, in the order of `data.nodes`, whose ID
has the folder's id as a proper path prefix, whatever is inserted below the folder later.
In `sharedFolderGraph` the folder `example.com/a` keeps the module `example.com/a/sub` of
the package that created it. -/
theorem createHierarchy_module_of_first_owner (data : Graph)
    (hdistinct : (data.Nodes.map Node.ID).Nodup)
    (hseg : ∀ n ∈ data.Nodes, ∀ part ∈ split '/' n.ID, part ≠ []) :
    (∃ root, createHierarchy data = some root
      ∧ ∀ h ∈ root.descendants,
          (h.isPackage = some true →
            ∃ n ∈ data.Nodes, n.ID = h.id ∧ h.module = some n.Module)
          ∧ (h.isPackage = some false →
            ∃ pre n post, data.Nodes = pre ++ n :: post
              ∧ h.id ∈ pathPrefixes n.ID ∧ h.id ≠ n.ID
              ∧ (∀ n' ∈ pre, h.id ∉ pathPrefixes n'.ID)
              ∧ h.module = some n.Module))
    ∧ (createHierarchy sharedFolderGraph).map
        (fun root => root.descendants.map (fun h => (h.id, h.isPackage, h.module)))
      = some
          [("example.com".toList, some false, some "example.com/a/sub".toList),
           ("example.com/a".toList, some false, some "example.com/a/sub".toList),
           ("example.com/a/sub".toList, some false, some "example.com/a/sub".toList),
           ("example.com/a/sub/pkg".toList, some true, some "example.com/a/sub".toList),
           ("example.com/a/x".toList, some true, some "example.com/a".toList)] := by
  refine ⟨?_, by decide⟩
  obtain ⟨st, root, hroot, _, _, hst, hown, _, _, hobj⟩ := createHierarchy_objects data hseg
  refine ⟨root, hroot, fun h hh => ?_⟩
  obtain ⟨o, ho, hmod, hpkg, _, _, _, _⟩ := hobj h hh
  have hpkgiff := hst.obj_pkg h.id o ho
  constructor
  · intro htrue
    have hop : o.isPackage = true := by
      rw [hpkg] at htrue
      exact Option.some.inj htrue
    have hmem := hpkgiff.1 hop
    obtain ⟨n, hn, hnid⟩ := List.mem_map.1 hmem
    refine ⟨n, hn, hnid, ?_⟩
    rcases hown h.id o ho with ⟨o0, ho0, hcore⟩ | ⟨_, f1, _⟩
    · have c : o.module = o0.module := congrArg (fun x => x.2.2.1) hcore
      obtain ⟨_, _, g⟩ := initNodesMap_object data.Nodes _ h.id o0 ho0 hmem
      rw [hmod, c, g hdistinct n hn hnid]
    · rw [hop] at f1
      cases f1
  · intro hfalse
    have hop : o.isPackage = false := by
      rw [hpkg] at hfalse
      exact Option.some.inj hfalse
    have hnot : h.id ∉ data.Nodes.map Node.ID := fun hmem => by
      have := hpkgiff.2 hmem
      rw [hop] at this
      cases this
    rcases hown h.id o ho with ⟨o0, ho0, _⟩ | ⟨_, _, _, _, pre, n, post, hsplit, h1, h2, h3⟩
    · exact absurd (initNodesMap_isSome data.Nodes h.id (by simp [ho0])) hnot
    · refine ⟨pre, n, post, hsplit, h1, ?_, h2, by rw [hmod, h3]⟩
      intro heq
      exact hnot (List.mem_map.2 ⟨n, by simp [hsplit], heq.symm⟩)

/-- Witness for C14, at `sharedFolderGraph`. -/
theorem createHierarchy_module_of_first_owner_witness :
    (sharedFolderGraph.Nodes.map Node.ID).Nodup
    ∧ (∀ n ∈ sharedFolderGraph.Nodes, ∀ part ∈ split '/' n.ID, part ≠ [])
    ∧ ∃ root, createHierarchy sharedFolderGraph = some root
      ∧ ∀ h ∈ root.descendants,
          (h.isPackage = some true →
            ∃ n ∈ sharedFolderGraph.Nodes, n.ID = h.id ∧ h.module = some n.Module)
          ∧ (h.isPackage = some false →
            ∃ pre n post, sharedFolderGraph.Nodes = pre ++ n :: post
              ∧ h.id ∈ pathPrefixes n.ID ∧ h.id ≠ n.ID
              ∧ (∀ n' ∈ pre, h.id ∉ pathPrefixes n'.ID)
              ∧ h.module = some n.Module) :=
  ⟨by decide, by decide,
    (createHierarchy_module_of_first_owner sharedFolderGraph (by decide) (by decide)).1⟩

/-! ## The interactive view: the further claims -/

/-- C21, as stated, fails: in the hierarchy of two packages that import each other, with
`example.com/a/x` selected, the node `example.com/a/y` is in the `imports` and in the
`importedBy` of the selected node and is classed `importing` as well as `imported`. -/
theorem both_classes_counterexample :
    ¬ (∀ d ∈ mutualNodes, d.id ∉ viewMutual.selectedNodeIds →
        d.id ∈ allImports mutualNodes viewMutual.selectedNodeIds →
        d.id ∈ allImportedBy mutualNodes viewMutual.selectedNodeIds →
        nodeClasses mutualNodes viewMutual d
          = { selected := false, importing := false, imported := true }) := by
  decide

/-- C21, amended: with a non-empty selection a node that is not selected and whose id is
in the `imports` of a selected node and in the `importedBy` of a selected node gets both
classes, `importing` and `imported`; of the two style rules the one of `imported` is the
later in the style sheet, so the circle has its stroke colour. -/
theorem importing_and_imported_both_set (allNodes : List HierarchyNode) (v : ViewState)
    (d : HierarchyNode) (hsel : v.selectedNodeIds ≠ []) (hd : d.id ∉ v.selectedNodeIds)
    (himports : ∃ sid ∈ v.selectedNodeIds, ∃ s,
      findNode allNodes sid = some s ∧ d.id ∈ s.imports.getD [])
    (himportedBy : ∃ sid ∈ v.selectedNodeIds, ∃ s,
      findNode allNodes sid = some s ∧ d.id ∈ s.importedBy.getD []) :
    nodeClasses allNodes v d = { selected := false, importing := true, imported := true }
    ∧ highlightStroke (nodeClasses allNodes v d) = some "#1f77b4".toList := by
  have hlen := length_ne_zero_of_ne_nil hsel
  have h1 : d.id ∈ allImports allNodes v.selectedNodeIds := (mem_allImports _ _ _).2 himports
  have h2 : d.id ∈ allImportedBy allNodes v.selectedNodeIds :=
    (mem_allImportedBy _ _ _).2 himportedBy
  have hc : nodeClasses allNodes v d
      = { selected := false, importing := true, imported := true } := by
    simp [nodeClasses, hlen, hd, h1, h2]
  refine ⟨hc, ?_⟩
  rw [hc]
  decide

/-- Witness for C21 (amended): the node `example.com/a/y` of `mutualNodes`. -/
theorem importing_and_imported_both_set_witness :
    viewMutual.selectedNodeIds ≠ []
    ∧ nodeY.id ∉ viewMutual.selectedNodeIds
    ∧ nodeClasses mutualNodes viewMutual nodeY
        = { selected := false, importing := true, imported := true }
    ∧ highlightStroke (nodeClasses mutualNodes viewMutual nodeY) = some "#1f77b4".toList :=
  ⟨by decide, by decide,
    importing_and_imported_both_set mutualNodes viewMutual nodeY (by decide) (by decide)
      ((mem_allImports _ _ _).1 (by decide)) ((mem_allImportedBy _ _ _).1 (by decide))⟩

/-- C22: the paths that `updateDependencyVisibility` leaves do not depend on the paths
drawn before the call, only on the hierarchy, the selection and the three flags; so a
second call with the same selection and flags leaves the paths of the first. -/
theorem updateDependencyVisibility_forgets_drawn (allNodes : List HierarchyNode)
    (v : ViewState) :
    (∀ drawn drawn' : LinkGroups,
      updateDependencyVisibility allNodes v drawn
        = updateDependencyVisibility allNodes v drawn')
    ∧ ∀ drawn : LinkGroups,
        updateDependencyVisibility allNodes v (updateDependencyVisibility allNodes v drawn)
          = updateDependencyVisibility allNodes v drawn := by
  have h : ∀ drawn drawn' : LinkGroups,
      updateDependencyVisibility allNodes v drawn
        = updateDependencyVisibility allNodes v drawn' := by
    intro drawn drawn'
    simp only [updateDependencyVisibility, removeDependencyLinks_eq]
  exact ⟨h, fun drawn => h _ _⟩

/-- C26: the classes that `updateNodeStyles` computes are the same for every value of
the three flags, and the three toggle buttons leave the classes of the page as they are.
With `example.com/a/x` selected and `showOutgoing` off, `example.com/a/y` is classed
`importing` although no path is drawn. -/
theorem highlight_classes_ignore_filters (allNodes : List HierarchyNode) (v : ViewState)
    (p : Page) :
    (∀ (showOutgoing showIncoming showCrossModuleOnly : Bool),
      updateNodeStyles allNodes
          { v with showOutgoing := showOutgoing, showIncoming := showIncoming,
                   showCrossModuleOnly := showCrossModuleOnly }
        = updateNodeStyles allNodes v)
    ∧ (toggleOutgoing allNodes p).classes = p.classes
    ∧ (toggleIncoming allNodes p).classes = p.classes
    ∧ (toggleCrossModule allNodes p).classes = p.classes
    ∧ (updateDependencyVisibility scenarioNodes { viewX with showOutgoing := false }
        ⟨[], []⟩).paths = []
    ∧ (∀ d : HierarchyNode, d.id = "example.com/a/y".toList →
        (nodeClasses scenarioNodes { viewX with showOutgoing := false } d).importing = true) := by
  refine ⟨fun _ _ _ => rfl, rfl, rfl, rfl, by decide, fun d hd => ?_⟩
  simp only [nodeClasses]
  rw [hd]
  decide

/-! ## The graph builder and the hierarchy: the further claims -/

/-- C25: the `Module` of every node of the built graph is the `ModulePath` of a module
of the list and a string prefix of the node's ID: the search for the module of an
internal package always finds one. -/
theorem node_module_is_module_path (modules : List ModuleInfo) (allPackages : List Package)
    (n : Node) (hn : n ∈ (extractPackageDependencies modules allPackages).Nodes) :
    ∃ m ∈ modules, n.Module = m.ModulePath ∧ n.Module <+: n.ID := by
  rw [mem_nodes] at hn
  obtain ⟨pre, m, post, h1, h2, _, h4⟩ := findModuleName_spec modules n.ID hn.1.2
  refine ⟨m, by simp [h1], hn.2.trans h4, ?_⟩
  rw [hn.2, h4]
  exact h2

/-- Witness for C25: the node of `example.com/a/x` in scenario 1. -/
theorem node_module_is_module_path_witness :
    (⟨"example.com/a/x".toList, "example.com/a".toList⟩ : Node)
        ∈ (extractPackageDependencies scenarioModules [recordX, recordY]).Nodes
    ∧ ∃ m ∈ scenarioModules, "example.com/a".toList = m.ModulePath
        ∧ "example.com/a".toList <+: "example.com/a/x".toList :=
  ⟨by decide,
    node_module_is_module_path scenarioModules [recordX, recordY]
      ⟨"example.com/a/x".toList, "example.com/a".toList⟩ (by decide)⟩

theorem length_filter_map_filter {α : Type} (l : List α) (p : α → Bool) (f : α → Str)
    (b : Str) :
    (((l.filter p).map f).filter (fun x => x = b)).length
      = (l.filter (fun a => p a && decide (f a = b))).length := by
  induction l with
  | nil => rfl
  | cons a l ih =>
    by_cases hp : p a = true
    · by_cases hf : f a = b
      · simp [List.filter_cons, hp, hf, ih]
      · simp [List.filter_cons, hp, hf, ih]
    · have hp' : p a = false := by simpa using hp
      simp [List.filter_cons, hp', ih]

/-- C27, as stated, fails: in the tree of `emptyIdGraph` the node `b` has the imports
list `[""]`, in which the id of the root occurs once, and the root has no `importedBy`
list: the link was recorded on the object stored under `""`, which is not the root. -/
theorem imports_importedBy_counterexample :
    ¬ (∀ root, createHierarchy emptyIdGraph = some root →
        ∀ s ∈ root :: root.descendants, ∀ t ∈ root :: root.descendants,
          ((s.imports.getD []).filter (fun x => x = t.id)).length
            = ((t.importedBy.getD []).filter (fun x => x = s.id)).length) := by
  intro H
  have hev : (createHierarchy emptyIdGraph).map
      (fun root => (root :: root.descendants).map
        (fun h => (h.id, h.imports.getD [], h.importedBy.getD [])))
      = some [([], [], []), ("b".toList, [[]], [])] := by decide
  obtain ⟨root, hroot, hl⟩ := Option.map_eq_some'.1 hev
  have hb : (("b".toList, [[]], []) : Str × List Str × List Str)
      ∈ (root :: root.descendants).map
          (fun h => (h.id, h.imports.getD [], h.importedBy.getD [])) := by
    rw [hl]
    simp
  have hr : (([], [], []) : Str × List Str × List Str)
      ∈ (root :: root.descendants).map
          (fun h => (h.id, h.imports.getD [], h.importedBy.getD [])) := by
    rw [hl]
    simp
  obtain ⟨s, hs, hse⟩ := List.mem_map.1 hb
  obtain ⟨t, ht, hte⟩ := List.mem_map.1 hr
  have hclaim := H root hroot s hs t ht
  have e1 : s.id = "b".toList := congrArg Prod.fst hse
  have e2 : s.imports.getD [] = [[]] := congrArg (fun x => x.2.1) hse
  have e3 : t.id = [] := congrArg Prod.fst hte
  have e4 : t.importedBy.getD [] = [] := congrArg (fun x => x.2.2) hte
  rw [e1, e2, e3, e4] at hclaim
  exact absurd hclaim (by decide)

/-- C27, amended: for ids without empty parts, in the tree returned by `createHierarchy`
the id of a node `t` occurs in `s.imports` as often as the id of `s` occurs in
`t.importedBy`, for all nodes `s` and `t`, the root included. -/
theorem imports_importedBy_consistent (data : Graph)
    (hseg : ∀ n ∈ data.Nodes, ∀ part ∈ split '/' n.ID, part ≠ []) :
    ∃ root, createHierarchy data = some root
      ∧ ∀ s ∈ root :: root.descendants, ∀ t ∈ root :: root.descendants,
          ((s.imports.getD []).filter (fun x => x = t.id)).length
            = ((t.importedBy.getD []).filter (fun x => x = s.id)).length := by
  obtain ⟨st, root, hroot, hri, hrib, _, _, hkeys, hids, hobj⟩ :=
    createHierarchy_objects data hseg
  obtain ⟨_, root', _, hroot', hrootid, _⟩ := createHierarchy_full data hseg
  have hsame : root' = root := Option.some.inj (hroot'.symm.trans hroot)
  subst hsame
  have hnokey : (st.nodesMap []).isSome = false := by
    cases hx : (st.nodesMap []).isSome with
    | false => rfl
    | true =>
      have hmem := (hids []).1 ((hkeys []).1 hx)
      obtain ⟨n, hn, hpre⟩ := (mem_hierarchyIds _ _).1 hmem
      obtain ⟨t, hne, htpre, hjoin⟩ := (mem_pathPrefixes _ _).1 hpre
      exact absurd hjoin.symm
        (joinPath_ne_nil t ((goodPath_split _ (hseg n hn)).mono htpre) hne)
  have hlists : ∀ h ∈ root' :: root'.descendants,
      h.imports.getD [] = (data.Links.filter
          (fun l => linkPresent st.nodesMap l && decide (l.Source = h.id))).map Link.Target
      ∧ h.importedBy.getD [] = (data.Links.filter
          (fun l => linkPresent st.nodesMap l && decide (l.Target = h.id))).map Link.Source := by
    intro h hh
    rcases List.mem_cons.1 hh with rfl | hh
    · rw [hri, hrib, hrootid]
      have e1 : data.Links.filter
          (fun l => linkPresent st.nodesMap l && decide (l.Source = [])) = [] := by
        rw [List.filter_eq_nil_iff]
        intro l _
        by_cases hl : l.Source = []
        · simp [linkPresent, hl, hnokey]
        · simp [hl]
      have e2 : data.Links.filter
          (fun l => linkPresent st.nodesMap l && decide (l.Target = [])) = [] := by
        rw [List.filter_eq_nil_iff]
        intro l _
        by_cases hl : l.Target = []
        · simp [linkPresent, hl, hnokey]
        · simp [hl]
      rw [e1, e2]
      exact ⟨rfl, rfl⟩
    · obtain ⟨o, _, _, _, _, _, himp, himpBy⟩ := hobj h hh
      rw [himp, himpBy]
      exact ⟨(pushAll_none _).1, (pushAll_none _).1⟩
  refine ⟨root', hroot, fun s hs t ht => ?_⟩
  rw [(hlists s hs).1, (hlists t ht).2, length_filter_map_filter, length_filter_map_filter]
  congr 1
  apply List.filter_congr
  intro l _
  cases linkPresent st.nodesMap l <;> cases decide (l.Source = s.id) <;>
    cases decide (l.Target = t.id) <;> rfl

/-- Witness for C27 (amended), at `mutualGraph`. -/
theorem imports_importedBy_consistent_witness :
    (∀ n ∈ mutualGraph.Nodes, ∀ part ∈ split '/' n.ID, part ≠ [])
    ∧ ∃ root, createHierarchy mutualGraph = some root
      ∧ ∀ s ∈ root :: root.descendants, ∀ t ∈ root :: root.descendants,
          ((s.imports.getD []).filter (fun x => x = t.id)).length
            = ((t.importedBy.getD []).filter (fun x => x = s.id)).length :=
  ⟨by decide, imports_importedBy_consistent mutualGraph (by decide)⟩

/-! ## Module discovery: lemmas and claims -/

theorem toSlash_idem (sep : Char) (s : Str) : toSlash sep (toSlash sep s) = toSlash sep s := by
  unfold toSlash
  by_cases hsep : sep = '/'
  · simp [hsep]
  · simp only [hsep, if_false, List.map_map]
    apply List.map_congr_left
    intro c _
    by_cases hc : c = sep
    · have : ¬ '/' = sep := fun h => hsep h.symm
      simp [hc, this]
    · simp [hc]

theorem ignoreLoop_iff (sep : Char) (ignoredPaths : List Str) :
    ∀ relPath : Str, ignoreLoop sep ignoredPaths relPath = true
      ↔ ∃ e ∈ ignoredPaths, toSlash sep e <+: toSlash sep relPath := by
  induction ignoredPaths with
  | nil => intro relPath; simp [ignoreLoop]
  | cons e rest ih =>
    intro relPath
    simp only [ignoreLoop, List.mem_cons, exists_eq_or_imp]
    by_cases h : hasPrefix (toSlash sep relPath) (toSlash sep e) = true
    · simp [h, (hasPrefix_iff _ _).1 h]
    · have h' : ¬ toSlash sep e <+: toSlash sep relPath :=
        fun hp => h ((hasPrefix_iff _ _).2 hp)
      simp only [h, if_false, h', false_or, Bool.false_eq_true]
      rw [ih, toSlash_idem]

/-- C23: for a path that `filepath.Rel` can make relative to the root,
`shouldIgnorePath(path, root)` is true exactly when the relative path, written with
forward slashes, has an entry of the ignore list, written with forward slashes, as a
literal string prefix; with an empty ignore list it is false for every path. -/
theorem shouldIgnorePath_iff_ignored_prefix (sep : Char) (rel : Str → Str → Option Str)
    (ignoredPaths : List Str) (path rootDir relPath : Str)
    (hrel : rel rootDir path = some relPath) :
    (shouldIgnorePath sep rel ignoredPaths path rootDir = true
      ↔ ∃ e ∈ ignoredPaths, toSlash sep e <+: toSlash sep relPath)
    ∧ ∀ anyPath : Str, shouldIgnorePath sep rel [] anyPath rootDir = false := by
  constructor
  · simp only [shouldIgnorePath, hrel]
    exact ignoreLoop_iff sep ignoredPaths relPath
  · intro anyPath
    unfold shouldIgnorePath
    cases rel rootDir anyPath <;> simp [ignoreLoop]

/-- Witness for C23: the path `vendor/x` under the ignore list `["vendor"]`, on a system
with the separator `/`. -/
theorem shouldIgnorePath_iff_ignored_prefix_witness :
    ((fun (_ : Str) (p : Str) => some p) [] "vendor/x".toList = some "vendor/x".toList)
    ∧ (shouldIgnorePath '/' (fun _ p => some p) ["vendor".toList] "vendor/x".toList [] = true
        ↔ ∃ e ∈ ["vendor".toList], toSlash '/' e <+: toSlash '/' "vendor/x".toList)
    ∧ ∀ anyPath : Str, shouldIgnorePath '/' (fun _ p => some p) [] anyPath [] = false :=
  ⟨rfl,
    shouldIgnorePath_iff_ignored_prefix '/' (fun _ p => some p) ["vendor".toList]
      "vendor/x".toList [] "vendor/x".toList rfl⟩

theorem head?_dropWhile_false (p : Char → Bool) (l : Str) (c : Char)
    (h : (l.dropWhile p).head? = some c) : p c = false := by
  induction l with
  | nil => simp at h
  | cons a l ih =>
    by_cases hp : p a = true
    · rw [List.dropWhile_cons_of_pos hp] at h
      exact ih h
    · rw [List.dropWhile_cons_of_neg hp] at h
      simp only [List.head?_cons, Option.some.injEq] at h
      subst h
      simpa using hp

theorem exists_mem_dropWhile (p : Char → Bool) (l : Str)
    (h : ∃ c ∈ l, p c = false) : ∃ c ∈ l.dropWhile p, p c = false := by
  induction l with
  | nil => obtain ⟨c, hc, _⟩ := h; simp at hc
  | cons a l ih =>
    by_cases hp : p a = true
    · rw [List.dropWhile_cons_of_pos hp]
      obtain ⟨c, hc, hpc⟩ := h
      rcases List.mem_cons.1 hc with rfl | hc
      · rw [hp] at hpc; cases hpc
      · exact ih ⟨c, hc, hpc⟩
    · rw [List.dropWhile_cons_of_neg hp]
      exact ⟨a, List.mem_cons_self _ _, by simpa using hp⟩

theorem trimSpace_last (s : Str) (c : Char) (h : (trimSpace s).getLast? = some c) :
    isSpace c = false := by
  unfold trimSpace at h
  rw [List.getLast?_reverse] at h
  exact head?_dropWhile_false isSpace _ c h

theorem trimSpace_ne_nil (s : Str) (h : ∃ c ∈ s, isSpace c = false) : trimSpace s ≠ [] := by
  obtain ⟨c, hc, hpc⟩ := exists_mem_dropWhile isSpace s h
  obtain ⟨c', hc', _⟩ := exists_mem_dropWhile isSpace (s.dropWhile isSpace).reverse
    ⟨c, List.mem_reverse.2 hc, hpc⟩
  intro hnil
  unfold trimSpace at hnil
  rw [List.reverse_eq_nil_iff] at hnil
  rw [hnil] at hc'
  simp at hc'

/-- A line whose trimmed form starts with `module ` leaves a non-empty module name. -/
theorem module_remainder_ne_nil (line : Str)
    (h : hasPrefix (trimSpace line) "module ".toList = true) :
    trimSpace (trimPrefix (trimSpace line) "module ".toList) ≠ [] := by
  obtain ⟨r, hr⟩ := (hasPrefix_iff _ _).1 h
  have hdrop : trimPrefix (trimSpace line) "module ".toList = r := by
    simp only [trimPrefix, h, if_true]
    rw [← hr, List.drop_left]
  rw [hdrop]
  have hrne : r ≠ [] := by
    intro hnil
    rw [hnil, List.append_nil] at hr
    have hlast : (trimSpace line).getLast? = some ' ' := by rw [← hr]; rfl
    have := trimSpace_last line ' ' hlast
    exact absurd this (by decide)
  apply trimSpace_ne_nil
  refine ⟨r.getLast hrne, List.getLast_mem hrne, ?_⟩
  apply trimSpace_last line
  rw [← hr, List.getLast?_append_of_ne_nil _ hrne, List.getLast?_eq_getLast _ hrne]

theorem scanModuleLines_spec (lines : List Str) :
    match lines.find? (fun line => hasPrefix (trimSpace line) "module ".toList) with
    | some line =>
      scanModuleLines lines = trimSpace ((trimSpace line).drop "module ".toList.length)
        ∧ scanModuleLines lines ≠ []
    | none => scanModuleLines lines = [] := by
  induction lines with
  | nil => simp [scanModuleLines]
  | cons line rest ih =>
    by_cases h : hasPrefix (trimSpace line) "module ".toList = true
    · simp only [List.find?_cons, h, scanModuleLines, if_true]
      refine ⟨by unfold trimPrefix; rw [if_pos h], module_remainder_ne_nil line h⟩
    · have h' : hasPrefix (trimSpace line) "module ".toList = false := by simpa using h
      simp only [List.find?_cons, h', scanModuleLines, Bool.false_eq_true, if_false]
      exact ih

theorem base_ne_nil (path : Str) : base path ≠ [] := by
  unfold base
  by_cases h : path = []
  · simp [h]
  · simp only [h, if_false]
    split_ifs with h2
    · simp
    · exact h2

/-- C24: the `ModulePath` that `findModules` records for a `go.mod` file is the trimmed
remainder, after the leading `module `, of the first line whose trimmed form starts with
`module `, and the base name of the module's directory relative to the root if the
content has no such line. -/
theorem modulePath_of_first_module_line (relPath dir modContent : Str) (colorIndex : Nat) :
    ((goModEntry relPath dir modContent colorIndex).ModulePath
      = match firstModuleLine modContent with
        | some line => trimSpace ((trimSpace line).drop "module ".toList.length)
        | none => base relPath)
    ∧ (goModEntry "services/api".toList "/src/services/api".toList
        "// the api\n  module   example.com/api \r\n\ngo 1.20\n".toList 0).ModulePath
        = "example.com/api".toList
    ∧ (goModEntry "services/api".toList "/src/services/api".toList
        "go 1.20\n".toList 0).ModulePath = "api".toList := by
  refine ⟨?_, by decide, by decide⟩
  have h := scanModuleLines_spec (split '\n' modContent)
  simp only [goModEntry, moduleNameOf, firstModuleLine]
  cases hfind : (split '\n' modContent).find?
      (fun line => hasPrefix (trimSpace line) "module ".toList) with
  | none =>
    rw [hfind] at h
    simp only [h, if_true]
  | some line =>
    rw [hfind] at h
    simp only [if_neg h.2]
    exact h.1

/-- C28: the `ModulePath` that `findModules` records is never the empty string: a line
whose trimmed form starts with `module ` leaves a non-empty trimmed remainder, and the
base name of a directory path is never empty (`.` for the root); so the path never is a
prefix of the empty import path, let alone of every import path by being empty. -/
theorem modulePath_ne_empty (relPath dir modContent : Str) (colorIndex : Nat) :
    (goModEntry relPath dir modContent colorIndex).ModulePath ≠ []
    ∧ (∀ line : Str, hasPrefix (trimSpace line) "module ".toList = true →
        trimSpace (trimPrefix (trimSpace line) "module ".toList) ≠ [])
    ∧ (∀ path : Str, base path ≠ [])
    ∧ base ".".toList = ".".toList
    ∧ ¬ IsInternal [goModEntry relPath dir modContent colorIndex] [] := by
  have hne : (goModEntry relPath dir modContent colorIndex).ModulePath ≠ [] := by
    simp only [goModEntry, moduleNameOf]
    split_ifs with h
    · exact base_ne_nil relPath
    · exact h
  refine ⟨hne, module_remainder_ne_nil, base_ne_nil, by decide, ?_⟩
  rintro ⟨m, hm, hpre⟩
  rw [List.mem_singleton] at hm
  subst hm
  exact hne (List.prefix_nil.1 hpre)

end Godegraph
